import Mathlib

/-!
Verification of the Inkwell diff/merge engine.

The development shallowly embeds the diff computation (`src/lib/diff.js`,
mirrored in `src/renderer.js`), the change grouper, the marker codec
(`src/lib/diffMarkers.js`), the resolution logic of `src/renderer.js`
and the diff state module (`src/lib/diffState.js`).  Strings are
embedded as `List Char`; the synthetic code points allocated by the word
map are embedded as unbounded naturals.  The third-party
`diff-match-patch` library is not part of the repository; its
`diff_main` and `diff_cleanupSemantic` entry points are modelled from
the specification (a Myers-style longest-common-subsequence diff
followed by a lossless semantic cleanup pass).
-/

set_option maxHeartbeats 1000000

/-- Token of the word-level tokenizer: a maximal run of non-whitespace
or whitespace characters, kept as a character list. -/
abbrev Token := List Char

/-- Character class used by the tokenizer regex `/\S+|\s+/g`: the
JavaScript `\s` class (space, tab, line terminators, and the Unicode
space separators). -/
def isJsWhitespace (c : Char) : Bool :=
  c = ' ' || c = '\t' || c = '\n' || c = '\x0b' || c = '\x0c' || c = '\r' ||
  c = ' ' || c = ' ' || (' ' ≤ c && c ≤ ' ') ||
  c = ' ' || c = ' ' || c = ' ' || c = ' ' ||
  c = '　' || c = '﻿'

/-- Tokenizer of `computeWordDiff`: `text.match(/\S+|\s+/g) || []`
splits the input into maximal runs of same-class characters.  The
recursion is the right-fold formulation of maximal-run splitting: a
character merges into the following token exactly when both are in the
same class, so every emitted token is a maximal same-class run and
their concatenation is the input.  The empty-token branch never occurs
(tokens are nonempty by construction). -/
def tokenize : List Char → List Token
  | [] => []
  | c :: cs =>
    match tokenize cs with
    | [] => [[c]]
    | [] :: ts => [c] :: [] :: ts
    | (d :: t) :: ts =>
      if isJsWhitespace c = isJsWhitespace d then (c :: d :: t) :: ts
      else [c] :: (d :: t) :: ts

/-- Index of the first occurrence of a token in the word list (0 when
absent is never used: callers guarantee membership). -/
def idxOf (t : Token) : List Token → Nat
  | [] => 0
  | u :: us => if u = t then 0 else idxOf t us + 1

/-- Word-map insertion step: `getWordChar` adds a token to the map the
first time it is seen; the map is embedded as the list of distinct
tokens in first-encounter order. -/
def addToken (wl : List Token) (t : Token) : List Token :=
  if t ∈ wl then wl else wl ++ [t]

/-- Scanning a token sequence extends the word list with every token
not yet present, in first-encounter order. -/
def buildMap (wl : List Token) (ts : List Token) : List Token :=
  ts.foldl addToken wl

/-- Word list produced by `computeWordDiff` for a pair of inputs:
original tokens are scanned first, proposed tokens second. -/
def wordListFor (a b : List Char) : List Token :=
  buildMap (buildMap [] (tokenize a)) (tokenize b)

/-- Code unit of a token in a word list: `getWordChar` hands out
`String.fromCharCode(0x100 + discovery index)`, and ECMAScript's
`String.fromCharCode` applies ToUint16, so the produced UTF-16 code
unit is `0x100` plus the token's position in the discovery-ordered
word list, reduced modulo `2^16`.  The stateful allocation of the
source is eliminated: the code a token receives at first encounter
equals its index in the final list. -/
def getWordChar (wl : List Token) (t : Token) : Nat :=
  (0x100 + idxOf t wl) % 65536

/-- Index-based code inverse: the token at a code's discovery index,
`none` for codes never allocated.  This is not the source's reverse
map; it agrees with `revLookup` exactly in the bounded regime (codes
at least `0x100`, word list small enough that no code unit wraps), the
bridge proved by `revLookup_eq_decodeChar`. -/
def decodeChar (wl : List Token) (code : Nat) : Option Token :=
  wl.get? (code - 0x100)

/-- Reverse map of `computeWordDiff` as the source builds it:
`wordMap.forEach((char, word) => reverseMap.set(char, word))` walks the
map in insertion order and `set` overwrites, so a code unit maps to the
last token whose (wrapped) code unit equals it, and to nothing if no
token produced it. -/
def revLookup (wl : List Token) (code : Nat) : Option Token :=
  (List.range wl.length).foldl
    (fun acc i => if (0x100 + i) % 65536 = code then wl.get? i else acc) none

/-- UTF-16 high (leading) surrogate test on a code unit. -/
def isHighSurrogate (c : Nat) : Bool :=
  0xD800 ≤ c && c ≤ 0xDBFF

/-- UTF-16 low (trailing) surrogate test on a code unit. -/
def isLowSurrogate (c : Nat) : Bool :=
  0xDC00 ≤ c && c ≤ 0xDFFF

/-- Code point assembled from a surrogate pair. -/
def combineSurrogates (h l : Nat) : Nat :=
  0x10000 + (h - 0xD800) * 0x400 + (l - 0xDC00)

/-- Code-point iteration of a JavaScript string, as performed by
`for (const char of chars)`: a high surrogate immediately followed by a
low surrogate is consumed as one combined code point; every other code
unit, lone surrogates included, is yielded on its own. -/
def pointsOf : List Nat → List Nat
  | [] => []
  | [c] => [c]
  | c :: c2 :: rest =>
    if isHighSurrogate c && isLowSurrogate c2 then
      combineSurrogates c c2 :: pointsOf rest
    else c :: pointsOf (c2 :: rest)

/-- Diff segment of the character-level diff: an operation (−1 delete,
0 equal, 1 insert) together with the coded substring. -/
abbrev CSeg := Int × List Nat

/-- Length of the longest common subsequence of two coded strings,
with a structural fuel bound (the combined length always suffices). -/
def lcsLenF : Nat → List Nat → List Nat → Nat
  | _, [], _ => 0
  | _, _ :: _, [] => 0
  | 0, _ :: _, _ :: _ => 0
  | Nat.succ fuel, x :: xs, y :: ys =>
    if x = y then lcsLenF fuel xs ys + 1
    else max (lcsLenF fuel xs (y :: ys)) (lcsLenF fuel (x :: xs) ys)

/-- Length of the longest common subsequence of two coded strings. -/
def lcsLen (xs ys : List Nat) : Nat :=
  lcsLenF (xs.length + ys.length) xs ys

/-- Prepends one coded character with the given operation, merging it
into the head segment when the head carries the same operation. -/
def consOp (op : Int) (c : Nat) : List CSeg → List CSeg
  | [] => [(op, [c])]
  | (op2, s) :: rest =>
    if op2 = op then (op, c :: s) :: rest else (op, [c]) :: (op2, s) :: rest

/-- Modelled from the spec: `diff_main` of the external diff-match-patch
library (not part of this repository), described in the specification as
a classic Myers-style longest-common-subsequence diff over the two coded
strings.  Identical inputs give one equal segment (empty inputs give an
empty diff) and a one-sided input gives a single insert or delete
segment, matching the documented edge cases. -/
def diffMainF : Nat → List Nat → List Nat → List CSeg
  | _, [], [] => []
  | _, [], y :: ys => [(1, y :: ys)]
  | _, x :: xs, [] => [(-1, x :: xs)]
  | 0, x :: xs, y :: ys => [(-1, x :: xs), (1, y :: ys)]
  | Nat.succ fuel, x :: xs, y :: ys =>
    if x = y then consOp 0 x (diffMainF fuel xs ys)
    else if lcsLen xs (y :: ys) ≥ lcsLen (x :: xs) ys then
      consOp (-1) x (diffMainF fuel xs (y :: ys))
    else
      consOp 1 y (diffMainF fuel (x :: xs) ys)

/-- Modelled from the spec: entry point of the diff, handing the
recursion a structural fuel bound that the combined input length always
satisfies (the fuel-exhausted branch, never reached, still projects to
both inputs). -/
def diffMain (xs ys : List Nat) : List CSeg :=
  diffMainF (xs.length + ys.length) xs ys

/-- Insertion and deletion lengths accumulated until the next equal
segment, used by the semantic cleanup condition. -/
def editLens : List CSeg → Nat × Nat
  | [] => (0, 0)
  | (op, s) :: rest =>
    if op = 0 then (0, 0)
    else
      let p := editLens rest
      if op = 1 then (p.1 + s.length, p.2) else (p.1, p.2 + s.length)

/-- Modelled from the spec: the dissolving half of the semantic cleanup
pass of diff-match-patch (`diff_cleanupSemantic`, external to this
repository).  An equality that is not meaningfully separating — no
longer than the edits on either side — is dissolved into a delete plus
an insert of the same text, so the surrounding edits become one
contiguous edit after merging.  The rewrite is lossless: both the
delete-side and the insert-side projections of the diff are unchanged. -/
def dissolve (insB delB : Nat) : List CSeg → List CSeg
  | [] => []
  | (op, s) :: rest =>
    if op = 0 then
      let p := editLens rest
      if s ≠ [] ∧ s.length ≤ max insB delB ∧ s.length ≤ max p.1 p.2 then
        (-1, s) :: (1, s) :: dissolve s.length s.length rest
      else
        (0, s) :: dissolve 0 0 rest
    else if op = 1 then (op, s) :: dissolve (insB + s.length) delB rest
    else (op, s) :: dissolve insB (delB + s.length) rest

/-- Modelled from the spec: the merging half of the semantic cleanup
pass (`diff_cleanupMerge` behaviour relied on by
`diff_cleanupSemantic`): empty segments are dropped and adjacent
segments with the same operation are coalesced. -/
def cleanupMerge : List CSeg → List CSeg
  | [] => []
  | (op, s) :: rest =>
    if s = [] then cleanupMerge rest
    else
      match cleanupMerge rest with
      | (op2, s2) :: merged => if op2 = op then (op, s ++ s2) :: merged
                               else (op, s) :: (op2, s2) :: merged
      | [] => [(op, s)]

/-- Modelled from the spec: `diff_cleanupSemantic` of diff-match-patch,
the lossless semantic cleanup applied by `computeWordDiff` between the
character diff and the token expansion. -/
def cleanupSemantic (segs : List CSeg) : List CSeg :=
  cleanupMerge (dissolve 0 0 segs)

/-- Diff part of `computeWordDiff`: `{ type: -1 | 0 | 1, text }`. -/
structure DiffPart where
  type : Int
  text : List Char
deriving DecidableEq, Repr

/-- Expansion step of `computeWordDiff`: the segment text is iterated
by code points (`for...of`, coalescing surrogate pairs), every code
point is looked up in the overwriting reverse map, and points without a
reverse entry are skipped. -/
def expandSegs (wl : List Token) (segs : List CSeg) : List DiffPart :=
  segs.flatMap fun seg =>
    (pointsOf seg.2).filterMap fun code =>
      (revLookup wl code).map fun w => DiffPart.mk seg.1 w

/-- Expansion step in the bounded regime: with every code below the
surrogate range the code-point iteration is the identity and the
overwriting reverse map is the index inverse, so the expansion reduces
to this index-based form (the bridge is `expandSegs_eq_ix`). -/
def expandSegsIx (wl : List Token) (segs : List CSeg) : List DiffPart :=
  segs.flatMap fun seg =>
    seg.2.filterMap fun code =>
      (decodeChar wl code).map fun w => DiffPart.mk seg.1 w

/-- Final merging loop of `computeWordDiff`: adjacent parts with the
same type are concatenated. -/
def mergeAdjacent : List DiffPart → List DiffPart
  | [] => []
  | p :: rest =>
    match mergeAdjacent rest with
    | [] => [p]
    | q :: qs =>
      if p.type = q.type then DiffPart.mk p.type (p.text ++ q.text) :: qs
      else p :: q :: qs

/-- Word-level diff of `src/lib/diff.js`: tokenize both sides, encode
tokens as synthetic code points, diff the coded strings, apply the
semantic cleanup, expand codes back to tokens and merge adjacent parts
of the same type. -/
def computeWordDiff (original proposed : List Char) : List DiffPart :=
  let originalTokens := tokenize original
  let proposedTokens := tokenize proposed
  let wl := buildMap (buildMap [] originalTokens) proposedTokens
  let originalChars := originalTokens.map (getWordChar wl)
  let proposedChars := proposedTokens.map (getWordChar wl)
  let charDiffs := cleanupSemantic (diffMain originalChars proposedChars)
  mergeAdjacent (expandSegs wl charDiffs)

/-- Concatenated text of the Delete and Equal parts of a diff, which
must reconstruct the original input. -/
def delEqText (parts : List DiffPart) : List Char :=
  parts.flatMap fun p => if p.type = 1 then [] else p.text

/-- Concatenated text of the Insert and Equal parts of a diff, which
must reconstruct the proposed input. -/
def insEqText (parts : List DiffPart) : List Char :=
  parts.flatMap fun p => if p.type = -1 then [] else p.text

/-- Change unit of `groupDiffsIntoChanges`:
`{ id: number | null, type: 'equal' | 'change', parts }`. -/
structure ChangeUnit where
  id : Option Nat
  type : String
  parts : List DiffPart
deriving DecidableEq

/-- Scanning loop of `groupDiffsIntoChanges` with the running id
counter.  The source's `while` loop advances only for types −1, 0 and 1
(other tags cannot occur in diff output); the embedding returns the
groups collected so far on any other tag. -/
def groupGo (changeId : Nat) : List DiffPart → List ChangeUnit
  | [] => []
  | d :: rest =>
    if d.type = 0 then ChangeUnit.mk none "equal" [d] :: groupGo changeId rest
    else if d.type = -1 then
      match rest with
      | d2 :: rest2 =>
        if d2.type = 1 then
          ChangeUnit.mk (some changeId) "change" [d, d2] :: groupGo (changeId + 1) rest2
        else
          ChangeUnit.mk (some changeId) "change" [d] :: groupGo (changeId + 1) (d2 :: rest2)
      | [] => [ChangeUnit.mk (some changeId) "change" [d]]
    else if d.type = 1 then
      ChangeUnit.mk (some changeId) "change" [d] :: groupGo (changeId + 1) rest
    else []

/-- Grouper of `src/lib/diff.js`: coalesces a delete immediately
followed by an insert into one change, gives every equal part its own
unit with a null id, and assigns dense increasing ids to changes. -/
def groupDiffsIntoChanges (diffs : List DiffPart) : List ChangeUnit :=
  groupGo 0 diffs

/-- Sequence of non-null ids of a grouped output, in document order. -/
def unitIds (us : List ChangeUnit) : List Nat :=
  us.filterMap (·.id)

/-- Number of units of kind change in a grouped output. -/
def changeCount (us : List ChangeUnit) : Nat :=
  (us.filter fun u => u.type = "change").length

/-- Decimal digit character for a value below ten. -/
def digitChar (d : Nat) : Char :=
  if d = 0 then '0' else if d = 1 then '1' else if d = 2 then '2'
  else if d = 3 then '3' else if d = 4 then '4' else if d = 5 then '5'
  else if d = 6 then '6' else if d = 7 then '7' else if d = 8 then '8' else '9'

/-- Decimal rendering of a natural number, as produced by the template
interpolation `${changeId}` of `buildDiffMarkdown`. -/
def natDigits (n : Nat) : List Char :=
  if h : n < 10 then [digitChar n]
  else natDigits (n / 10) ++ [digitChar (n % 10)]
decreasing_by exact Nat.div_lt_self (by omega) (by omega)

/-- Checks that the first list is a prefix of the second. -/
def startsWith : List Char → List Char → Bool
  | [], _ => true
  | _ :: _, [] => false
  | p :: ps, c :: cs => p = c && startsWith ps cs

/-- Splits a list around the first occurrence of a pattern: the lazy
quantifier `[\s\S]*?` followed by a literal closing pattern captures
everything up to that first occurrence. -/
def splitFirst (pat : List Char) : List Char → Option (List Char × List Char)
  | [] => if startsWith pat [] then some ([], []) else none
  | c :: cs =>
    if startsWith pat (c :: cs) then some ([], (c :: cs).drop pat.length)
    else
      match splitFirst pat cs with
      | some pr => some (c :: pr.1, pr.2)
      | none => none

/-- Attempts the sentinel regex at the head of a list.  The regexes of
`diffMarkers.js` all have the shape `openPre (\d+) openSuf ([\s\S]*?)
close`: a literal opening, one-or-more digits (greedy, and in every
instantiation followed by a non-digit literal, so backtracking never
helps), a literal, a lazy body, and a literal close.  On success the
captured digits, the captured body and the remainder of the input after
the match are returned. -/
def tryMatch (openPre openSuf close l : List Char) :
    Option (List Char × List Char × List Char) :=
  if startsWith openPre l then
    let l1 := l.drop openPre.length
    let digits := l1.takeWhile Char.isDigit
    let l2 := l1.dropWhile Char.isDigit
    if digits.isEmpty then none
    else if startsWith openSuf l2 then
      match splitFirst close (l2.drop openSuf.length) with
      | some pr => some (digits, pr.1, pr.2)
      | none => none
    else none
  else none

/-- Embedding of `String.prototype.replace` with a global sentinel
regex: the input is scanned left to right, each leftmost match is
rewritten through `build` (the replacement text is not rescanned, as in
JavaScript), and scanning resumes after the match. -/
def replaceTagged (openPre openSuf close : List Char)
    (build : List Char → List Char → List Char) : List Char → List Char
  | [] => []
  | c :: rest =>
    match h : tryMatch openPre openSuf close (c :: rest) with
    | some pr => build pr.1 pr.2.1 ++ replaceTagged openPre openSuf close build pr.2.2
    | none => c :: replaceTagged openPre openSuf close build rest
termination_by l => l.length
decreasing_by
  · have hbound : ∀ (op os cl l : List Char) pr, tryMatch op os cl l = some pr →
        pr.2.2.length < l.length := by
      intro op os cl l pr hm
      have hsplit : ∀ pat (m : List Char) pr2, splitFirst pat m = some pr2 →
          pr2.2.length ≤ m.length := by
        intro pat m
        induction m with
        | nil =>
          intro pr2 hpr
          simp only [splitFirst] at hpr
          split at hpr
          · cases hpr; simp
          · simp at hpr
        | cons x xs ih =>
          intro pr2 hpr
          simp only [splitFirst] at hpr
          split at hpr
          · cases hpr
            simp only [List.length_cons]
            have := List.length_drop pat.length (x :: xs)
            simp only [List.length_cons] at this
            omega
          · cases hsub : splitFirst pat xs with
            | none => rw [hsub] at hpr; simp at hpr
            | some pr3 =>
              rw [hsub] at hpr
              cases hpr
              have := ih pr3 hsub
              simp only [List.length_cons]
              omega
      simp only [tryMatch] at hm
      split at hm
      next hpre =>
        split at hm
        next => simp at hm
        next hdig =>
          split at hm
          next hsuf =>
            cases hsp : splitFirst cl (((l.drop op.length).dropWhile Char.isDigit).drop os.length) with
            | none => rw [hsp] at hm; simp at hm
            | some pr0 =>
              rw [hsp] at hm
              cases hm
              have h1 := hsplit cl _ _ hsp
              have h2 : (((l.drop op.length).dropWhile Char.isDigit).length +
                  ((l.drop op.length).takeWhile Char.isDigit).length =
                  (l.drop op.length).length) := by
                have hsplit2 := List.takeWhile_append_dropWhile (p := Char.isDigit)
                  (l := l.drop op.length)
                have hlen := congrArg List.length hsplit2
                simp only [List.length_append] at hlen
                omega
              have h4 : 1 ≤ ((l.drop op.length).takeWhile Char.isDigit).length := by
                cases hc : (l.drop op.length).takeWhile Char.isDigit with
                | nil => rw [hc] at hdig; simp at hdig
                | cons _ _ => simp
              have h5 := List.length_drop os.length ((l.drop op.length).dropWhile Char.isDigit)
              have h6 := List.length_drop op.length l
              have h7 : l ≠ [] := by
                intro hnil
                subst hnil
                simp at h4
              cases l with
              | nil => exact absurd rfl h7
              | cons a as => simp only [List.length_cons] at h6 ⊢; omega
          next => simp at hm
      next => simp at hm
    exact hbound _ _ _ _ _ h
  · simp +arith [List.length_cons]

/-- Opening literal of the delete sentinel marker `\x00DEL`. -/
def delOpenPre : List Char := ['\x00', 'D', 'E', 'L']

/-- Opening literal of the insert sentinel marker `\x00INS`. -/
def insOpenPre : List Char := ['\x00', 'I', 'N', 'S']

/-- Null byte terminating the id of a sentinel marker. -/
def nulSuf : List Char := ['\x00']

/-- Closing literal of the delete sentinel marker `\x00/DEL\x00`. -/
def delClose : List Char := ['\x00', '/', 'D', 'E', 'L', '\x00']

/-- Closing literal of the insert sentinel marker `\x00/INS\x00`. -/
def insClose : List Char := ['\x00', '/', 'I', 'N', 'S', '\x00']

/-- Opening literal of the delete placeholder tag. -/
def phDelOpenPre : List Char := "<diffdelete data-id=\"".toList

/-- Opening literal of the insert placeholder tag. -/
def phInsOpenPre : List Char := "<diffinsert data-id=\"".toList

/-- Literal closing the id attribute of a placeholder tag. -/
def phOpenSuf : List Char := "\">".toList

/-- Closing literal of the delete placeholder tag. -/
def phDelClose : List Char := "</diffdelete>".toList

/-- Closing literal of the insert placeholder tag. -/
def phInsClose : List Char := "</diffinsert>".toList

/-- Replacement template `<diffdelete data-id="$1">$2</diffdelete>`. -/
def buildDelPlaceholder (d c : List Char) : List Char :=
  phDelOpenPre ++ d ++ phOpenSuf ++ c ++ phDelClose

/-- Replacement template `<diffinsert data-id="$1">$2</diffinsert>`. -/
def buildInsPlaceholder (d c : List Char) : List Char :=
  phInsOpenPre ++ d ++ phOpenSuf ++ c ++ phInsClose

/-- Replacement template for the final delete span. -/
def buildDelSpan (d c : List Char) : List Char :=
  "<span class=\"diff-delete\" data-change-id=\"".toList ++ d ++ "\">".toList ++
    c ++ "</span>".toList

/-- Replacement template for the final insert span. -/
def buildInsSpan (d c : List Char) : List Char :=
  "<span class=\"diff-insert\" data-change-id=\"".toList ++ d ++ "\">".toList ++
    c ++ "</span>".toList

/-- First conversion of `diffMarkers.js`: internal sentinel markers
become placeholder tags, the delete pattern replaced first, then the
insert pattern over the result. -/
def markersToPlaceholders (text : List Char) : List Char :=
  replaceTagged insOpenPre nulSuf insClose buildInsPlaceholder
    (replaceTagged delOpenPre nulSuf delClose buildDelPlaceholder text)

/-- Second conversion of `diffMarkers.js`: placeholder tags become the
final presentational spans, again delete pattern first. -/
def placeholdersToSpans (html : List Char) : List Char :=
  replaceTagged phInsOpenPre phOpenSuf phInsClose buildInsSpan
    (replaceTagged phDelOpenPre phOpenSuf phDelClose buildDelSpan html)

/-- Serialization of `buildDiffMarkdown`: equal units pass their first
part's text through; each delete or insert part of a change unit is
wrapped in its sentinel markers carrying the unit id in decimal. -/
def buildDiffMarkdown (changes : List ChangeUnit) : List Char :=
  changes.flatMap fun change =>
    if change.type = "equal" then (change.parts.headD (DiffPart.mk 0 [])).text
    else change.parts.flatMap fun part =>
      if part.type = -1 then
        delOpenPre ++ natDigits (change.id.getD 0) ++ nulSuf ++ part.text ++ delClose
      else if part.type = 1 then
        insOpenPre ++ natDigits (change.id.getD 0) ++ nulSuf ++ part.text ++ insClose
      else []

/-- Expected final markup for a change-unit sequence, stated from the
claim: equal unit text passes through unmodified and every non-equal
part becomes a span carrying its unit id and its exact text. -/
def renderUnits (changes : List ChangeUnit) : List Char :=
  changes.flatMap fun change =>
    if change.type = "equal" then (change.parts.headD (DiffPart.mk 0 [])).text
    else change.parts.flatMap fun part =>
      if part.type = -1 then buildDelSpan (natDigits (change.id.getD 0)) part.text
      else if part.type = 1 then buildInsSpan (natDigits (change.id.getD 0)) part.text
      else []

/-- Composition examined by the round-trip claim: serialize the units,
convert markers to placeholders, then placeholders to spans. -/
def diffPipeline (units : List ChangeUnit) : List Char :=
  placeholdersToSpans (markersToPlaceholders (buildDiffMarkdown units))

/-- Checks whether any suffix of the input begins a full sentinel
match, the embedded meaning of the regex finding a matched pair. -/
def hasMatchIn (openPre openSuf close t : List Char) : Bool :=
  t.tails.any fun y => (tryMatch openPre openSuf close y).isSome

/-- Per-session change record of the resolution engine: the grouped
change with the `resolved` / `accepted` / `rejected` flags the renderer
mutates in place. -/
structure ResChange where
  id : Option Nat
  type : String
  parts : List DiffPart
  resolved : Bool
  accepted : Bool
  rejected : Bool
deriving DecidableEq

/-- Mutation performed by `acceptSingleChange` on the found unit. -/
def setAccepted (c : ResChange) : ResChange :=
  { c with resolved := true, accepted := true }

/-- Mutation performed by `rejectSingleChange` on the found unit. -/
def setRejected (c : ResChange) : ResChange :=
  { c with resolved := true, rejected := true }

/-- In-place update of the first list element with the given id, the
embedding of mutating the object returned by `Array.prototype.find`. -/
def updateFirstById (f : ResChange → ResChange) (changeId : Nat) :
    List ResChange → List ResChange
  | [] => []
  | c :: cs =>
    if c.id = some changeId then f c :: cs
    else c :: updateFirstById f changeId cs

/-- State effect of `acceptSingleChange` in `renderer.js`: find the
change by id; if it is absent or already resolved, do nothing, else
mark it resolved and accepted. -/
def acceptSingleChange (changes : List ResChange) (changeId : Nat) : List ResChange :=
  match changes.find? (fun c => c.id = some changeId) with
  | none => changes
  | some c => if c.resolved then changes else updateFirstById setAccepted changeId changes

/-- State effect of `rejectSingleChange` in `renderer.js`. -/
def rejectSingleChange (changes : List ResChange) (changeId : Nat) : List ResChange :=
  match changes.find? (fun c => c.id = some changeId) with
  | none => changes
  | some c => if c.resolved then changes else updateFirstById setRejected changeId changes

/-- Either resolution, selected by the decision flag. -/
def resolveSingleChange (accept : Bool) (changes : List ResChange) (changeId : Nat) :
    List ResChange :=
  if accept then acceptSingleChange changes changeId else rejectSingleChange changes changeId

/-- Count of unresolved change units computed by
`checkAllChangesResolved`. -/
def unresolvedCount (changes : List ResChange) : Nat :=
  (changes.filter fun c => c.type = "change" && !c.resolved).length

/-- Diff-related state of `src/lib/diffState.js`. -/
structure DiffState where
  hasPendingDiff : Bool
  originalContent : List Char
  originalHtml : List Char
  originalFullContent : List Char
  proposedContent : List Char
  proposedHtml : List Char
  isSelectionEdit : Bool
  selectedText : List Char
  selectionStart : Nat
  selectionEnd : Nat
  diffChanges : List ResChange
deriving DecidableEq

/-- Initial diff state of `createInitialDiffState`. -/
def createInitialDiffState : DiffState where
  hasPendingDiff := false
  originalContent := []
  originalHtml := []
  originalFullContent := []
  proposedContent := []
  proposedHtml := []
  isSelectionEdit := false
  selectedText := []
  selectionStart := 0
  selectionEnd := 0
  diffChanges := []

/-- State effect of `clearDiffState`: every diff-related field,
including the three selection fields, is reset to its initial value on
the given state object. -/
def clearDiffState (state : DiffState) : DiffState :=
  { state with
    hasPendingDiff := false
    originalContent := []
    originalHtml := []
    originalFullContent := []
    proposedContent := []
    proposedHtml := []
    isSelectionEdit := false
    selectedText := []
    selectionStart := 0
    selectionEnd := 0
    diffChanges := [] }

/-- Index of the first occurrence of a needle in a haystack, the
embedding of `String.prototype.indexOf` (`none` for −1). -/
def indexOfSub (needle : List Char) : List Char → Option Nat
  | [] => if needle = [] then some 0 else none
  | c :: t =>
    if startsWith needle (c :: t) then some 0
    else (indexOfSub needle t).map (· + 1)

/-- Text produced by `acceptChanges` in `renderer.js`: for a selection
edit, the first occurrence of the original sub-span inside the full
document is replaced with the proposed text; with no occurrence — and
for whole-document sessions — the proposed text is used verbatim. -/
def spliceAccept (isSelectionEdit : Bool)
    (originalFullContent originalContent proposedContent : List Char) : List Char :=
  if isSelectionEdit then
    match indexOfSub originalContent originalFullContent with
    | some idx =>
      originalFullContent.take idx ++ proposedContent ++
        originalFullContent.drop (idx + originalContent.length)
    | none => proposedContent
  else proposedContent

/-- Sentinel marker block emitted by `buildDiffMarkdown` for an insert
part. -/
def insMarkerBlock (d t : List Char) : List Char :=
  insOpenPre ++ d ++ nulSuf ++ t ++ insClose

/-- Segment view of a string scanned by one `replaceTagged` pass: a
literal piece the pass must copy verbatim, or a block
`openPre ++ digits ++ openSuf ++ body ++ close` the pass must rewrite. -/
inductive MSeg where
  | lit : List Char → MSeg
  | blk : List Char → List Char → MSeg
deriving DecidableEq

/-- Concatenation of a segment list as seen by the pass's input. -/
def flattenIn (openPre openSuf close : List Char) : List MSeg → List Char
  | [] => []
  | MSeg.lit t :: rest => t ++ flattenIn openPre openSuf close rest
  | MSeg.blk d c :: rest =>
    openPre ++ (d ++ (openSuf ++ (c ++ (close ++ flattenIn openPre openSuf close rest))))

/-- Concatenation of a segment list after the pass rewrote every
block through its replacement template. -/
def flattenOut (build : List Char → List Char → List Char) : List MSeg → List Char
  | [] => []
  | MSeg.lit t :: rest => t ++ flattenOut build rest
  | MSeg.blk d c :: rest => build d c ++ flattenOut build rest

/-- Literal piece safety for a pass: no nonempty suffix of the piece,
continued by the given remainder, begins a match of the pass's regex. -/
def noMatchWithin (openPre openSuf close t v : List Char) : Prop :=
  ∀ y ∈ t.tails, y ≠ [] → tryMatch openPre openSuf close (y ++ v) = none

/-- Well-formedness of a segment list for one pass, relative to a
continuation that follows the segments in the scanned string: literal
pieces start no match into the rest of the string, and blocks carry a
nonempty all-digit id and a body free of the close's first character. -/
def segsOK (openPre openSuf close v : List Char) : List MSeg → Prop
  | [] => True
  | MSeg.lit t :: rest =>
    noMatchWithin openPre openSuf close t (flattenIn openPre openSuf close rest ++ v) ∧
      segsOK openPre openSuf close v rest
  | MSeg.blk d c :: rest =>
    d ≠ [] ∧ (∀ ch ∈ d, ch.isDigit = true) ∧ close.headI ∉ c ∧
      segsOK openPre openSuf close v rest

/-- Segment view of `buildDiffMarkdown` output for the delete-marker
pass: delete marker blocks are the blocks, everything else literal. -/
def segs1 (us : List ChangeUnit) : List MSeg :=
  us.flatMap fun change =>
    if change.type = "equal" then [MSeg.lit (change.parts.headD (DiffPart.mk 0 [])).text]
    else change.parts.flatMap fun part =>
      if part.type = -1 then [MSeg.blk (natDigits (change.id.getD 0)) part.text]
      else if part.type = 1 then
        [MSeg.lit (insMarkerBlock (natDigits (change.id.getD 0)) part.text)]
      else []

/-- Segment view of the delete-marker pass output for the
insert-marker pass. -/
def segs2 (us : List ChangeUnit) : List MSeg :=
  us.flatMap fun change =>
    if change.type = "equal" then [MSeg.lit (change.parts.headD (DiffPart.mk 0 [])).text]
    else change.parts.flatMap fun part =>
      if part.type = -1 then
        [MSeg.lit (buildDelPlaceholder (natDigits (change.id.getD 0)) part.text)]
      else if part.type = 1 then [MSeg.blk (natDigits (change.id.getD 0)) part.text]
      else []

/-- Segment view of `markersToPlaceholders` output for the
delete-placeholder pass. -/
def segs3 (us : List ChangeUnit) : List MSeg :=
  us.flatMap fun change =>
    if change.type = "equal" then [MSeg.lit (change.parts.headD (DiffPart.mk 0 [])).text]
    else change.parts.flatMap fun part =>
      if part.type = -1 then [MSeg.blk (natDigits (change.id.getD 0)) part.text]
      else if part.type = 1 then
        [MSeg.lit (buildInsPlaceholder (natDigits (change.id.getD 0)) part.text)]
      else []

/-- Segment view of the delete-placeholder pass output for the
insert-placeholder pass. -/
def segs4 (us : List ChangeUnit) : List MSeg :=
  us.flatMap fun change =>
    if change.type = "equal" then [MSeg.lit (change.parts.headD (DiffPart.mk 0 [])).text]
    else change.parts.flatMap fun part =>
      if part.type = -1 then
        [MSeg.lit (buildDelSpan (natDigits (change.id.getD 0)) part.text)]
      else if part.type = 1 then [MSeg.blk (natDigits (change.id.getD 0)) part.text]
      else []

/-- Checks whether a text is a sentinel word followed by one or more
digits and nothing else — the only clean texts able to complete a
phantom sentinel match against the marker framing. -/
def sentinelLike (w t : List Char) : Bool :=
  startsWith w t && !(t.drop w.length).isEmpty && (t.drop w.length).all Char.isDigit

/-- Text safety for the round-trip theorem: no null byte, no `<`, and
not of the shape `DEL<digits>`.  Each exclusion is forced by a proved
counterexample: a `<` admits placeholder-tag lookalikes, and a
`DEL<digits>` text adjacent to marker framing completes a phantom
sentinel match. -/
def textOk (t : List Char) : Bool :=
  t.all (fun c => !(c = '\x00') && !(c = '<')) && !sentinelLike ['D', 'E', 'L'] t

/-- Unit safety for the round-trip theorem.  An equal unit must hold at
least one part (the source reads `change.parts[0].text`, which throws on
an empty array) and its emitted head text must be safe.  A change unit
must carry an id, must hold at least one delete or insert part (a change
unit emitting nothing re-joins the texts around it, which a proved
counterexample shows breaks the round trip), and every delete or insert
part's text must be safe; parts of any other type are skipped by the
serializer and the expected markup alike, so their texts are
unconstrained. -/
def unitOk (u : ChangeUnit) : Bool :=
  if u.type = "equal" then
    match u.parts with
    | [] => false
    | p :: _ => textOk p.text
  else
    u.id.isSome &&
      u.parts.any (fun p => p.type = -1 || p.type = 1) &&
      u.parts.all (fun p => !(p.type = -1 || p.type = 1) || textOk p.text)

/-- Checks that no two consecutive units are both equal units, the
shape `groupDiffsIntoChanges` always produces. -/
def noAdjacentEquals : List ChangeUnit → Bool
  | u :: v :: rest => !(u.type = "equal" && v.type = "equal") && noAdjacentEquals (v :: rest)
  | _ => true

/-- Safety hypothesis of the amended round-trip claim. -/
def safeUnits (us : List ChangeUnit) : Bool :=
  us.all unitOk && noAdjacentEquals us

/-- Checks that some aligned position of two lists holds two different
characters: a match attempt failing inside the scanned piece itself,
whatever follows it. -/
def mismatchZip (y z : List Char) : Bool :=
  (y.zip z).any fun p => !(p.1 = p.2)

/-- Decidable literal-piece safety: every nonempty suffix of the piece
disagrees with the opening literal at some aligned position. -/
def inertPiece (openPre t : List Char) : Bool :=
  t.tails.all fun y => y.isEmpty || mismatchZip y openPre

/-- Delete-side projection of a character diff: the concatenation of
its delete and equal segments, which must equal the first coded
input. -/
def projDel (segs : List CSeg) : List Nat :=
  segs.flatMap fun s => if s.1 = 1 then [] else s.2

/-- Insert-side projection of a character diff: the concatenation of
its insert and equal segments, which must equal the second coded
input. -/
def projIns (segs : List CSeg) : List Nat :=
  segs.flatMap fun s => if s.1 = -1 then [] else s.2

/-- Adversarial word token: a run of `i + 1` letters `a`.  Distinct
indices give distinct tokens; used to build counterexample inputs with
very large vocabularies. -/
def wtok (i : Nat) : Token :=
  List.replicate (i + 1) 'a'

/-- Adversarial whitespace token: a run of `i + 1` spaces.  Whitespace
runs of distinct lengths are distinct tokens of the `/\S+|\s+/g`
tokenizer, so a text can hold arbitrarily many distinct tokens. -/
def stok (i : Nat) : Token :=
  List.replicate (i + 1) ' '

/-- Alternating counterexample token sequence: `n` word/whitespace
pairs of strictly growing length starting at index `i`, so all `2 n`
tokens are pairwise distinct and the word map enumerates them in text
order. -/
def abTokens : Nat → Nat → List Token
  | 0, _ => []
  | Nat.succ k, i => wtok i :: stok i :: abTokens k (i + 1)

/-- Counterexample input string: the concatenation of the alternating
token sequence. -/
def abStr (n i : Nat) : List Char :=
  (abTokens n i).flatten

/-- Code units the word map assigns to the alternating token sequence
while codes stay below `2^16`: consecutive naturals from
`0x100 + 2 i`. -/
def codeList : Nat → Nat → List Nat
  | 0, _ => []
  | Nat.succ k, j => (0x100 + 2 * j) :: (0x100 + 2 * j + 1) :: codeList k (j + 1)

theorem startsWith_append_self : ∀ (p r : List Char), startsWith p (p ++ r) = true := by
  intro p
  induction p with
  | nil => intro r; rfl
  | cons a p ih => intro r; simp [startsWith, ih r]

theorem startsWith_split : ∀ (p l : List Char), startsWith p l = true →
    l = p ++ l.drop p.length := by
  intro p
  induction p with
  | nil => intro l _; simp
  | cons a p ih =>
    intro l h
    cases l with
    | nil => simp [startsWith] at h
    | cons c cs =>
      simp only [startsWith, Bool.and_eq_true, decide_eq_true_eq] at h
      obtain ⟨rfl, h2⟩ := h
      simpa using ih cs h2

theorem startsWith_of_append_le : ∀ (p x v : List Char), p.length ≤ x.length →
    startsWith p (x ++ v) = true → startsWith p x = true := by
  intro p
  induction p with
  | nil => intro x v _ _; rfl
  | cons a p ih =>
    intro x v hlen h
    cases x with
    | nil => simp at hlen
    | cons c cs =>
      simp only [startsWith, List.cons_append, Bool.and_eq_true] at h ⊢
      exact ⟨h.1, ih cs v (by simpa using hlen) h.2⟩

theorem takeWhile_all_append (q : Char → Bool) : ∀ (d r : List Char),
    (∀ ch ∈ d, q ch = true) → (d ++ r).takeWhile q = d ++ r.takeWhile q := by
  intro d
  induction d with
  | nil => intro r _; rfl
  | cons a d ih =>
    intro r h
    rw [List.cons_append, List.takeWhile_cons, if_pos (h a (List.mem_cons_self a d)),
      ih r fun ch hch => h ch (List.mem_cons_of_mem a hch)]
    rfl

theorem dropWhile_all_append (q : Char → Bool) : ∀ (d r : List Char),
    (∀ ch ∈ d, q ch = true) → (d ++ r).dropWhile q = r.dropWhile q := by
  intro d
  induction d with
  | nil => intro r _; rfl
  | cons a d ih =>
    intro r h
    rw [List.cons_append, List.dropWhile_cons, if_pos (h a (List.mem_cons_self a d)),
      ih r fun ch hch => h ch (List.mem_cons_of_mem a hch)]

theorem splitFirst_exact : ∀ (pat c v : List Char), pat ≠ [] → pat.headI ∉ c →
    splitFirst pat (c ++ pat ++ v) = some (c, v) := by
  intro pat c
  induction c with
  | nil =>
    intro v hne _
    cases pat with
    | nil => exact absurd rfl hne
    | cons pc ps =>
      show splitFirst (pc :: ps) (pc :: (ps ++ v)) = some ([], v)
      simp only [splitFirst]
      rw [if_pos (by simpa using startsWith_append_self (pc :: ps) v)]
      have h2 : ((pc :: ps) ++ v).drop (pc :: ps).length = v := List.drop_left _ _
      simpa using h2
  | cons ch c ih =>
    intro v hne hmem
    have hch : pat.headI ≠ ch := by
      intro he
      exact hmem (he ▸ List.mem_cons_self ch c)
    have hsw : startsWith pat (ch :: (c ++ pat ++ v)) = false := by
      cases hpat : pat with
      | nil => exact absurd hpat hne
      | cons pc ps =>
        have hpc : pc ≠ ch := by
          rw [hpat] at hch
          simpa [List.headI] using hch
        simp [startsWith, hpc]
    have hstep : splitFirst pat ((ch :: c) ++ pat ++ v) =
        match splitFirst pat (c ++ pat ++ v) with
        | some pr => some (ch :: pr.1, pr.2)
        | none => none := by
      show splitFirst pat (ch :: (c ++ pat ++ v)) = _
      simp only [splitFirst, hsw, Bool.false_eq_true, if_false]
    rw [hstep, ih v hne fun hm => hmem (List.mem_cons_of_mem ch hm)]
theorem tryMatch_block (p1 p2 p3 : List Char) (d c v : List Char)
    (hd : d ≠ []) (hdig : ∀ ch ∈ d, ch.isDigit = true)
    (hp2 : p2 ≠ []) (hp2h : p2.headI.isDigit = false)
    (hp3 : p3 ≠ []) (hcfree : p3.headI ∉ c) :
    tryMatch p1 p2 p3 (p1 ++ (d ++ (p2 ++ (c ++ (p3 ++ v))))) = some (d, c, v) := by
  have hsw : startsWith p1 (p1 ++ (d ++ (p2 ++ (c ++ (p3 ++ v))))) = true :=
    startsWith_append_self p1 _
  have hdrop : (p1 ++ (d ++ (p2 ++ (c ++ (p3 ++ v))))).drop p1.length =
      d ++ (p2 ++ (c ++ (p3 ++ v))) := List.drop_left _ _
  have htake : (d ++ (p2 ++ (c ++ (p3 ++ v)))).takeWhile Char.isDigit = d := by
    rw [takeWhile_all_append Char.isDigit d _ hdig]
    cases hp2c : p2 with
    | nil => exact absurd hp2c hp2
    | cons a p2t =>
      rw [hp2c] at hp2h
      simp only [List.headI] at hp2h
      simp only [List.cons_append, List.takeWhile_cons, hp2h]
      simp
  have hdropw : (d ++ (p2 ++ (c ++ (p3 ++ v)))).dropWhile Char.isDigit =
      p2 ++ (c ++ (p3 ++ v)) := by
    rw [dropWhile_all_append Char.isDigit d _ hdig]
    cases hp2c : p2 with
    | nil => exact absurd hp2c hp2
    | cons a p2t =>
      rw [hp2c] at hp2h
      simp only [List.headI] at hp2h
      simp only [List.cons_append, List.dropWhile_cons, hp2h]
      simp
  have hsw2 : startsWith p2 (p2 ++ (c ++ (p3 ++ v))) = true := startsWith_append_self p2 _
  have hdrop2 : (p2 ++ (c ++ (p3 ++ v))).drop p2.length = c ++ (p3 ++ v) := List.drop_left _ _
  have hsplit : splitFirst p3 (c ++ (p3 ++ v)) = some (c, v) := by
    have := splitFirst_exact p3 c v hp3 hcfree
    simpa [List.append_assoc] using this
  have hde : d.isEmpty = false := by
    cases d with
    | nil => exact absurd rfl hd
    | cons _ _ => rfl
  simp only [tryMatch, hsw, if_pos, hdrop, htake, hdropw, hsw2, hdrop2, hsplit, hde]
  simp
theorem noMatchWithin_tail (p1 p2 p3 : List Char) (c : Char) (t v : List Char)
    (h : noMatchWithin p1 p2 p3 (c :: t) v) : noMatchWithin p1 p2 p3 t v := by
  intro y hy hne
  exact h y (by rw [List.tails_cons]; exact List.mem_cons_of_mem _ hy) hne

theorem replaceTagged_passthrough (p1 p2 p3 : List Char)
    (build : List Char → List Char → List Char) :
    ∀ (t v : List Char), noMatchWithin p1 p2 p3 t v →
      replaceTagged p1 p2 p3 build (t ++ v) = t ++ replaceTagged p1 p2 p3 build v := by
  intro t
  induction t with
  | nil => intro v _; simp
  | cons c t ih =>
    intro v h
    have hnone : tryMatch p1 p2 p3 ((c :: t) ++ v) = none :=
      h (c :: t) (by rw [List.tails_cons]; exact List.mem_cons_self _ _) (by simp)
    rw [List.cons_append] at hnone
    rw [List.cons_append, replaceTagged, hnone, ih v (noMatchWithin_tail p1 p2 p3 c t v h)]
    rfl

theorem mismatchZip_startsWith (y z v : List Char)
    (h : mismatchZip y z = true) : startsWith z (y ++ v) = false := by
  induction y generalizing z with
  | nil => simp [mismatchZip] at h
  | cons c y ih =>
    cases z with
    | nil => simp [mismatchZip] at h
    | cons a z =>
      simp only [mismatchZip, List.zip_cons_cons, List.any_cons, Bool.or_eq_true] at h
      rcases h with h0 | h0
      · have : a ≠ c := by
          intro he
          subst he
          simp at h0
        simp [startsWith, this]
      · have hin := ih z h0
        have hone : startsWith (a :: z) (c :: (y ++ v)) =
            (decide (a = c) && startsWith z (y ++ v)) := rfl
        rw [List.cons_append, hone, hin, Bool.and_false]

theorem tryMatch_none_of_sw_false (p1 p2 p3 l : List Char)
    (h : startsWith p1 l = false) : tryMatch p1 p2 p3 l = none := by
  simp [tryMatch, h]

theorem noMatchWithin_of_inertPiece (p1 p2 p3 t : List Char)
    (h : inertPiece p1 t = true) : ∀ v, noMatchWithin p1 p2 p3 t v := by
  intro v y hy hne
  have hy2 := (List.all_eq_true.mp h) y hy
  have hmz : mismatchZip y p1 = true := by
    rcases Bool.or_eq_true _ _ |>.mp hy2 with h0 | h0
    · exact absurd (List.isEmpty_iff.mp h0) hne
    · exact h0
  exact tryMatch_none_of_sw_false p1 p2 p3 (y ++ v) (mismatchZip_startsWith y p1 v hmz)

theorem noMatchWithin_of_head_notMem (a1 : Char) (p1t p2 p3 t : List Char)
    (h : a1 ∉ t) : ∀ v, noMatchWithin (a1 :: p1t) p2 p3 t v := by
  intro v y hy hne
  obtain ⟨ch, y2, rfl⟩ : ∃ ch y2, y = ch :: y2 := by
    cases y with
    | nil => exact absurd rfl hne
    | cons ch y2 => exact ⟨ch, y2, rfl⟩
  have hsub : ch :: y2 <:+ t := (List.mem_tails _ _).mp hy
  have hch : ch ∈ t := hsub.subset (List.mem_cons_self ch y2)
  have hne2 : a1 ≠ ch := fun he => h (he ▸ hch)
  have hsw : startsWith (a1 :: p1t) ((ch :: y2) ++ v) = false := by
    rw [List.cons_append]
    have hone : startsWith (a1 :: p1t) (ch :: (y2 ++ v)) =
        (decide (a1 = ch) && startsWith p1t (y2 ++ v)) := rfl
    rw [hone]
    simp [hne2]
  exact tryMatch_none_of_sw_false _ p2 p3 _ hsw

theorem noMatchWithin_append (p1 p2 p3 : List Char) :
    ∀ (x z v : List Char), noMatchWithin p1 p2 p3 x (z ++ v) →
      noMatchWithin p1 p2 p3 z v → noMatchWithin p1 p2 p3 (x ++ z) v := by
  intro x
  induction x with
  | nil => intro z v _ hz; simpa using hz
  | cons c x ih =>
    intro z v hx hz
    intro y hy hne
    rw [List.cons_append] at hy
    rw [List.tails_cons] at hy
    rcases List.mem_cons.mp hy with h0 | h0
    · subst h0
      have := hx (c :: x) (by rw [List.tails_cons]; exact List.mem_cons_self _ _) (by simp)
      simpa [List.append_assoc] using this
    · exact ih z v (noMatchWithin_tail p1 p2 p3 c x (z ++ v) hx) hz y h0 hne

theorem noMatchWithin_nil (p1 p2 p3 : List Char) : ∀ v, noMatchWithin p1 p2 p3 [] v := by
  intro v y hy hne
  simp [List.tails] at hy
  exact absurd hy hne

theorem replaceTagged_segs (p1 p2 p3 : List Char)
    (build : List Char → List Char → List Char)
    (hp1 : p1 ≠ []) (hp2 : p2 ≠ []) (hp2h : p2.headI.isDigit = false) (hp3 : p3 ≠ []) :
    ∀ (segs : List MSeg) (v : List Char), segsOK p1 p2 p3 v segs →
      replaceTagged p1 p2 p3 build (flattenIn p1 p2 p3 segs ++ v) =
        flattenOut build segs ++ replaceTagged p1 p2 p3 build v := by
  intro segs
  induction segs with
  | nil => intro v _; simp [flattenIn, flattenOut]
  | cons s rest ih =>
    intro v hok
    cases s with
    | lit t =>
      obtain ⟨hnm, hrest⟩ := hok
      rw [flattenIn, flattenOut, List.append_assoc]
      rw [replaceTagged_passthrough p1 p2 p3 build t _ hnm]
      rw [ih v hrest, List.append_assoc]
    | blk d c =>
      obtain ⟨hd, hdig, hcfree, hrest⟩ := hok
      rw [flattenIn, flattenOut]
      have hmatch : tryMatch p1 p2 p3
          ((p1 ++ (d ++ (p2 ++ (c ++ (p3 ++ flattenIn p1 p2 p3 rest))))) ++ v) =
          some (d, c, flattenIn p1 p2 p3 rest ++ v) := by
        have := tryMatch_block p1 p2 p3 d c (flattenIn p1 p2 p3 rest ++ v)
          hd hdig hp2 hp2h hp3 hcfree
        simpa [List.append_assoc] using this
      obtain ⟨a1, p1t, rfl⟩ : ∃ a1 p1t, p1 = a1 :: p1t := by
        cases p1 with
        | nil => exact absurd rfl hp1
        | cons a1 p1t => exact ⟨a1, p1t, rfl⟩
      have hshape : ((a1 :: p1t) ++ (d ++ (p2 ++ (c ++ (p3 ++ flattenIn (a1 :: p1t) p2 p3 rest))))) ++ v =
          a1 :: ((p1t ++ (d ++ (p2 ++ (c ++ (p3 ++ flattenIn (a1 :: p1t) p2 p3 rest))))) ++ v) := by
        simp
      rw [hshape] at hmatch ⊢
      rw [replaceTagged, hmatch]
      show build d c ++ replaceTagged (a1 :: p1t) p2 p3 build
            (flattenIn (a1 :: p1t) p2 p3 rest ++ v) =
          build d c ++ flattenOut build rest ++ replaceTagged (a1 :: p1t) p2 p3 build v
      rw [ih v hrest]
      simp [List.append_assoc]
theorem dropWhile_head_not (q : Char → Bool) : ∀ (l : List Char) (ch : Char) (r : List Char),
    l.dropWhile q = ch :: r → q ch = false := by
  intro l
  induction l with
  | nil => intro ch r h; simp at h
  | cons a l ih =>
    intro ch r h
    rw [List.dropWhile_cons] at h
    split at h
    · exact ih ch r h
    next hq =>
      have ha : a = ch := by injection h
      rw [← ha]
      exact eq_false_of_ne_true hq

theorem tryMatch_nul_text_none (W p3 : List Char) (t v : List Char)
    (hWn : '\x00' ∉ W) (hWne : W ≠ [])
    (ht0 : '\x00' ∉ t) (ht1 : sentinelLike W t = false)
    (hv : v = [] ∨ ∃ v2, v = '\x00' :: v2) :
    tryMatch ('\x00' :: W) nulSuf p3 ('\x00' :: (t ++ v)) = none := by
  by_cases hsw2 : startsWith W (t ++ v) = true
  case neg =>
    apply tryMatch_none_of_sw_false
    have hone : startsWith ('\x00' :: W) ('\x00' :: (t ++ v)) =
        (decide ('\x00' = '\x00') && startsWith W (t ++ v)) := rfl
    rw [hone]
    simp only [Bool.and_eq_false_iff]
    right
    exact eq_false_of_ne_true hsw2
  case pos =>
    rcases Nat.lt_or_ge t.length W.length with hlen | hlen
    · exfalso
      rcases hv with rfl | ⟨v2, rfl⟩
      · rw [List.append_nil] at hsw2
        have hd := startsWith_split W t hsw2
        have hlen2 := congrArg List.length hd
        simp only [List.length_append] at hlen2
        omega
      · have hd := startsWith_split W (t ++ '\x00' :: v2) hsw2
        have hget1 : (t ++ '\x00' :: v2).get? t.length = some '\x00' := by
          rw [List.get?_eq_getElem?]
          rw [List.getElem?_append_right (Nat.le_refl _)]
          simp
        have hget2 : (t ++ '\x00' :: v2).get? t.length = W.get? t.length := by
          conv_lhs => rw [hd]
          rw [List.get?_eq_getElem?, List.get?_eq_getElem?]
          rw [List.getElem?_append_left hlen]
        rw [hget1] at hget2
        exact hWn (List.get?_mem hget2.symm)
    · have hswt : startsWith W t = true := startsWith_of_append_le W t v hlen hsw2
      have hteq : t = W ++ t.drop W.length := startsWith_split W t hswt
      set t2 := t.drop W.length with ht2def
      have hsw1 : startsWith ('\x00' :: W) ('\x00' :: (t ++ v)) = true := by
        have hone : startsWith ('\x00' :: W) ('\x00' :: (t ++ v)) =
            (decide ('\x00' = '\x00') && startsWith W (t ++ v)) := rfl
        rw [hone, hsw2]
        simp
      have hl1 : ('\x00' :: (t ++ v)).drop (('\x00' :: W).length) = t2 ++ v := by
        have harg : '\x00' :: (t ++ v) = ('\x00' :: W) ++ (t2 ++ v) := by
          conv_lhs => rw [hteq]
          simp [List.append_assoc]
        rw [harg]
        exact List.drop_left _ _
      simp only [tryMatch, hsw1, if_pos, hl1]
      by_cases hall : t2.takeWhile Char.isDigit = t2
      · by_cases ht2nil : t2 = []
        · rw [ht2nil]
          have hvd : v.takeWhile Char.isDigit = [] := by
            rcases hv with rfl | ⟨v2, rfl⟩
            · rfl
            · rw [List.takeWhile_cons]
              simp
          simp [hvd]
        · exfalso
          have hdig : ∀ ch ∈ t2, ch.isDigit = true := by
            intro ch hch
            rw [← hall] at hch
            exact List.mem_takeWhile_imp hch
          have hsl : sentinelLike W t = true := by
            simp only [sentinelLike, hswt, Bool.true_and, Bool.and_eq_true,
              Bool.not_eq_true']
            constructor
            · rw [← ht2def]
              cases hx : t2 with
              | nil => exact absurd hx ht2nil
              | cons y ys => simp [hx, List.isEmpty]
            · rw [← ht2def]
              exact List.all_eq_true.mpr fun ch hch => hdig ch hch
          rw [hsl] at ht1
          simp at ht1
      · have hdw : t2.dropWhile Char.isDigit ≠ [] := by
          intro hnil
          apply hall
          have hx := List.takeWhile_append_dropWhile (p := Char.isDigit) (l := t2)
          rw [hnil, List.append_nil] at hx
          exact hx
        obtain ⟨ch, r, hchr⟩ : ∃ ch r, t2.dropWhile Char.isDigit = ch :: r := by
          cases hx : t2.dropWhile Char.isDigit with
          | nil => exact absurd hx hdw
          | cons ch r => exact ⟨ch, r, rfl⟩
        have hchd : ch.isDigit = false := dropWhile_head_not Char.isDigit t2 ch r hchr
        have hds2 : ∀ x ∈ t2.takeWhile Char.isDigit, Char.isDigit x = true :=
          fun x hx => List.mem_takeWhile_imp hx
        have ht2eq : t2 = t2.takeWhile Char.isDigit ++ (ch :: r) := by
          rw [← hchr]
          exact (List.takeWhile_append_dropWhile _ _).symm
        have htk : (t2 ++ v).takeWhile Char.isDigit = t2.takeWhile Char.isDigit := by
          conv_lhs => rw [ht2eq, List.append_assoc]
          rw [takeWhile_all_append _ _ _ hds2]
          rw [List.cons_append, List.takeWhile_cons]
          simp [hchd]
        have hdwv : (t2 ++ v).dropWhile Char.isDigit = ch :: (r ++ v) := by
          conv_lhs => rw [ht2eq, List.append_assoc]
          rw [dropWhile_all_append _ _ _ hds2]
          rw [List.cons_append, List.dropWhile_cons]
          simp [hchd]
        rw [htk, hdwv]
        by_cases hempty : (t2.takeWhile Char.isDigit).isEmpty
        · simp [hempty]
        · have hch_t : ch ∈ t := by
            have hm2 : ch ∈ t2 := by
              rw [ht2eq]
              exact List.mem_append_right _ (List.mem_cons_self ch r)
            rw [ht2def] at hm2
            exact List.mem_of_mem_drop hm2
          have hchnul : ('\x00' : Char) ≠ ch := fun he => ht0 (he ▸ hch_t)
          have hswn : startsWith nulSuf (ch :: (r ++ v)) = false := by
            have hone : startsWith nulSuf (ch :: (r ++ v)) =
                (decide ('\x00' = ch) && startsWith [] (r ++ v)) := rfl
            rw [hone]
            simp [hchnul]
          simp [hempty, hswn]
theorem digitChar_isDigit (d : Nat) : (digitChar d).isDigit = true := by
  unfold digitChar
  repeat' (split <;> try decide)
  all_goals decide

theorem natDigits_ne_nil (n : Nat) : natDigits n ≠ [] := by
  rw [natDigits]
  split
  · simp
  · simp

theorem natDigits_digits (n : Nat) : ∀ ch ∈ natDigits n, ch.isDigit = true := by
  induction n using Nat.strong_induction_on with
  | _ n ih =>
    rw [natDigits]
    split
    next h =>
      intro ch hch
      rw [List.mem_singleton.mp hch]
      exact digitChar_isDigit n
    next h =>
      intro ch hch
      rcases List.mem_append.mp hch with h0 | h0
      · exact ih (n / 10) (Nat.div_lt_self (by omega) (by omega)) ch h0
      · rw [List.mem_singleton.mp h0]
        exact digitChar_isDigit (n % 10)

theorem nul_notMem_digits (d : List Char) (h : ∀ ch ∈ d, ch.isDigit = true) :
    '\x00' ∉ d := by
  intro hmem
  have := h _ hmem
  simp at this

theorem lt_notMem_digits (d : List Char) (h : ∀ ch ∈ d, ch.isDigit = true) :
    '<' ∉ d := by
  intro hmem
  have := h _ hmem
  simp at this

theorem textOk_nul (t : List Char) (h : textOk t = true) : '\x00' ∉ t := by
  intro hmem
  simp only [textOk, Bool.and_eq_true, List.all_eq_true] at h
  have := h.1 _ hmem
  simp at this

theorem textOk_lt (t : List Char) (h : textOk t = true) : '<' ∉ t := by
  intro hmem
  simp only [textOk, Bool.and_eq_true, List.all_eq_true] at h
  have := h.1 _ hmem
  simp at this

theorem textOk_del (t : List Char) (h : textOk t = true) :
    sentinelLike ['D', 'E', 'L'] t = false := by
  simp only [textOk, Bool.and_eq_true] at h
  have := h.2
  simpa using this

theorem safeUnits_tail (u : ChangeUnit) (us : List ChangeUnit)
    (h : safeUnits (u :: us) = true) : safeUnits us = true := by
  simp only [safeUnits, Bool.and_eq_true, List.all_cons] at h ⊢
  refine ⟨h.1.2, ?_⟩
  have h2 := h.2
  cases us with
  | nil => rfl
  | cons v rest =>
    simp only [noAdjacentEquals, Bool.and_eq_true] at h2
    exact h2.2

theorem safeUnits_unitOk (u : ChangeUnit) (us : List ChangeUnit)
    (h : safeUnits (u :: us) = true) : unitOk u = true := by
  simp only [safeUnits, Bool.and_eq_true, List.all_cons] at h
  exact h.1.1

theorem unitOk_change (u : ChangeUnit) (h : unitOk u = true) (hne : ¬u.type = "equal") :
    u.id.isSome = true ∧
      u.parts.any (fun p => p.type = -1 || p.type = 1) = true ∧
      ∀ p ∈ u.parts, (p.type = -1 ∨ p.type = 1) → textOk p.text = true := by
  rw [unitOk, if_neg hne] at h
  simp only [Bool.and_eq_true, List.all_eq_true] at h
  refine ⟨h.1.1, h.1.2, ?_⟩
  intro p hp hty
  have h2 := h.2 p hp
  rcases Bool.or_eq_true _ _ |>.mp h2 with h3 | h3
  · exfalso
    rcases hty with h4 | h4 <;> simp [h4] at h3
  · exact h3
theorem flattenIn_append (p1 p2 p3 : List Char) : ∀ (xs ys : List MSeg),
    flattenIn p1 p2 p3 (xs ++ ys) = flattenIn p1 p2 p3 xs ++ flattenIn p1 p2 p3 ys := by
  intro xs ys
  induction xs with
  | nil => simp [flattenIn]
  | cons s xs ih =>
    cases s with
    | lit t => simp [flattenIn, ih, List.append_assoc]
    | blk d c => simp [flattenIn, ih, List.append_assoc]

theorem flattenOut_append (build : List Char → List Char → List Char) :
    ∀ (xs ys : List MSeg),
    flattenOut build (xs ++ ys) = flattenOut build xs ++ flattenOut build ys := by
  intro xs ys
  induction xs with
  | nil => simp [flattenOut]
  | cons s xs ih =>
    cases s with
    | lit t => simp [flattenOut, ih, List.append_assoc]
    | blk d c => simp [flattenOut, ih, List.append_assoc]

theorem segsOK_append (p1 p2 p3 : List Char) : ∀ (xs ys : List MSeg) (v : List Char),
    segsOK p1 p2 p3 (flattenIn p1 p2 p3 ys ++ v) xs → segsOK p1 p2 p3 v ys →
    segsOK p1 p2 p3 v (xs ++ ys) := by
  intro xs
  induction xs with
  | nil => intro ys v _ hys; simpa using hys
  | cons s xs ih =>
    intro ys v hx hys
    cases s with
    | lit t =>
      obtain ⟨hnm, hrest⟩ := hx
      refine ⟨?_, ih ys v hrest hys⟩
      simp only [List.append_eq]
      rw [flattenIn_append, List.append_assoc]
      exact hnm
    | blk d c =>
      obtain ⟨h1, h2, h3, hrest⟩ := hx
      exact ⟨h1, h2, h3, ih ys v hrest hys⟩

theorem tryMatch_del_nulnul (v2 : List Char) :
    tryMatch delOpenPre nulSuf delClose ('\x00' :: '\x00' :: v2) = none := by
  apply tryMatch_none_of_sw_false
  have hone : startsWith delOpenPre ('\x00' :: '\x00' :: v2) =
      (decide ('\x00' = '\x00') && (decide ('D' = '\x00') && startsWith ['E', 'L'] v2)) := rfl
  rw [hone]
  simp

theorem noMatchWithin_single (p1 p2 p3 : List Char) (c : Char) (v : List Char)
    (h : tryMatch p1 p2 p3 (c :: v) = none) : noMatchWithin p1 p2 p3 [c] v := by
  intro y hy hne
  have : y = [c] := by
    simp only [List.tails] at hy
    rcases List.mem_cons.mp hy with h0 | h0
    · exact h0
    · simp at h0
      exact absurd h0 hne
  rw [this]
  exact h

theorem insBlock_inert (dg t V : List Char)
    (hdg : ∀ ch ∈ dg, ch.isDigit = true)
    (ht0 : '\x00' ∉ t) (ht1 : sentinelLike ['D', 'E', 'L'] t = false)
    (hcont : tryMatch delOpenPre nulSuf delClose ('\x00' :: V) = none) :
    noMatchWithin delOpenPre nulSuf delClose (insMarkerBlock dg t) V := by
  have hshape : insMarkerBlock dg t =
      ['\x00', 'I', 'N', 'S'] ++ (dg ++ (['\x00'] ++ (t ++ (['\x00', '/', 'I', 'N', 'S'] ++ ['\x00'])))) := by
    simp [insMarkerBlock, insOpenPre, nulSuf, insClose, List.append_assoc]
  rw [hshape]
  refine noMatchWithin_append _ _ _ _ _ _ ?_ ?_
  · exact noMatchWithin_of_inertPiece _ _ _ _ (by decide) _
  refine noMatchWithin_append _ _ _ _ _ _ ?_ ?_
  · exact noMatchWithin_of_head_notMem _ _ _ _ _ (nul_notMem_digits dg hdg) _
  refine noMatchWithin_append _ _ _ _ _ _ ?_ ?_
  · refine noMatchWithin_single _ _ _ _ _ ?_
    have hstep : '\x00' :: ((t ++ (['\x00', '/', 'I', 'N', 'S'] ++ ['\x00'])) ++ V) =
        '\x00' :: (t ++ ((['\x00', '/', 'I', 'N', 'S'] ++ ['\x00']) ++ V)) := by
      simp [List.append_assoc]
    rw [hstep]
    exact tryMatch_nul_text_none ['D', 'E', 'L'] delClose t _
      (by decide) (by decide) ht0 ht1
      (Or.inr ⟨_, rfl⟩)
  refine noMatchWithin_append _ _ _ _ _ _ ?_ ?_
  · exact noMatchWithin_of_head_notMem _ _ _ _ _ ht0 _
  refine noMatchWithin_append _ _ _ _ _ _ ?_ ?_
  · exact noMatchWithin_of_inertPiece _ _ _ _ (by decide) _
  · exact noMatchWithin_single _ _ _ _ _ hcont
theorem exists_cons_of_headI (l : List Char) (c : Char) (hne : l ≠ []) (hh : l.headI = c) :
    ∃ Y, l = c :: Y := by
  cases l with
  | nil => exact absurd rfl hne
  | cons a t =>
    refine ⟨t, ?_⟩
    simp only [List.headI] at hh
    rw [hh]

theorem textOk_equalHead (u : ChangeUnit) (hok : unitOk u = true)
    (heq : u.type = "equal") :
    textOk (u.parts.headD (DiffPart.mk 0 [])).text = true := by
  rw [unitOk, if_pos heq] at hok
  cases hps : u.parts with
  | nil => rw [hps] at hok; simp at hok
  | cons p ps =>
    rw [hps] at hok
    simpa using hok

theorem safeUnits_second (u u2 : ChangeUnit) (r : List ChangeUnit)
    (h : safeUnits (u :: u2 :: r) = true) (he : u.type = "equal") : ¬u2.type = "equal" := by
  intro he2
  simp only [safeUnits, Bool.and_eq_true] at h
  have h2 := h.2
  simp [noAdjacentEquals, he, he2] at h2

theorem noMatchWithin_of_headI_notMem (p1 p2 p3 t : List Char)
    (hne : p1 ≠ []) (h : p1.headI ∉ t) : ∀ v, noMatchWithin p1 p2 p3 t v := by
  cases p1 with
  | nil => exact absurd rfl hne
  | cons a r => exact noMatchWithin_of_head_notMem a r p2 p3 t (by simpa using h)

theorem flattenIn_parts1_nul (dg : List Char) : ∀ (parts : List DiffPart),
    parts.any (fun p => p.type = -1 || p.type = 1) = true →
    ∃ Y, flattenIn delOpenPre nulSuf delClose
      (parts.flatMap fun part =>
        if part.type = -1 then [MSeg.blk dg part.text]
        else if part.type = 1 then [MSeg.lit (insMarkerBlock dg part.text)]
        else []) = '\x00' :: Y := by
  intro parts
  induction parts with
  | nil => intro h; simp at h
  | cons p ps ih =>
    intro hany
    by_cases h1 : p.type = -1
    · refine exists_cons_of_headI _ _ ?_ ?_ <;>
        simp [h1, flattenIn, delOpenPre]
    · by_cases h2 : p.type = 1
      · refine exists_cons_of_headI _ _ ?_ ?_ <;>
          simp [h1, h2, flattenIn, insMarkerBlock, insOpenPre]
      · have hstep : ((p :: ps).flatMap fun part =>
        if part.type = -1 then [MSeg.blk dg part.text]
        else if part.type = 1 then [MSeg.lit (insMarkerBlock dg part.text)]
        else []) =
            (ps.flatMap fun part =>
        if part.type = -1 then [MSeg.blk dg part.text]
        else if part.type = 1 then [MSeg.lit (insMarkerBlock dg part.text)]
        else []) := by
          simp [h1, h2]
        rw [hstep]
        apply ih
        simp only [List.any_cons, Bool.or_eq_true] at hany
        rcases hany with h0 | h0
        · exfalso
          rcases h0 with h3 | h3
          · exact h1 (by simpa using h3)
          · exact h2 (by simpa using h3)
        · exact h0

theorem tryMatch_cont_parts (dg : List Char) : ∀ (ps : List DiffPart) (V : List Char),
    tryMatch delOpenPre nulSuf delClose ('\x00' :: V) = none →
    tryMatch delOpenPre nulSuf delClose
      ('\x00' :: (flattenIn delOpenPre nulSuf delClose
        (ps.flatMap fun part =>
        if part.type = -1 then [MSeg.blk dg part.text]
        else if part.type = 1 then [MSeg.lit (insMarkerBlock dg part.text)]
        else []) ++ V)) = none := by
  intro ps
  induction ps with
  | nil => intro V hcont; simpa [flattenIn] using hcont
  | cons p2 ps2 ih =>
    intro V hcont
    by_cases h1 : p2.type = -1
    · obtain ⟨Y, hY⟩ := flattenIn_parts1_nul dg (p2 :: ps2) (by simp [h1])
      rw [hY]
      simp only [List.cons_append]
      exact tryMatch_del_nulnul _
    · by_cases h2 : p2.type = 1
      · obtain ⟨Y, hY⟩ := flattenIn_parts1_nul dg (p2 :: ps2) (by simp [h2])
        rw [hY]
        simp only [List.cons_append]
        exact tryMatch_del_nulnul _
      · have hstep : ((p2 :: ps2).flatMap fun part =>
        if part.type = -1 then [MSeg.blk dg part.text]
        else if part.type = 1 then [MSeg.lit (insMarkerBlock dg part.text)]
        else []) =
            (ps2.flatMap fun part =>
        if part.type = -1 then [MSeg.blk dg part.text]
        else if part.type = 1 then [MSeg.lit (insMarkerBlock dg part.text)]
        else []) := by
          simp [h1, h2]
        rw [hstep]
        exact ih V hcont

theorem flattenIn_segs1_change (u : ChangeUnit) (r : List ChangeUnit)
    (hok : unitOk u = true) (hne : ¬u.type = "equal") :
    ∃ Y, flattenIn delOpenPre nulSuf delClose (segs1 (u :: r)) = '\x00' :: Y := by
  obtain ⟨hid, hany, hall⟩ := unitOk_change u hok hne
  have hcons : segs1 (u :: r) =
      (u.parts.flatMap fun part =>
        if part.type = -1 then [MSeg.blk (natDigits (u.id.getD 0)) part.text]
        else if part.type = 1 then
          [MSeg.lit (insMarkerBlock (natDigits (u.id.getD 0)) part.text)]
        else []) ++ segs1 r := by
    simp [segs1, hne]
  obtain ⟨Y, hY⟩ := flattenIn_parts1_nul (natDigits (u.id.getD 0)) u.parts hany
  refine ⟨Y ++ flattenIn delOpenPre nulSuf delClose (segs1 r), ?_⟩
  rw [hcons, flattenIn_append, hY]
  simp

theorem noPhantomCont (us : List ChangeUnit) (hsafe : safeUnits us = true) :
    tryMatch delOpenPre nulSuf delClose
      ('\x00' :: flattenIn delOpenPre nulSuf delClose (segs1 us)) = none := by
  cases us with
  | nil =>
    have h0 : flattenIn delOpenPre nulSuf delClose (segs1 []) = [] := by
      simp [segs1, flattenIn]
    rw [h0]
    decide
  | cons u rest =>
    by_cases heq : u.type = "equal"
    · have hok := safeUnits_unitOk u rest hsafe
      have htx := textOk_equalHead u hok heq
      have hcons : segs1 (u :: rest) =
          MSeg.lit ((u.parts.headD (DiffPart.mk 0 [])).text) :: segs1 rest := by
        simp [segs1, heq]
      have hflat : flattenIn delOpenPre nulSuf delClose (segs1 (u :: rest)) =
          (u.parts.headD (DiffPart.mk 0 [])).text ++
            flattenIn delOpenPre nulSuf delClose (segs1 rest) := by
        rw [hcons, flattenIn]
      rw [hflat]
      cases rest with
      | nil =>
        have h0 : flattenIn delOpenPre nulSuf delClose (segs1 ([] : List ChangeUnit)) = [] := by
          simp [segs1, flattenIn]
        rw [h0]
        exact tryMatch_nul_text_none ['D', 'E', 'L'] delClose _ []
          (by decide) (by decide) (textOk_nul _ htx) (textOk_del _ htx) (Or.inl rfl)
      | cons u2 r2 =>
        have hok2 := safeUnits_unitOk u2 r2 (safeUnits_tail u _ hsafe)
        have hne2 : ¬u2.type = "equal" := safeUnits_second u u2 r2 hsafe heq
        obtain ⟨Y, hY⟩ := flattenIn_segs1_change u2 r2 hok2 hne2
        rw [hY]
        exact tryMatch_nul_text_none ['D', 'E', 'L'] delClose _ _
          (by decide) (by decide) (textOk_nul _ htx) (textOk_del _ htx) (Or.inr ⟨Y, rfl⟩)
    · have hok := safeUnits_unitOk u rest hsafe
      obtain ⟨Y, hY⟩ := flattenIn_segs1_change u rest hok heq
      rw [hY]
      exact tryMatch_del_nulnul Y
theorem segsOK1_parts (dg : List Char) (hdgne : dg ≠ [])
    (hdg : ∀ ch ∈ dg, ch.isDigit = true) :
    ∀ (parts : List DiffPart) (V : List Char),
      (∀ p ∈ parts, (p.type = -1 ∨ p.type = 1) → textOk p.text = true) →
      tryMatch delOpenPre nulSuf delClose ('\x00' :: V) = none →
      segsOK delOpenPre nulSuf delClose V
        (parts.flatMap fun part =>
          if part.type = -1 then [MSeg.blk dg part.text]
          else if part.type = 1 then [MSeg.lit (insMarkerBlock dg part.text)]
          else []) := by
  intro parts
  induction parts with
  | nil => intro V _ _; simp [segsOK]
  | cons p ps ih =>
    intro V hall hcont
    have hall2 : ∀ q ∈ ps, (q.type = -1 ∨ q.type = 1) → textOk q.text = true :=
      fun q hq => hall q (List.mem_cons_of_mem p hq)
    by_cases h1 : p.type = -1
    · have htx := hall p (List.mem_cons_self p ps) (Or.inl h1)
      have hstep : ((p :: ps).flatMap fun part =>
          if part.type = -1 then [MSeg.blk dg part.text]
          else if part.type = 1 then [MSeg.lit (insMarkerBlock dg part.text)]
          else []) =
          MSeg.blk dg p.text :: (ps.flatMap fun part =>
            if part.type = -1 then [MSeg.blk dg part.text]
            else if part.type = 1 then [MSeg.lit (insMarkerBlock dg part.text)]
            else []) := by
        simp [h1]
      rw [hstep]
      refine ⟨hdgne, hdg, ?_, ih V hall2 hcont⟩
      have hh : delClose.headI = '\x00' := by decide
      rw [hh]
      exact textOk_nul _ htx
    · by_cases h2 : p.type = 1
      · have htx := hall p (List.mem_cons_self p ps) (Or.inr h2)
        have hstep : ((p :: ps).flatMap fun part =>
          if part.type = -1 then [MSeg.blk dg part.text]
          else if part.type = 1 then [MSeg.lit (insMarkerBlock dg part.text)]
          else []) =
            MSeg.lit (insMarkerBlock dg p.text) :: (ps.flatMap fun part =>
            if part.type = -1 then [MSeg.blk dg part.text]
            else if part.type = 1 then [MSeg.lit (insMarkerBlock dg part.text)]
            else []) := by
          simp [h1, h2]
        rw [hstep]
        refine ⟨?_, ih V hall2 hcont⟩
        apply insBlock_inert dg p.text _ hdg (textOk_nul _ htx) (textOk_del _ htx)
        exact tryMatch_cont_parts dg ps _ hcont
      · have hstep : ((p :: ps).flatMap fun part =>
          if part.type = -1 then [MSeg.blk dg part.text]
          else if part.type = 1 then [MSeg.lit (insMarkerBlock dg part.text)]
          else []) =
            (ps.flatMap fun part =>
            if part.type = -1 then [MSeg.blk dg part.text]
            else if part.type = 1 then [MSeg.lit (insMarkerBlock dg part.text)]
            else []) := by
          simp [h1, h2]
        rw [hstep]
        exact ih V hall2 hcont

theorem segsOK1 : ∀ (us : List ChangeUnit), safeUnits us = true →
    segsOK delOpenPre nulSuf delClose [] (segs1 us) := by
  intro us
  induction us with
  | nil => intro _; simp [segs1, segsOK]
  | cons u rest ih =>
    intro hsafe
    have hok := safeUnits_unitOk u rest hsafe
    have htail := safeUnits_tail u rest hsafe
    have hcons : segs1 (u :: rest) =
        (if u.type = "equal" then [MSeg.lit ((u.parts.headD (DiffPart.mk 0 [])).text)]
         else u.parts.flatMap fun part =>
          if part.type = -1 then [MSeg.blk (natDigits (u.id.getD 0)) part.text]
          else if part.type = 1 then
            [MSeg.lit (insMarkerBlock (natDigits (u.id.getD 0)) part.text)]
          else []) ++ segs1 rest := by
      simp [segs1]
    rw [hcons]
    refine segsOK_append _ _ _ _ _ _ ?_ (ih htail)
    by_cases heq : u.type = "equal"
    · rw [if_pos heq]
      refine ⟨?_, trivial⟩
      have htx := textOk_equalHead u hok heq
      exact noMatchWithin_of_head_notMem _ _ _ _ _ (textOk_nul _ htx) _
    · rw [if_neg heq]
      obtain ⟨hid, hany, hall⟩ := unitOk_change u hok heq
      refine segsOK1_parts _ (natDigits_ne_nil _) (natDigits_digits _) u.parts _
        hall ?_
      have h0 := noPhantomCont rest htail
      simpa using h0
theorem nul_notMem_delPh (dg t : List Char) (hdg : ∀ ch ∈ dg, ch.isDigit = true)
    (ht : textOk t = true) : '\x00' ∉ buildDelPlaceholder dg t := by
  intro hmem
  simp only [buildDelPlaceholder, List.mem_append] at hmem
  rcases hmem with ((((h | h) | h) | h) | h)
  · exact absurd h (by decide)
  · exact nul_notMem_digits dg hdg h
  · exact absurd h (by decide)
  · exact textOk_nul t ht h
  · exact absurd h (by decide)

theorem segsOK2_parts (dg : List Char) (hdgne : dg ≠ [])
    (hdg : ∀ ch ∈ dg, ch.isDigit = true) :
    ∀ (parts : List DiffPart) (V : List Char),
      (∀ p ∈ parts, (p.type = -1 ∨ p.type = 1) → textOk p.text = true) →
      segsOK insOpenPre nulSuf insClose V
        (parts.flatMap fun part =>
          if part.type = -1 then [MSeg.lit (buildDelPlaceholder dg part.text)]
          else if part.type = 1 then [MSeg.blk dg part.text]
          else []) := by
  intro parts
  induction parts with
  | nil => intro V _; simp [segsOK]
  | cons p ps ih =>
    intro V hall
    have hall2 : ∀ q ∈ ps, (q.type = -1 ∨ q.type = 1) → textOk q.text = true :=
      fun q hq => hall q (List.mem_cons_of_mem p hq)
    by_cases h1 : p.type = -1
    · have htx := hall p (List.mem_cons_self p ps) (Or.inl h1)
      have hstep : ((p :: ps).flatMap fun part =>
            if part.type = -1 then [MSeg.lit (buildDelPlaceholder dg part.text)]
            else if part.type = 1 then [MSeg.blk dg part.text]
            else []) =
          MSeg.lit (buildDelPlaceholder dg p.text) :: (ps.flatMap fun part =>
              if part.type = -1 then [MSeg.lit (buildDelPlaceholder dg part.text)]
              else if part.type = 1 then [MSeg.blk dg part.text]
              else []) := by
        simp [h1]
      rw [hstep]
      refine ⟨?_, ih V hall2⟩
      exact noMatchWithin_of_head_notMem _ _ _ _ _ (nul_notMem_delPh dg p.text hdg htx) _
    · by_cases h2 : p.type = 1
      · have htx := hall p (List.mem_cons_self p ps) (Or.inr h2)
        have hstep : ((p :: ps).flatMap fun part =>
              if part.type = -1 then [MSeg.lit (buildDelPlaceholder dg part.text)]
              else if part.type = 1 then [MSeg.blk dg part.text]
              else []) =
            MSeg.blk dg p.text :: (ps.flatMap fun part =>
                if part.type = -1 then [MSeg.lit (buildDelPlaceholder dg part.text)]
                else if part.type = 1 then [MSeg.blk dg part.text]
                else []) := by
          simp [h1, h2]
        rw [hstep]
        refine ⟨hdgne, hdg, ?_, ih V hall2⟩
        have hh : insClose.headI = '\x00' := by decide
        rw [hh]
        exact textOk_nul _ htx
      · have hstep : ((p :: ps).flatMap fun part =>
            if part.type = -1 then [MSeg.lit (buildDelPlaceholder dg part.text)]
            else if part.type = 1 then [MSeg.blk dg part.text]
            else []) =
            (ps.flatMap fun part =>
              if part.type = -1 then [MSeg.lit (buildDelPlaceholder dg part.text)]
              else if part.type = 1 then [MSeg.blk dg part.text]
              else []) := by
          simp [h1, h2]
        rw [hstep]
        exact ih V hall2

theorem segsOK2 : ∀ (us : List ChangeUnit) (v : List Char), safeUnits us = true →
    segsOK insOpenPre nulSuf insClose v (segs2 us) := by
  intro us
  induction us with
  | nil => intro v _; simp [segs2, segsOK]
  | cons u rest ih =>
    intro v hsafe
    have hok := safeUnits_unitOk u rest hsafe
    have htail := safeUnits_tail u rest hsafe
    have hcons : segs2 (u :: rest) =
        (if u.type = "equal" then [MSeg.lit ((u.parts.headD (DiffPart.mk 0 [])).text)]
         else u.parts.flatMap fun part =>
          if part.type = -1 then [MSeg.lit (buildDelPlaceholder (natDigits (u.id.getD 0)) part.text)]
          else if part.type = 1 then [MSeg.blk (natDigits (u.id.getD 0)) part.text]
          else []) ++ segs2 rest := by
      simp [segs2]
    rw [hcons]
    refine segsOK_append _ _ _ _ _ _ ?_ (ih v htail)
    by_cases heq : u.type = "equal"
    · rw [if_pos heq]
      refine ⟨?_, trivial⟩
      have htx := textOk_equalHead u hok heq
      exact noMatchWithin_of_head_notMem _ _ _ _ _ (textOk_nul _ htx) _
    · rw [if_neg heq]
      obtain ⟨hid, hany, hall⟩ := unitOk_change u hok heq
      exact segsOK2_parts _ (natDigits_ne_nil _) (natDigits_digits _) u.parts _ hall

theorem insPlaceholder_inert (dg t : List Char) (hdg : ∀ ch ∈ dg, ch.isDigit = true)
    (ht : textOk t = true) :
    ∀ V, noMatchWithin phDelOpenPre phOpenSuf phDelClose (buildInsPlaceholder dg t) V := by
  intro V
  have hshape : buildInsPlaceholder dg t =
      phInsOpenPre ++ (dg ++ (phOpenSuf ++ (t ++ phInsClose))) := by
    simp [buildInsPlaceholder, List.append_assoc]
  rw [hshape]
  refine noMatchWithin_append _ _ _ _ _ _ ?_ ?_
  · exact noMatchWithin_of_inertPiece _ _ _ _ (by decide) _
  refine noMatchWithin_append _ _ _ _ _ _ ?_ ?_
  · refine noMatchWithin_of_headI_notMem _ _ _ _ (by decide) ?_ _
    have hh : phDelOpenPre.headI = '<' := by decide
    rw [hh]
    exact lt_notMem_digits dg hdg
  refine noMatchWithin_append _ _ _ _ _ _ ?_ ?_
  · exact noMatchWithin_of_inertPiece _ _ _ _ (by decide) _
  refine noMatchWithin_append _ _ _ _ _ _ ?_ ?_
  · refine noMatchWithin_of_headI_notMem _ _ _ _ (by decide) ?_ _
    have hh : phDelOpenPre.headI = '<' := by decide
    rw [hh]
    exact textOk_lt t ht
  · exact noMatchWithin_of_inertPiece _ _ _ _ (by decide) _

theorem segsOK3_parts (dg : List Char) (hdgne : dg ≠ [])
    (hdg : ∀ ch ∈ dg, ch.isDigit = true) :
    ∀ (parts : List DiffPart) (V : List Char),
      (∀ p ∈ parts, (p.type = -1 ∨ p.type = 1) → textOk p.text = true) →
      segsOK phDelOpenPre phOpenSuf phDelClose V
        (parts.flatMap fun part =>
          if part.type = -1 then [MSeg.blk dg part.text]
          else if part.type = 1 then [MSeg.lit (buildInsPlaceholder dg part.text)]
          else []) := by
  intro parts
  induction parts with
  | nil => intro V _; simp [segsOK]
  | cons p ps ih =>
    intro V hall
    have hall2 : ∀ q ∈ ps, (q.type = -1 ∨ q.type = 1) → textOk q.text = true :=
      fun q hq => hall q (List.mem_cons_of_mem p hq)
    by_cases h1 : p.type = -1
    · have htx := hall p (List.mem_cons_self p ps) (Or.inl h1)
      have hstep : ((p :: ps).flatMap fun part =>
            if part.type = -1 then [MSeg.blk dg part.text]
            else if part.type = 1 then [MSeg.lit (buildInsPlaceholder dg part.text)]
            else []) =
          MSeg.blk dg p.text :: (ps.flatMap fun part =>
              if part.type = -1 then [MSeg.blk dg part.text]
              else if part.type = 1 then [MSeg.lit (buildInsPlaceholder dg part.text)]
              else []) := by
        simp [h1]
      rw [hstep]
      refine ⟨hdgne, hdg, ?_, ih V hall2⟩
      have hh : phDelClose.headI = '<' := by decide
      rw [hh]
      exact textOk_lt _ htx
    · by_cases h2 : p.type = 1
      · have htx := hall p (List.mem_cons_self p ps) (Or.inr h2)
        have hstep : ((p :: ps).flatMap fun part =>
              if part.type = -1 then [MSeg.blk dg part.text]
              else if part.type = 1 then [MSeg.lit (buildInsPlaceholder dg part.text)]
              else []) =
            MSeg.lit (buildInsPlaceholder dg p.text) :: (ps.flatMap fun part =>
                if part.type = -1 then [MSeg.blk dg part.text]
                else if part.type = 1 then [MSeg.lit (buildInsPlaceholder dg part.text)]
                else []) := by
          simp [h1, h2]
        rw [hstep]
        exact ⟨insPlaceholder_inert dg p.text hdg htx _, ih V hall2⟩
      · have hstep : ((p :: ps).flatMap fun part =>
            if part.type = -1 then [MSeg.blk dg part.text]
            else if part.type = 1 then [MSeg.lit (buildInsPlaceholder dg part.text)]
            else []) =
            (ps.flatMap fun part =>
              if part.type = -1 then [MSeg.blk dg part.text]
              else if part.type = 1 then [MSeg.lit (buildInsPlaceholder dg part.text)]
              else []) := by
          simp [h1, h2]
        rw [hstep]
        exact ih V hall2

theorem segsOK3 : ∀ (us : List ChangeUnit) (v : List Char), safeUnits us = true →
    segsOK phDelOpenPre phOpenSuf phDelClose v (segs3 us) := by
  intro us
  induction us with
  | nil => intro v _; simp [segs3, segsOK]
  | cons u rest ih =>
    intro v hsafe
    have hok := safeUnits_unitOk u rest hsafe
    have htail := safeUnits_tail u rest hsafe
    have hcons : segs3 (u :: rest) =
        (if u.type = "equal" then [MSeg.lit ((u.parts.headD (DiffPart.mk 0 [])).text)]
         else u.parts.flatMap fun part =>
          if part.type = -1 then [MSeg.blk (natDigits (u.id.getD 0)) part.text]
          else if part.type = 1 then [MSeg.lit (buildInsPlaceholder (natDigits (u.id.getD 0)) part.text)]
          else []) ++ segs3 rest := by
      simp [segs3]
    rw [hcons]
    refine segsOK_append _ _ _ _ _ _ ?_ (ih v htail)
    by_cases heq : u.type = "equal"
    · rw [if_pos heq]
      refine ⟨?_, trivial⟩
      have htx := textOk_equalHead u hok heq
      refine noMatchWithin_of_headI_notMem _ _ _ _ (by decide) ?_ _
      have hh : phDelOpenPre.headI = '<' := by decide
      rw [hh]
      exact textOk_lt _ htx
    · rw [if_neg heq]
      obtain ⟨hid, hany, hall⟩ := unitOk_change u hok heq
      exact segsOK3_parts _ (natDigits_ne_nil _) (natDigits_digits _) u.parts _ hall

theorem delSpan_inert (dg t : List Char) (hdg : ∀ ch ∈ dg, ch.isDigit = true)
    (ht : textOk t = true) :
    ∀ V, noMatchWithin phInsOpenPre phOpenSuf phInsClose (buildDelSpan dg t) V := by
  intro V
  have hshape : buildDelSpan dg t =
      "<span class=\"diff-delete\" data-change-id=\"".toList ++
        (dg ++ ("\">".toList ++ (t ++ "</span>".toList))) := by
    simp [buildDelSpan, List.append_assoc]
  rw [hshape]
  refine noMatchWithin_append _ _ _ _ _ _ ?_ ?_
  · exact noMatchWithin_of_inertPiece _ _ _ _ (by decide) _
  refine noMatchWithin_append _ _ _ _ _ _ ?_ ?_
  · refine noMatchWithin_of_headI_notMem _ _ _ _ (by decide) ?_ _
    have hh : phInsOpenPre.headI = '<' := by decide
    rw [hh]
    exact lt_notMem_digits dg hdg
  refine noMatchWithin_append _ _ _ _ _ _ ?_ ?_
  · exact noMatchWithin_of_inertPiece _ _ _ _ (by decide) _
  refine noMatchWithin_append _ _ _ _ _ _ ?_ ?_
  · refine noMatchWithin_of_headI_notMem _ _ _ _ (by decide) ?_ _
    have hh : phInsOpenPre.headI = '<' := by decide
    rw [hh]
    exact textOk_lt t ht
  · exact noMatchWithin_of_inertPiece _ _ _ _ (by decide) _

theorem segsOK4_parts (dg : List Char) (hdgne : dg ≠ [])
    (hdg : ∀ ch ∈ dg, ch.isDigit = true) :
    ∀ (parts : List DiffPart) (V : List Char),
      (∀ p ∈ parts, (p.type = -1 ∨ p.type = 1) → textOk p.text = true) →
      segsOK phInsOpenPre phOpenSuf phInsClose V
        (parts.flatMap fun part =>
          if part.type = -1 then [MSeg.lit (buildDelSpan dg part.text)]
          else if part.type = 1 then [MSeg.blk dg part.text]
          else []) := by
  intro parts
  induction parts with
  | nil => intro V _; simp [segsOK]
  | cons p ps ih =>
    intro V hall
    have hall2 : ∀ q ∈ ps, (q.type = -1 ∨ q.type = 1) → textOk q.text = true :=
      fun q hq => hall q (List.mem_cons_of_mem p hq)
    by_cases h1 : p.type = -1
    · have htx := hall p (List.mem_cons_self p ps) (Or.inl h1)
      have hstep : ((p :: ps).flatMap fun part =>
            if part.type = -1 then [MSeg.lit (buildDelSpan dg part.text)]
            else if part.type = 1 then [MSeg.blk dg part.text]
            else []) =
          MSeg.lit (buildDelSpan dg p.text) :: (ps.flatMap fun part =>
              if part.type = -1 then [MSeg.lit (buildDelSpan dg part.text)]
              else if part.type = 1 then [MSeg.blk dg part.text]
              else []) := by
        simp [h1]
      rw [hstep]
      exact ⟨delSpan_inert dg p.text hdg htx _, ih V hall2⟩
    · by_cases h2 : p.type = 1
      · have htx := hall p (List.mem_cons_self p ps) (Or.inr h2)
        have hstep : ((p :: ps).flatMap fun part =>
              if part.type = -1 then [MSeg.lit (buildDelSpan dg part.text)]
              else if part.type = 1 then [MSeg.blk dg part.text]
              else []) =
            MSeg.blk dg p.text :: (ps.flatMap fun part =>
                if part.type = -1 then [MSeg.lit (buildDelSpan dg part.text)]
                else if part.type = 1 then [MSeg.blk dg part.text]
                else []) := by
          simp [h1, h2]
        rw [hstep]
        refine ⟨hdgne, hdg, ?_, ih V hall2⟩
        have hh : phInsClose.headI = '<' := by decide
        rw [hh]
        exact textOk_lt _ htx
      · have hstep : ((p :: ps).flatMap fun part =>
            if part.type = -1 then [MSeg.lit (buildDelSpan dg part.text)]
            else if part.type = 1 then [MSeg.blk dg part.text]
            else []) =
            (ps.flatMap fun part =>
              if part.type = -1 then [MSeg.lit (buildDelSpan dg part.text)]
              else if part.type = 1 then [MSeg.blk dg part.text]
              else []) := by
          simp [h1, h2]
        rw [hstep]
        exact ih V hall2

theorem segsOK4 : ∀ (us : List ChangeUnit) (v : List Char), safeUnits us = true →
    segsOK phInsOpenPre phOpenSuf phInsClose v (segs4 us) := by
  intro us
  induction us with
  | nil => intro v _; simp [segs4, segsOK]
  | cons u rest ih =>
    intro v hsafe
    have hok := safeUnits_unitOk u rest hsafe
    have htail := safeUnits_tail u rest hsafe
    have hcons : segs4 (u :: rest) =
        (if u.type = "equal" then [MSeg.lit ((u.parts.headD (DiffPart.mk 0 [])).text)]
         else u.parts.flatMap fun part =>
          if part.type = -1 then [MSeg.lit (buildDelSpan (natDigits (u.id.getD 0)) part.text)]
          else if part.type = 1 then [MSeg.blk (natDigits (u.id.getD 0)) part.text]
          else []) ++ segs4 rest := by
      simp [segs4]
    rw [hcons]
    refine segsOK_append _ _ _ _ _ _ ?_ (ih v htail)
    by_cases heq : u.type = "equal"
    · rw [if_pos heq]
      refine ⟨?_, trivial⟩
      have htx := textOk_equalHead u hok heq
      refine noMatchWithin_of_headI_notMem _ _ _ _ (by decide) ?_ _
      have hh : phInsOpenPre.headI = '<' := by decide
      rw [hh]
      exact textOk_lt _ htx
    · rw [if_neg heq]
      obtain ⟨hid, hany, hall⟩ := unitOk_change u hok heq
      exact segsOK4_parts _ (natDigits_ne_nil _) (natDigits_digits _) u.parts _ hall

theorem flattenIn_parts1 (dg : List Char) : ∀ (parts : List DiffPart),
    flattenIn delOpenPre nulSuf delClose
      (parts.flatMap fun part =>
        if part.type = -1 then [MSeg.blk dg part.text]
        else if part.type = 1 then [MSeg.lit (insMarkerBlock dg part.text)]
        else []) =
    parts.flatMap fun part =>
      if part.type = -1 then delOpenPre ++ dg ++ nulSuf ++ part.text ++ delClose
      else if part.type = 1 then insOpenPre ++ dg ++ nulSuf ++ part.text ++ insClose
      else [] := by
  intro parts
  induction parts with
  | nil => simp [flattenIn]
  | cons p ps ih =>
    by_cases h1 : p.type = -1
    · simp [h1, flattenIn, ih, List.append_assoc]
    · by_cases h2 : p.type = 1
      · have hstep : ((p :: ps).flatMap fun part =>
            if part.type = -1 then [MSeg.blk dg part.text]
            else if part.type = 1 then [MSeg.lit (insMarkerBlock dg part.text)]
            else []) =
            MSeg.lit (insMarkerBlock dg p.text) :: (ps.flatMap fun part =>
              if part.type = -1 then [MSeg.blk dg part.text]
              else if part.type = 1 then [MSeg.lit (insMarkerBlock dg part.text)]
              else []) := by
          simp [h1, h2]
        rw [hstep, flattenIn, ih]
        simp [h1, h2, insMarkerBlock, List.append_assoc]
      · simp [h1, h2, ih]

theorem flattenIn_segs1_eq : ∀ (us : List ChangeUnit),
    flattenIn delOpenPre nulSuf delClose (segs1 us) = buildDiffMarkdown us := by
  intro us
  induction us with
  | nil => simp [segs1, buildDiffMarkdown, flattenIn]
  | cons u rest ih =>
    have hcons : segs1 (u :: rest) =
        (if u.type = "equal" then [MSeg.lit ((u.parts.headD (DiffPart.mk 0 [])).text)]
         else u.parts.flatMap fun part =>
          if part.type = -1 then [MSeg.blk (natDigits (u.id.getD 0)) part.text]
          else if part.type = 1 then
            [MSeg.lit (insMarkerBlock (natDigits (u.id.getD 0)) part.text)]
          else []) ++ segs1 rest := by
      simp [segs1]
    have hbd : buildDiffMarkdown (u :: rest) =
        (if u.type = "equal" then (u.parts.headD (DiffPart.mk 0 [])).text
         else u.parts.flatMap fun part =>
          if part.type = -1 then
            delOpenPre ++ natDigits (u.id.getD 0) ++ nulSuf ++ part.text ++ delClose
          else if part.type = 1 then
            insOpenPre ++ natDigits (u.id.getD 0) ++ nulSuf ++ part.text ++ insClose
          else []) ++ buildDiffMarkdown rest := by
      simp [buildDiffMarkdown]
    rw [hcons, flattenIn_append, ih, hbd]
    congr 1
    by_cases heq : u.type = "equal"
    · rw [if_pos heq, if_pos heq]
      simp [flattenIn]
    · rw [if_neg heq, if_neg heq]
      exact flattenIn_parts1 _ u.parts
theorem flatten12_parts (dg : List Char) : ∀ (parts : List DiffPart),
    flattenOut buildDelPlaceholder
      (parts.flatMap fun part =>
        if part.type = -1 then [MSeg.blk dg part.text]
        else if part.type = 1 then [MSeg.lit (insMarkerBlock dg part.text)]
        else []) =
    flattenIn insOpenPre nulSuf insClose
      (parts.flatMap fun part =>
        if part.type = -1 then [MSeg.lit (buildDelPlaceholder dg part.text)]
        else if part.type = 1 then [MSeg.blk dg part.text]
        else []) := by
  intro parts
  induction parts with
  | nil => simp [flattenOut, flattenIn]
  | cons p ps ih =>
    by_cases h1 : p.type = -1
    · have hstepL : ((p :: ps).flatMap fun part =>
          if part.type = -1 then [MSeg.blk dg part.text]
          else if part.type = 1 then [MSeg.lit (insMarkerBlock dg part.text)]
          else []) =
          MSeg.blk dg p.text :: (ps.flatMap fun part =>
            if part.type = -1 then [MSeg.blk dg part.text]
            else if part.type = 1 then [MSeg.lit (insMarkerBlock dg part.text)]
            else []) := by
        simp [h1]
      have hstepR : ((p :: ps).flatMap fun part =>
          if part.type = -1 then [MSeg.lit (buildDelPlaceholder dg part.text)]
          else if part.type = 1 then [MSeg.blk dg part.text]
          else []) =
          MSeg.lit (buildDelPlaceholder dg p.text) :: (ps.flatMap fun part =>
            if part.type = -1 then [MSeg.lit (buildDelPlaceholder dg part.text)]
            else if part.type = 1 then [MSeg.blk dg part.text]
            else []) := by
        simp [h1]
      rw [hstepL, hstepR]
      simp only [flattenOut, flattenIn]
      rw [ih]
    · by_cases h2 : p.type = 1
      · have hstepL : ((p :: ps).flatMap fun part =>
            if part.type = -1 then [MSeg.blk dg part.text]
            else if part.type = 1 then [MSeg.lit (insMarkerBlock dg part.text)]
            else []) =
            MSeg.lit (insMarkerBlock dg p.text) :: (ps.flatMap fun part =>
              if part.type = -1 then [MSeg.blk dg part.text]
              else if part.type = 1 then [MSeg.lit (insMarkerBlock dg part.text)]
              else []) := by
          simp [h1, h2]
        have hstepR : ((p :: ps).flatMap fun part =>
            if part.type = -1 then [MSeg.lit (buildDelPlaceholder dg part.text)]
            else if part.type = 1 then [MSeg.blk dg part.text]
            else []) =
            MSeg.blk dg p.text :: (ps.flatMap fun part =>
              if part.type = -1 then [MSeg.lit (buildDelPlaceholder dg part.text)]
              else if part.type = 1 then [MSeg.blk dg part.text]
              else []) := by
          simp [h1, h2]
        rw [hstepL, hstepR]
        simp only [flattenOut, flattenIn]
        rw [ih]
        simp [insMarkerBlock, List.append_assoc]
      · have hstepL : ((p :: ps).flatMap fun part =>
            if part.type = -1 then [MSeg.blk dg part.text]
            else if part.type = 1 then [MSeg.lit (insMarkerBlock dg part.text)]
            else []) =
            (ps.flatMap fun part =>
              if part.type = -1 then [MSeg.blk dg part.text]
              else if part.type = 1 then [MSeg.lit (insMarkerBlock dg part.text)]
              else []) := by
          simp [h1, h2]
        have hstepR : ((p :: ps).flatMap fun part =>
            if part.type = -1 then [MSeg.lit (buildDelPlaceholder dg part.text)]
            else if part.type = 1 then [MSeg.blk dg part.text]
            else []) =
            (ps.flatMap fun part =>
              if part.type = -1 then [MSeg.lit (buildDelPlaceholder dg part.text)]
              else if part.type = 1 then [MSeg.blk dg part.text]
              else []) := by
          simp [h1, h2]
        rw [hstepL, hstepR, ih]

theorem flatten12_eq : ∀ (us : List ChangeUnit),
    flattenOut buildDelPlaceholder (segs1 us) =
      flattenIn insOpenPre nulSuf insClose (segs2 us) := by
  intro us
  induction us with
  | nil => simp [segs1, segs2, flattenOut, flattenIn]
  | cons u rest ih =>
    have hconsL : segs1 (u :: rest) =
        (if u.type = "equal" then [MSeg.lit ((u.parts.headD (DiffPart.mk 0 [])).text)]
         else u.parts.flatMap fun part =>
          if part.type = -1 then [MSeg.blk (natDigits (u.id.getD 0)) part.text]
          else if part.type = 1 then
            [MSeg.lit (insMarkerBlock (natDigits (u.id.getD 0)) part.text)]
          else []) ++ segs1 rest := by
      simp [segs1]
    have hconsR : segs2 (u :: rest) =
        (if u.type = "equal" then [MSeg.lit ((u.parts.headD (DiffPart.mk 0 [])).text)]
         else u.parts.flatMap fun part =>
          if part.type = -1 then
            [MSeg.lit (buildDelPlaceholder (natDigits (u.id.getD 0)) part.text)]
          else if part.type = 1 then [MSeg.blk (natDigits (u.id.getD 0)) part.text]
          else []) ++ segs2 rest := by
      simp [segs2]
    rw [hconsL, hconsR, flattenOut_append, flattenIn_append, ih]
    congr 1
    by_cases heq : u.type = "equal"
    · rw [if_pos heq, if_pos heq]
      simp [flattenOut, flattenIn]
    · rw [if_neg heq, if_neg heq]
      exact flatten12_parts _ u.parts
theorem flatten23_parts (dg : List Char) : ∀ (parts : List DiffPart),
    flattenOut buildInsPlaceholder
      (parts.flatMap fun part =>
          if part.type = -1 then [MSeg.lit (buildDelPlaceholder dg part.text)]
          else if part.type = 1 then [MSeg.blk dg part.text]
          else []) =
    flattenIn phDelOpenPre phOpenSuf phDelClose
      (parts.flatMap fun part =>
          if part.type = -1 then [MSeg.blk dg part.text]
          else if part.type = 1 then [MSeg.lit (buildInsPlaceholder dg part.text)]
          else []) := by
  intro parts
  induction parts with
  | nil => simp [flattenOut, flattenIn]
  | cons p ps ih =>
    by_cases h1 : p.type = -1
    · have hstepL : ((p :: ps).flatMap fun part =>
          if part.type = -1 then [MSeg.lit (buildDelPlaceholder dg part.text)]
          else if part.type = 1 then [MSeg.blk dg part.text]
          else []) =
          MSeg.lit (buildDelPlaceholder dg p.text) :: ((ps).flatMap fun part =>
          if part.type = -1 then [MSeg.lit (buildDelPlaceholder dg part.text)]
          else if part.type = 1 then [MSeg.blk dg part.text]
          else []) := by
        simp [h1]
      have hstepR : ((p :: ps).flatMap fun part =>
          if part.type = -1 then [MSeg.blk dg part.text]
          else if part.type = 1 then [MSeg.lit (buildInsPlaceholder dg part.text)]
          else []) =
          MSeg.blk dg p.text :: ((ps).flatMap fun part =>
          if part.type = -1 then [MSeg.blk dg part.text]
          else if part.type = 1 then [MSeg.lit (buildInsPlaceholder dg part.text)]
          else []) := by
        simp [h1]
      rw [hstepL, hstepR]
      simp only [flattenOut, flattenIn]
      rw [ih]
      simp [buildDelPlaceholder, List.append_assoc]
    · by_cases h2 : p.type = 1
      · have hstepL : ((p :: ps).flatMap fun part =>
          if part.type = -1 then [MSeg.lit (buildDelPlaceholder dg part.text)]
          else if part.type = 1 then [MSeg.blk dg part.text]
          else []) =
            MSeg.blk dg p.text :: ((ps).flatMap fun part =>
          if part.type = -1 then [MSeg.lit (buildDelPlaceholder dg part.text)]
          else if part.type = 1 then [MSeg.blk dg part.text]
          else []) := by
          simp [h1, h2]
        have hstepR : ((p :: ps).flatMap fun part =>
          if part.type = -1 then [MSeg.blk dg part.text]
          else if part.type = 1 then [MSeg.lit (buildInsPlaceholder dg part.text)]
          else []) =
            MSeg.lit (buildInsPlaceholder dg p.text) :: ((ps).flatMap fun part =>
          if part.type = -1 then [MSeg.blk dg part.text]
          else if part.type = 1 then [MSeg.lit (buildInsPlaceholder dg part.text)]
          else []) := by
          simp [h1, h2]
        rw [hstepL, hstepR]
        simp only [flattenOut, flattenIn]
        rw [ih]
      · have hstepL : ((p :: ps).flatMap fun part =>
          if part.type = -1 then [MSeg.lit (buildDelPlaceholder dg part.text)]
          else if part.type = 1 then [MSeg.blk dg part.text]
          else []) =
            ((ps).flatMap fun part =>
          if part.type = -1 then [MSeg.lit (buildDelPlaceholder dg part.text)]
          else if part.type = 1 then [MSeg.blk dg part.text]
          else []) := by
          simp [h1, h2]
        have hstepR : ((p :: ps).flatMap fun part =>
          if part.type = -1 then [MSeg.blk dg part.text]
          else if part.type = 1 then [MSeg.lit (buildInsPlaceholder dg part.text)]
          else []) =
            ((ps).flatMap fun part =>
          if part.type = -1 then [MSeg.blk dg part.text]
          else if part.type = 1 then [MSeg.lit (buildInsPlaceholder dg part.text)]
          else []) := by
          simp [h1, h2]
        rw [hstepL, hstepR, ih]

theorem flatten34_parts (dg : List Char) : ∀ (parts : List DiffPart),
    flattenOut buildDelSpan
      (parts.flatMap fun part =>
          if part.type = -1 then [MSeg.blk dg part.text]
          else if part.type = 1 then [MSeg.lit (buildInsPlaceholder dg part.text)]
          else []) =
    flattenIn phInsOpenPre phOpenSuf phInsClose
      (parts.flatMap fun part =>
          if part.type = -1 then [MSeg.lit (buildDelSpan dg part.text)]
          else if part.type = 1 then [MSeg.blk dg part.text]
          else []) := by
  intro parts
  induction parts with
  | nil => simp [flattenOut, flattenIn]
  | cons p ps ih =>
    by_cases h1 : p.type = -1
    · have hstepL : ((p :: ps).flatMap fun part =>
          if part.type = -1 then [MSeg.blk dg part.text]
          else if part.type = 1 then [MSeg.lit (buildInsPlaceholder dg part.text)]
          else []) =
          MSeg.blk dg p.text :: ((ps).flatMap fun part =>
          if part.type = -1 then [MSeg.blk dg part.text]
          else if part.type = 1 then [MSeg.lit (buildInsPlaceholder dg part.text)]
          else []) := by
        simp [h1]
      have hstepR : ((p :: ps).flatMap fun part =>
          if part.type = -1 then [MSeg.lit (buildDelSpan dg part.text)]
          else if part.type = 1 then [MSeg.blk dg part.text]
          else []) =
          MSeg.lit (buildDelSpan dg p.text) :: ((ps).flatMap fun part =>
          if part.type = -1 then [MSeg.lit (buildDelSpan dg part.text)]
          else if part.type = 1 then [MSeg.blk dg part.text]
          else []) := by
        simp [h1]
      rw [hstepL, hstepR]
      simp only [flattenOut, flattenIn]
      rw [ih]
    · by_cases h2 : p.type = 1
      · have hstepL : ((p :: ps).flatMap fun part =>
          if part.type = -1 then [MSeg.blk dg part.text]
          else if part.type = 1 then [MSeg.lit (buildInsPlaceholder dg part.text)]
          else []) =
            MSeg.lit (buildInsPlaceholder dg p.text) :: ((ps).flatMap fun part =>
          if part.type = -1 then [MSeg.blk dg part.text]
          else if part.type = 1 then [MSeg.lit (buildInsPlaceholder dg part.text)]
          else []) := by
          simp [h1, h2]
        have hstepR : ((p :: ps).flatMap fun part =>
          if part.type = -1 then [MSeg.lit (buildDelSpan dg part.text)]
          else if part.type = 1 then [MSeg.blk dg part.text]
          else []) =
            MSeg.blk dg p.text :: ((ps).flatMap fun part =>
          if part.type = -1 then [MSeg.lit (buildDelSpan dg part.text)]
          else if part.type = 1 then [MSeg.blk dg part.text]
          else []) := by
          simp [h1, h2]
        rw [hstepL, hstepR]
        simp only [flattenOut, flattenIn]
        rw [ih]
        simp [buildInsPlaceholder, List.append_assoc]
      · have hstepL : ((p :: ps).flatMap fun part =>
          if part.type = -1 then [MSeg.blk dg part.text]
          else if part.type = 1 then [MSeg.lit (buildInsPlaceholder dg part.text)]
          else []) =
            ((ps).flatMap fun part =>
          if part.type = -1 then [MSeg.blk dg part.text]
          else if part.type = 1 then [MSeg.lit (buildInsPlaceholder dg part.text)]
          else []) := by
          simp [h1, h2]
        have hstepR : ((p :: ps).flatMap fun part =>
          if part.type = -1 then [MSeg.lit (buildDelSpan dg part.text)]
          else if part.type = 1 then [MSeg.blk dg part.text]
          else []) =
            ((ps).flatMap fun part =>
          if part.type = -1 then [MSeg.lit (buildDelSpan dg part.text)]
          else if part.type = 1 then [MSeg.blk dg part.text]
          else []) := by
          simp [h1, h2]
        rw [hstepL, hstepR, ih]

theorem flatten45_parts (dg : List Char) : ∀ (parts : List DiffPart),
    flattenOut buildInsSpan
      (parts.flatMap fun part =>
          if part.type = -1 then [MSeg.lit (buildDelSpan dg part.text)]
          else if part.type = 1 then [MSeg.blk dg part.text]
          else []) =
    (parts.flatMap fun part =>
          if part.type = -1 then buildDelSpan dg part.text
          else if part.type = 1 then buildInsSpan dg part.text
          else []) := by
  intro parts
  induction parts with
  | nil => simp [flattenOut]
  | cons p ps ih =>
    by_cases h1 : p.type = -1
    · have hstepL : ((p :: ps).flatMap fun part =>
          if part.type = -1 then [MSeg.lit (buildDelSpan dg part.text)]
          else if part.type = 1 then [MSeg.blk dg part.text]
          else []) =
          MSeg.lit (buildDelSpan dg p.text) :: ((ps).flatMap fun part =>
          if part.type = -1 then [MSeg.lit (buildDelSpan dg part.text)]
          else if part.type = 1 then [MSeg.blk dg part.text]
          else []) := by
        simp [h1]
      have hstepR : ((p :: ps).flatMap fun part =>
          if part.type = -1 then buildDelSpan dg part.text
          else if part.type = 1 then buildInsSpan dg part.text
          else []) =
          buildDelSpan dg p.text ++ ((ps).flatMap fun part =>
          if part.type = -1 then buildDelSpan dg part.text
          else if part.type = 1 then buildInsSpan dg part.text
          else []) := by
        simp [h1]
      rw [hstepL, hstepR]
      simp only [flattenOut]
      rw [ih]
    · by_cases h2 : p.type = 1
      · have hstepL : ((p :: ps).flatMap fun part =>
          if part.type = -1 then [MSeg.lit (buildDelSpan dg part.text)]
          else if part.type = 1 then [MSeg.blk dg part.text]
          else []) =
            MSeg.blk dg p.text :: ((ps).flatMap fun part =>
          if part.type = -1 then [MSeg.lit (buildDelSpan dg part.text)]
          else if part.type = 1 then [MSeg.blk dg part.text]
          else []) := by
          simp [h1, h2]
        have hstepR : ((p :: ps).flatMap fun part =>
          if part.type = -1 then buildDelSpan dg part.text
          else if part.type = 1 then buildInsSpan dg part.text
          else []) =
            buildInsSpan dg p.text ++ ((ps).flatMap fun part =>
          if part.type = -1 then buildDelSpan dg part.text
          else if part.type = 1 then buildInsSpan dg part.text
          else []) := by
          simp [h1, h2]
        rw [hstepL, hstepR]
        simp only [flattenOut]
        rw [ih]
      · have hstepL : ((p :: ps).flatMap fun part =>
          if part.type = -1 then [MSeg.lit (buildDelSpan dg part.text)]
          else if part.type = 1 then [MSeg.blk dg part.text]
          else []) =
            ((ps).flatMap fun part =>
          if part.type = -1 then [MSeg.lit (buildDelSpan dg part.text)]
          else if part.type = 1 then [MSeg.blk dg part.text]
          else []) := by
          simp [h1, h2]
        have hstepR : ((p :: ps).flatMap fun part =>
          if part.type = -1 then buildDelSpan dg part.text
          else if part.type = 1 then buildInsSpan dg part.text
          else []) =
            ((ps).flatMap fun part =>
          if part.type = -1 then buildDelSpan dg part.text
          else if part.type = 1 then buildInsSpan dg part.text
          else []) := by
          simp [h1, h2]
        rw [hstepL, hstepR, ih]

theorem flatten23_eq : ∀ (us : List ChangeUnit),
    flattenOut buildInsPlaceholder (segs2 us) =
      flattenIn phDelOpenPre phOpenSuf phDelClose (segs3 us) := by
  intro us
  induction us with
  | nil => simp [segs2, segs3, flattenOut, flattenIn]
  | cons u rest ih =>
    have hconsL : segs2 (u :: rest) =
        (if u.type = "equal" then [MSeg.lit ((u.parts.headD (DiffPart.mk 0 [])).text)]
         else u.parts.flatMap fun part =>
          if part.type = -1 then
            [MSeg.lit (buildDelPlaceholder (natDigits (u.id.getD 0)) part.text)]
          else if part.type = 1 then [MSeg.blk (natDigits (u.id.getD 0)) part.text]
          else []) ++ segs2 rest := by
      simp [segs2]
    have hconsR : segs3 (u :: rest) =
        (if u.type = "equal" then [MSeg.lit ((u.parts.headD (DiffPart.mk 0 [])).text)]
         else u.parts.flatMap fun part =>
          if part.type = -1 then [MSeg.blk (natDigits (u.id.getD 0)) part.text]
          else if part.type = 1 then
            [MSeg.lit (buildInsPlaceholder (natDigits (u.id.getD 0)) part.text)]
          else []) ++ segs3 rest := by
      simp [segs3]
    rw [hconsL, hconsR, flattenOut_append, flattenIn_append, ih]
    congr 1
    by_cases heq : u.type = "equal"
    · rw [if_pos heq, if_pos heq]
      simp [flattenOut, flattenIn]
    · rw [if_neg heq, if_neg heq]
      exact flatten23_parts _ u.parts

theorem flatten34_eq : ∀ (us : List ChangeUnit),
    flattenOut buildDelSpan (segs3 us) =
      flattenIn phInsOpenPre phOpenSuf phInsClose (segs4 us) := by
  intro us
  induction us with
  | nil => simp [segs3, segs4, flattenOut, flattenIn]
  | cons u rest ih =>
    have hconsL : segs3 (u :: rest) =
        (if u.type = "equal" then [MSeg.lit ((u.parts.headD (DiffPart.mk 0 [])).text)]
         else u.parts.flatMap fun part =>
          if part.type = -1 then [MSeg.blk (natDigits (u.id.getD 0)) part.text]
          else if part.type = 1 then
            [MSeg.lit (buildInsPlaceholder (natDigits (u.id.getD 0)) part.text)]
          else []) ++ segs3 rest := by
      simp [segs3]
    have hconsR : segs4 (u :: rest) =
        (if u.type = "equal" then [MSeg.lit ((u.parts.headD (DiffPart.mk 0 [])).text)]
         else u.parts.flatMap fun part =>
          if part.type = -1 then
            [MSeg.lit (buildDelSpan (natDigits (u.id.getD 0)) part.text)]
          else if part.type = 1 then [MSeg.blk (natDigits (u.id.getD 0)) part.text]
          else []) ++ segs4 rest := by
      simp [segs4]
    rw [hconsL, hconsR, flattenOut_append, flattenIn_append, ih]
    congr 1
    by_cases heq : u.type = "equal"
    · rw [if_pos heq, if_pos heq]
      simp [flattenOut, flattenIn]
    · rw [if_neg heq, if_neg heq]
      exact flatten34_parts _ u.parts

theorem flatten45_eq : ∀ (us : List ChangeUnit),
    flattenOut buildInsSpan (segs4 us) = renderUnits us := by
  intro us
  induction us with
  | nil => simp [segs4, renderUnits, flattenOut]
  | cons u rest ih =>
    have hconsL : segs4 (u :: rest) =
        (if u.type = "equal" then [MSeg.lit ((u.parts.headD (DiffPart.mk 0 [])).text)]
         else u.parts.flatMap fun part =>
          if part.type = -1 then
            [MSeg.lit (buildDelSpan (natDigits (u.id.getD 0)) part.text)]
          else if part.type = 1 then [MSeg.blk (natDigits (u.id.getD 0)) part.text]
          else []) ++ segs4 rest := by
      simp [segs4]
    have hconsR : renderUnits (u :: rest) =
        (if u.type = "equal" then (u.parts.headD (DiffPart.mk 0 [])).text
         else u.parts.flatMap fun part =>
          if part.type = -1 then buildDelSpan (natDigits (u.id.getD 0)) part.text
          else if part.type = 1 then buildInsSpan (natDigits (u.id.getD 0)) part.text
          else []) ++ renderUnits rest := by
      simp [renderUnits]
    rw [hconsL, hconsR, flattenOut_append, ih]
    congr 1
    by_cases heq : u.type = "equal"
    · rw [if_pos heq, if_pos heq]
      simp [flattenOut]
    · rw [if_neg heq, if_neg heq]
      exact flatten45_parts _ u.parts

theorem replaceTagged_nil (p1 p2 p3 : List Char)
    (build : List Char → List Char → List Char) :
    replaceTagged p1 p2 p3 build [] = [] := by
  rw [replaceTagged]

theorem markersRT_pass1 (us : List ChangeUnit) (h : safeUnits us = true) :
    replaceTagged delOpenPre nulSuf delClose buildDelPlaceholder (buildDiffMarkdown us) =
      flattenOut buildDelPlaceholder (segs1 us) := by
  have hs := replaceTagged_segs delOpenPre nulSuf delClose buildDelPlaceholder
    (by decide) (by decide) (by decide) (by decide) (segs1 us) [] (segsOK1 us h)
  simpa [flattenIn_segs1_eq, replaceTagged_nil] using hs

theorem markersRT_pass2 (us : List ChangeUnit) (h : safeUnits us = true) :
    replaceTagged insOpenPre nulSuf insClose buildInsPlaceholder
        (flattenOut buildDelPlaceholder (segs1 us)) =
      flattenOut buildInsPlaceholder (segs2 us) := by
  have hs := replaceTagged_segs insOpenPre nulSuf insClose buildInsPlaceholder
    (by decide) (by decide) (by decide) (by decide) (segs2 us) [] (segsOK2 us [] h)
  rw [flatten12_eq]
  simpa [replaceTagged_nil] using hs

theorem markersRT_pass3 (us : List ChangeUnit) (h : safeUnits us = true) :
    replaceTagged phDelOpenPre phOpenSuf phDelClose buildDelSpan
        (flattenOut buildInsPlaceholder (segs2 us)) =
      flattenOut buildDelSpan (segs3 us) := by
  have hs := replaceTagged_segs phDelOpenPre phOpenSuf phDelClose buildDelSpan
    (by decide) (by decide) (by decide) (by decide) (segs3 us) [] (segsOK3 us [] h)
  rw [flatten23_eq]
  simpa [replaceTagged_nil] using hs

theorem markersRT_pass4 (us : List ChangeUnit) (h : safeUnits us = true) :
    replaceTagged phInsOpenPre phOpenSuf phInsClose buildInsSpan
        (flattenOut buildDelSpan (segs3 us)) =
      flattenOut buildInsSpan (segs4 us) := by
  have hs := replaceTagged_segs phInsOpenPre phOpenSuf phInsClose buildInsSpan
    (by decide) (by decide) (by decide) (by decide) (segs4 us) [] (segsOK4 us [] h)
  rw [flatten34_eq]
  simpa [replaceTagged_nil] using hs

/-- C4 (amended): for every change-unit sequence that is safe — every
emitted part text is free of null bytes and of the character `<` and is
not of the shape `DEL<digits>`; every equal unit has at least one part
(the source reads `parts[0].text`, which throws on an empty array);
every change unit carries an id and at least one delete or insert part
(parts of other types are skipped by the serializer); and no two equal
units are adjacent — serializing with `buildDiffMarkdown`, converting
markers to placeholders and then placeholders to spans yields exactly
the expected markup: equal-unit text verbatim, and every delete or
insert part as a span carrying its unit id as `data-change-id` and its
exact text.  Every hypothesis beyond the claim's no-null-byte condition
is forced by a conjunct of the counterexample theorem. -/
theorem diffPipeline_safe (us : List ChangeUnit) (h : safeUnits us = true) :
    diffPipeline us = renderUnits us := by
  rw [diffPipeline, markersToPlaceholders, placeholdersToSpans]
  rw [markersRT_pass1 us h, markersRT_pass2 us h, markersRT_pass3 us h,
    markersRT_pass4 us h, flatten45_eq]
theorem natDigits_zero : natDigits 0 = ['0'] := by
  rw [natDigits]
  decide

theorem natDigits_one : natDigits 1 = ['1'] := by
  rw [natDigits]
  decide

theorem replaceTagged_match_step (p1 p2 p3 : List Char)
    (build : List Char → List Char → List Char) (l d b r : List Char)
    (h : tryMatch p1 p2 p3 l = some (d, b, r)) (hne : l ≠ []) :
    replaceTagged p1 p2 p3 build l = build d b ++ replaceTagged p1 p2 p3 build r := by
  cases l with
  | nil => exact absurd rfl hne
  | cons c rest => rw [replaceTagged, h]

theorem replaceTagged_no_match (openPre openSuf close : List Char)
    (build : List Char → List Char → List Char) :
    ∀ s, hasMatchIn openPre openSuf close s = false →
      replaceTagged openPre openSuf close build s = s := by
  intro s
  induction s with
  | nil => intro _; simp [replaceTagged]
  | cons c rest ih =>
    intro h
    simp only [hasMatchIn, List.tails_cons, List.any_cons, Bool.or_eq_false_iff] at h
    have hnone : tryMatch openPre openSuf close (c :: rest) = none :=
      Option.not_isSome_iff_eq_none.mp (by simp [h.1])
    have hrest : hasMatchIn openPre openSuf close rest = false := by
      simp [hasMatchIn, h.2]
    rw [replaceTagged, hnone]
    rw [ih hrest]

theorem markerPhantomTrace :
    placeholdersToSpans (markersToPlaceholders
      "\x00INS0\x00x\x00/INS\x00DEL5\x00DEL1\x00y\x00/DEL\x00".toList) =
      "\x00INS0\x00x\x00/INS<span class=\"diff-delete\" data-change-id=\"5\">DEL1\x00y</span>".toList := by
  have hsplit : "\x00INS0\x00x\x00/INS\x00DEL5\x00DEL1\x00y\x00/DEL\x00".toList =
      "\x00INS0\x00x\x00/INS".toList ++ "\x00DEL5\x00DEL1\x00y\x00/DEL\x00".toList := by decide
  have hdel : replaceTagged delOpenPre nulSuf delClose buildDelPlaceholder
      "\x00INS0\x00x\x00/INS\x00DEL5\x00DEL1\x00y\x00/DEL\x00".toList =
      "\x00INS0\x00x\x00/INS<diffdelete data-id=\"5\">DEL1\x00y</diffdelete>".toList := by
    rw [hsplit]
    rw [replaceTagged_passthrough delOpenPre nulSuf delClose buildDelPlaceholder
      "\x00INS0\x00x\x00/INS".toList "\x00DEL5\x00DEL1\x00y\x00/DEL\x00".toList
      (by unfold noMatchWithin; decide)]
    rw [replaceTagged_match_step delOpenPre nulSuf delClose buildDelPlaceholder
      "\x00DEL5\x00DEL1\x00y\x00/DEL\x00".toList "5".toList "DEL1\x00y".toList []
      (by decide) (by decide)]
    rw [replaceTagged_nil]
    decide
  have hins : replaceTagged insOpenPre nulSuf insClose buildInsPlaceholder
      "\x00INS0\x00x\x00/INS<diffdelete data-id=\"5\">DEL1\x00y</diffdelete>".toList =
      "\x00INS0\x00x\x00/INS<diffdelete data-id=\"5\">DEL1\x00y</diffdelete>".toList :=
    replaceTagged_no_match _ _ _ _ _ (by decide)
  have hphdel : replaceTagged phDelOpenPre phOpenSuf phDelClose buildDelSpan
      "\x00INS0\x00x\x00/INS<diffdelete data-id=\"5\">DEL1\x00y</diffdelete>".toList =
      "\x00INS0\x00x\x00/INS<span class=\"diff-delete\" data-change-id=\"5\">DEL1\x00y</span>".toList := by
    have hsp2 : "\x00INS0\x00x\x00/INS<diffdelete data-id=\"5\">DEL1\x00y</diffdelete>".toList =
        "\x00INS0\x00x\x00/INS".toList ++
          "<diffdelete data-id=\"5\">DEL1\x00y</diffdelete>".toList := by decide
    rw [hsp2]
    rw [replaceTagged_passthrough phDelOpenPre phOpenSuf phDelClose buildDelSpan
      "\x00INS0\x00x\x00/INS".toList "<diffdelete data-id=\"5\">DEL1\x00y</diffdelete>".toList
      (by unfold noMatchWithin; decide)]
    rw [replaceTagged_match_step phDelOpenPre phOpenSuf phDelClose buildDelSpan
      "<diffdelete data-id=\"5\">DEL1\x00y</diffdelete>".toList "5".toList "DEL1\x00y".toList []
      (by decide) (by decide)]
    rw [replaceTagged_nil]
    decide
  have hphins : replaceTagged phInsOpenPre phOpenSuf phInsClose buildInsSpan
      "\x00INS0\x00x\x00/INS<span class=\"diff-delete\" data-change-id=\"5\">DEL1\x00y</span>".toList =
      "\x00INS0\x00x\x00/INS<span class=\"diff-delete\" data-change-id=\"5\">DEL1\x00y</span>".toList :=
    replaceTagged_no_match _ _ _ _ _ (by decide)
  rw [markersToPlaceholders, hdel, hins, placeholdersToSpans, hphdel, hphins]

/-- C4 counterexamples to the claim as stated: the hypothesis that part
texts contain no null bytes is not sufficient, and each additional
hypothesis of the amended claim is forced by one of these conjuncts.
First, an equal unit whose text merely looks like a placeholder tag —
`<diffdelete data-id="0">x</diffdelete>`, with no null byte — is rewritten
into a delete span instead of passing through.  Second, an equal text of
the shape `DEL5` completes a phantom delete-sentinel match against the
null byte ending the preceding insert marker and the null byte opening
the following delete marker, corrupting the output.  Third, the same
phantom arises from two adjacent equal units `DE` and `L5`.  Fourth, it
equally arises when a change unit emitting no marker — here one with an
empty parts array — stands between the two equal units. -/
theorem markerRoundTrip_counterexample :
    (diffPipeline [ChangeUnit.mk none "equal"
        [DiffPart.mk 0 ("<diffdelete data-id=\"0\">x</diffdelete>".toList)]] ≠
      renderUnits [ChangeUnit.mk none "equal"
        [DiffPart.mk 0 ("<diffdelete data-id=\"0\">x</diffdelete>".toList)]]) ∧
    (diffPipeline
      [ChangeUnit.mk (some 0) "change" [DiffPart.mk 1 ['x']],
        ChangeUnit.mk none "equal" [DiffPart.mk 0 "DEL5".toList],
        ChangeUnit.mk (some 1) "change" [DiffPart.mk (-1) ['y']]] ≠ renderUnits
      [ChangeUnit.mk (some 0) "change" [DiffPart.mk 1 ['x']],
        ChangeUnit.mk none "equal" [DiffPart.mk 0 "DEL5".toList],
        ChangeUnit.mk (some 1) "change" [DiffPart.mk (-1) ['y']]]) ∧
    (diffPipeline
      [ChangeUnit.mk (some 0) "change" [DiffPart.mk 1 ['x']],
        ChangeUnit.mk none "equal" [DiffPart.mk 0 "DE".toList],
        ChangeUnit.mk none "equal" [DiffPart.mk 0 "L5".toList],
        ChangeUnit.mk (some 1) "change" [DiffPart.mk (-1) ['y']]] ≠ renderUnits
      [ChangeUnit.mk (some 0) "change" [DiffPart.mk 1 ['x']],
        ChangeUnit.mk none "equal" [DiffPart.mk 0 "DE".toList],
        ChangeUnit.mk none "equal" [DiffPart.mk 0 "L5".toList],
        ChangeUnit.mk (some 1) "change" [DiffPart.mk (-1) ['y']]]) ∧
    (diffPipeline
      [ChangeUnit.mk (some 0) "change" [DiffPart.mk 1 ['x']],
        ChangeUnit.mk none "equal" [DiffPart.mk 0 "DE".toList],
        ChangeUnit.mk (some 9) "change" [],
        ChangeUnit.mk none "equal" [DiffPart.mk 0 "L5".toList],
        ChangeUnit.mk (some 1) "change" [DiffPart.mk (-1) ['y']]] ≠ renderUnits
      [ChangeUnit.mk (some 0) "change" [DiffPart.mk 1 ['x']],
        ChangeUnit.mk none "equal" [DiffPart.mk 0 "DE".toList],
        ChangeUnit.mk (some 9) "change" [],
        ChangeUnit.mk none "equal" [DiffPart.mk 0 "L5".toList],
        ChangeUnit.mk (some 1) "change" [DiffPart.mk (-1) ['y']]]) := by
  have hc1 : diffPipeline [ChangeUnit.mk none "equal"
        [DiffPart.mk 0 ("<diffdelete data-id=\"0\">x</diffdelete>".toList)]] ≠
      renderUnits [ChangeUnit.mk none "equal"
        [DiffPart.mk 0 ("<diffdelete data-id=\"0\">x</diffdelete>".toList)]] := by
    have hT : ('\x00' : Char) ∉ "<diffdelete data-id=\"0\">x</diffdelete>".toList := by decide
    have h1 : replaceTagged delOpenPre nulSuf delClose buildDelPlaceholder
        ("<diffdelete data-id=\"0\">x</diffdelete>".toList) =
        "<diffdelete data-id=\"0\">x</diffdelete>".toList := by
      have hp := replaceTagged_passthrough delOpenPre nulSuf delClose buildDelPlaceholder
        ("<diffdelete data-id=\"0\">x</diffdelete>".toList) []
        (noMatchWithin_of_head_notMem _ _ _ _ _ hT _)
      simpa [replaceTagged_nil] using hp
    have h2 : replaceTagged insOpenPre nulSuf insClose buildInsPlaceholder
        ("<diffdelete data-id=\"0\">x</diffdelete>".toList) =
        "<diffdelete data-id=\"0\">x</diffdelete>".toList := by
      have hp := replaceTagged_passthrough insOpenPre nulSuf insClose buildInsPlaceholder
        ("<diffdelete data-id=\"0\">x</diffdelete>".toList) []
        (noMatchWithin_of_head_notMem _ _ _ _ _ hT _)
      simpa [replaceTagged_nil] using hp
    have h3 : replaceTagged phDelOpenPre phOpenSuf phDelClose buildDelSpan
        ("<diffdelete data-id=\"0\">x</diffdelete>".toList) =
        buildDelSpan ['0'] ['x'] := by
      have hseg := replaceTagged_segs phDelOpenPre phOpenSuf phDelClose buildDelSpan
        (by decide) (by decide) (by decide) (by decide) [MSeg.blk ['0'] ['x']] []
        ⟨by decide, by decide, by decide, trivial⟩
      have hfl : flattenIn phDelOpenPre phOpenSuf phDelClose [MSeg.blk ['0'] ['x']] ++
          ([] : List Char) = "<diffdelete data-id=\"0\">x</diffdelete>".toList := by decide
      rw [hfl] at hseg
      simpa [flattenOut, replaceTagged_nil] using hseg
    have h4 : replaceTagged phInsOpenPre phOpenSuf phInsClose buildInsSpan
        (buildDelSpan ['0'] ['x']) = buildDelSpan ['0'] ['x'] := by
      have hp := replaceTagged_passthrough phInsOpenPre phOpenSuf phInsClose buildInsSpan
        (buildDelSpan ['0'] ['x']) [] (delSpan_inert ['0'] ['x'] (by decide) (by decide) [])
      simpa [replaceTagged_nil] using hp
    intro hEq
    rw [diffPipeline, markersToPlaceholders, placeholdersToSpans] at hEq
    have hbdm : buildDiffMarkdown [ChangeUnit.mk none "equal"
        [DiffPart.mk 0 ("<diffdelete data-id=\"0\">x</diffdelete>".toList)]] =
        "<diffdelete data-id=\"0\">x</diffdelete>".toList := by decide
    rw [hbdm, h1, h2, h3, h4] at hEq
    have hr : renderUnits [ChangeUnit.mk none "equal"
        [DiffPart.mk 0 ("<diffdelete data-id=\"0\">x</diffdelete>".toList)]] =
        "<diffdelete data-id=\"0\">x</diffdelete>".toList := by decide
    rw [hr] at hEq
    exact absurd hEq (by decide)
  have hbdm2 : buildDiffMarkdown
      [ChangeUnit.mk (some 0) "change" [DiffPart.mk 1 ['x']],
        ChangeUnit.mk none "equal" [DiffPart.mk 0 "DEL5".toList],
        ChangeUnit.mk (some 1) "change" [DiffPart.mk (-1) ['y']]] = "\x00INS0\x00x\x00/INS\x00DEL5\x00DEL1\x00y\x00/DEL\x00".toList := by
    simp [buildDiffMarkdown, natDigits_zero, natDigits_one, insMarkerBlock, insOpenPre,
      nulSuf, insClose, delOpenPre, delClose]
  have hrender2 : renderUnits
      [ChangeUnit.mk (some 0) "change" [DiffPart.mk 1 ['x']],
        ChangeUnit.mk none "equal" [DiffPart.mk 0 "DEL5".toList],
        ChangeUnit.mk (some 1) "change" [DiffPart.mk (-1) ['y']]] = ("<span class=\"diff-insert\" data-change-id=\"0\">x</span>DEL5" ++ "<span class=\"diff-delete\" data-change-id=\"1\">y</span>").toList := by
    simp [renderUnits, natDigits_zero, natDigits_one, buildDelSpan, buildInsSpan]
  have hc2 : diffPipeline
      [ChangeUnit.mk (some 0) "change" [DiffPart.mk 1 ['x']],
        ChangeUnit.mk none "equal" [DiffPart.mk 0 "DEL5".toList],
        ChangeUnit.mk (some 1) "change" [DiffPart.mk (-1) ['y']]] ≠ renderUnits
      [ChangeUnit.mk (some 0) "change" [DiffPart.mk 1 ['x']],
        ChangeUnit.mk none "equal" [DiffPart.mk 0 "DEL5".toList],
        ChangeUnit.mk (some 1) "change" [DiffPart.mk (-1) ['y']]] := by
    intro hEq
    rw [diffPipeline, hbdm2, markerPhantomTrace, hrender2] at hEq
    exact absurd hEq (by decide)
  have hbdm3 : buildDiffMarkdown
      [ChangeUnit.mk (some 0) "change" [DiffPart.mk 1 ['x']],
        ChangeUnit.mk none "equal" [DiffPart.mk 0 "DE".toList],
        ChangeUnit.mk none "equal" [DiffPart.mk 0 "L5".toList],
        ChangeUnit.mk (some 1) "change" [DiffPart.mk (-1) ['y']]] = "\x00INS0\x00x\x00/INS\x00DEL5\x00DEL1\x00y\x00/DEL\x00".toList := by
    simp [buildDiffMarkdown, natDigits_zero, natDigits_one, insMarkerBlock, insOpenPre,
      nulSuf, insClose, delOpenPre, delClose]
  have hrender3 : renderUnits
      [ChangeUnit.mk (some 0) "change" [DiffPart.mk 1 ['x']],
        ChangeUnit.mk none "equal" [DiffPart.mk 0 "DE".toList],
        ChangeUnit.mk none "equal" [DiffPart.mk 0 "L5".toList],
        ChangeUnit.mk (some 1) "change" [DiffPart.mk (-1) ['y']]] = ("<span class=\"diff-insert\" data-change-id=\"0\">x</span>DEL5" ++ "<span class=\"diff-delete\" data-change-id=\"1\">y</span>").toList := by
    simp [renderUnits, natDigits_zero, natDigits_one, buildDelSpan, buildInsSpan]
  have hc3 : diffPipeline
      [ChangeUnit.mk (some 0) "change" [DiffPart.mk 1 ['x']],
        ChangeUnit.mk none "equal" [DiffPart.mk 0 "DE".toList],
        ChangeUnit.mk none "equal" [DiffPart.mk 0 "L5".toList],
        ChangeUnit.mk (some 1) "change" [DiffPart.mk (-1) ['y']]] ≠ renderUnits
      [ChangeUnit.mk (some 0) "change" [DiffPart.mk 1 ['x']],
        ChangeUnit.mk none "equal" [DiffPart.mk 0 "DE".toList],
        ChangeUnit.mk none "equal" [DiffPart.mk 0 "L5".toList],
        ChangeUnit.mk (some 1) "change" [DiffPart.mk (-1) ['y']]] := by
    intro hEq
    rw [diffPipeline, hbdm3, markerPhantomTrace, hrender3] at hEq
    exact absurd hEq (by decide)
  have hbdm4 : buildDiffMarkdown
      [ChangeUnit.mk (some 0) "change" [DiffPart.mk 1 ['x']],
        ChangeUnit.mk none "equal" [DiffPart.mk 0 "DE".toList],
        ChangeUnit.mk (some 9) "change" [],
        ChangeUnit.mk none "equal" [DiffPart.mk 0 "L5".toList],
        ChangeUnit.mk (some 1) "change" [DiffPart.mk (-1) ['y']]] = "\x00INS0\x00x\x00/INS\x00DEL5\x00DEL1\x00y\x00/DEL\x00".toList := by
    simp [buildDiffMarkdown, natDigits_zero, natDigits_one, insMarkerBlock, insOpenPre,
      nulSuf, insClose, delOpenPre, delClose]
  have hrender4 : renderUnits
      [ChangeUnit.mk (some 0) "change" [DiffPart.mk 1 ['x']],
        ChangeUnit.mk none "equal" [DiffPart.mk 0 "DE".toList],
        ChangeUnit.mk (some 9) "change" [],
        ChangeUnit.mk none "equal" [DiffPart.mk 0 "L5".toList],
        ChangeUnit.mk (some 1) "change" [DiffPart.mk (-1) ['y']]] = ("<span class=\"diff-insert\" data-change-id=\"0\">x</span>DEL5" ++ "<span class=\"diff-delete\" data-change-id=\"1\">y</span>").toList := by
    simp [renderUnits, natDigits_zero, natDigits_one, buildDelSpan, buildInsSpan]
  have hc4 : diffPipeline
      [ChangeUnit.mk (some 0) "change" [DiffPart.mk 1 ['x']],
        ChangeUnit.mk none "equal" [DiffPart.mk 0 "DE".toList],
        ChangeUnit.mk (some 9) "change" [],
        ChangeUnit.mk none "equal" [DiffPart.mk 0 "L5".toList],
        ChangeUnit.mk (some 1) "change" [DiffPart.mk (-1) ['y']]] ≠ renderUnits
      [ChangeUnit.mk (some 0) "change" [DiffPart.mk 1 ['x']],
        ChangeUnit.mk none "equal" [DiffPart.mk 0 "DE".toList],
        ChangeUnit.mk (some 9) "change" [],
        ChangeUnit.mk none "equal" [DiffPart.mk 0 "L5".toList],
        ChangeUnit.mk (some 1) "change" [DiffPart.mk (-1) ['y']]] := by
    intro hEq
    rw [diffPipeline, hbdm4, markerPhantomTrace, hrender4] at hEq
    exact absurd hEq (by decide)
  exact ⟨hc1, hc2, hc3, hc4⟩

theorem markerRoundTrip_amended_witness :
    safeUnits [ChangeUnit.mk (some 0) "change" [DiffPart.mk (-1) ['a'], DiffPart.mk 1 ['b']],
      ChangeUnit.mk none "equal" [DiffPart.mk 0 [' ']]] = true ∧
    diffPipeline [ChangeUnit.mk (some 0) "change" [DiffPart.mk (-1) ['a'], DiffPart.mk 1 ['b']],
      ChangeUnit.mk none "equal" [DiffPart.mk 0 [' ']]] =
    renderUnits [ChangeUnit.mk (some 0) "change" [DiffPart.mk (-1) ['a'], DiffPart.mk 1 ['b']],
      ChangeUnit.mk none "equal" [DiffPart.mk 0 [' ']]] :=
  ⟨by decide, diffPipeline_safe _ (by decide)⟩

/-- C10: clearing the diff state resets every diff-state field —
pending flag, contents, selection-edit flag, the three selection
fields and the change list — to the value it has in
`createInitialDiffState`. -/
theorem clearDiffState_resets (s : DiffState) :
    clearDiffState s = createInitialDiffState := rfl

theorem find?_updateFirstById (f : ResChange → ResChange)
    (hf : ∀ c, (f c).id = c.id) (changeId : Nat) :
    ∀ (cs : List ResChange) (c : ResChange),
      cs.find? (fun c => c.id = some changeId) = some c →
      (updateFirstById f changeId cs).find? (fun c => c.id = some changeId) = some (f c) := by
  intro cs
  induction cs with
  | nil => intro c h; simp [List.find?] at h
  | cons c0 cs ih =>
    intro c h
    by_cases h0 : c0.id = some changeId
    · have hd : (fun c : ResChange => decide (c.id = some changeId)) c0 = true := by
        simp [h0]
      rw [List.find?_cons_of_pos (p := fun c : ResChange => decide (c.id = some changeId))
        _ hd] at h
      have hc : c0 = c := by injection h
      subst hc
      simp only [updateFirstById, if_pos h0]
      exact List.find?_cons_of_pos (p := fun c : ResChange => decide (c.id = some changeId))
        _ (by simp [hf, h0])
    · have hd : ¬ ((fun c : ResChange => decide (c.id = some changeId)) c0 = true) := by
        simp [h0]
      rw [List.find?_cons_of_neg (p := fun c : ResChange => decide (c.id = some changeId))
        _ hd] at h
      simp only [updateFirstById, if_neg h0]
      rw [List.find?_cons_of_neg (p := fun c : ResChange => decide (c.id = some changeId))
        _ hd]
      exact ih c h

theorem resolve_of_find?_none (d : Bool) (s : List ResChange) (changeId : Nat)
    (h : s.find? (fun c => c.id = some changeId) = none) :
    resolveSingleChange d s changeId = s := by
  cases d <;> simp [resolveSingleChange, acceptSingleChange, rejectSingleChange, h]

theorem resolve_of_resolved (d : Bool) (s : List ResChange) (changeId : Nat)
    (c : ResChange) (h : s.find? (fun c => c.id = some changeId) = some c)
    (hres : c.resolved = true) :
    resolveSingleChange d s changeId = s := by
  cases d <;> simp [resolveSingleChange, acceptSingleChange, rejectSingleChange, h, hres]

/-- C6: resolving an unknown unit id is a no-op, resolving an
already-resolved unit is a no-op, and a second resolution of the same
id — with the same or a different decision — leaves the whole change
list, hence every unit's accepted/rejected flags and the unresolved
count, unchanged. -/
theorem resolution_idempotent (s : List ResChange) (changeId : Nat) (d1 d2 : Bool) :
    resolveSingleChange d2 (resolveSingleChange d1 s changeId) changeId =
      resolveSingleChange d1 s changeId ∧
    (s.find? (fun c => c.id = some changeId) = none →
      resolveSingleChange d1 s changeId = s) ∧
    (∀ c, s.find? (fun c => c.id = some changeId) = some c → c.resolved = true →
      resolveSingleChange d1 s changeId = s) ∧
    unresolvedCount (resolveSingleChange d2 (resolveSingleChange d1 s changeId) changeId) =
      unresolvedCount (resolveSingleChange d1 s changeId) := by
  have key : resolveSingleChange d2 (resolveSingleChange d1 s changeId) changeId =
      resolveSingleChange d1 s changeId := by
    cases hfind : s.find? (fun c => c.id = some changeId) with
    | none =>
      rw [resolve_of_find?_none d1 s changeId hfind, resolve_of_find?_none d2 s changeId hfind]
    | some c =>
      by_cases hres : c.resolved = true
      · rw [resolve_of_resolved d1 s changeId c hfind hres,
          resolve_of_resolved d2 s changeId c hfind hres]
      · have hstep : ∀ f, (∀ x, (f x).id = x.id) → (f c).resolved = true →
            resolveSingleChange d2 (updateFirstById f changeId s) changeId =
              updateFirstById f changeId s := by
          intro f hid hfres
          have hfind2 := find?_updateFirstById f hid changeId s c hfind
          exact resolve_of_resolved d2 _ changeId (f c) hfind2 hfres
        cases d1 with
        | true =>
          have h1 : resolveSingleChange true s changeId =
              updateFirstById setAccepted changeId s := by
            simp [resolveSingleChange, acceptSingleChange, hfind, hres]
          rw [h1]
          exact hstep setAccepted (fun x => rfl) rfl
        | false =>
          have h1 : resolveSingleChange false s changeId =
              updateFirstById setRejected changeId s := by
            simp [resolveSingleChange, rejectSingleChange, hfind, hres]
          rw [h1]
          exact hstep setRejected (fun x => rfl) rfl
  refine ⟨key, fun h => resolve_of_find?_none d1 s changeId h,
    fun c h hres => resolve_of_resolved d1 s changeId c h hres, congrArg unresolvedCount key⟩

/-- Closed instance of the idempotent-resolution theorem at a concrete
two-unit session: accepting unit 0 and then rejecting it again leaves
the state of the first acceptance. -/
theorem resolution_idempotent_witness :
    resolveSingleChange false
        (resolveSingleChange true
          [ResChange.mk (some 0) "change" [] false false false,
           ResChange.mk (some 1) "change" [] false false false] 0) 0 =
      resolveSingleChange true
        [ResChange.mk (some 0) "change" [] false false false,
         ResChange.mk (some 1) "change" [] false false false] 0 :=
  (resolution_idempotent
    [ResChange.mk (some 0) "change" [] false false false,
     ResChange.mk (some 1) "change" [] false false false] 0 true false).1


theorem indexOfSub_spec (needle : List Char) :
    ∀ hay : List Char,
      (∀ i, indexOfSub needle hay = some i →
        startsWith needle (hay.drop i) = true ∧
          ∀ j < i, startsWith needle (hay.drop j) = false) ∧
      (indexOfSub needle hay = none → ∀ j, startsWith needle (hay.drop j) = false) := by
  intro hay
  induction hay with
  | nil =>
    constructor
    · intro i hi
      simp only [indexOfSub] at hi
      split at hi
      next hne =>
        cases hi
        subst hne
        exact ⟨rfl, by omega⟩
      next => simp at hi
    · intro hnone j
      simp only [indexOfSub] at hnone
      split at hnone
      next => simp at hnone
      next hne =>
        cases needle with
        | nil => exact absurd rfl hne
        | cons _ _ => simp [startsWith]
  | cons c t ih =>
    constructor
    · intro i hi
      simp only [indexOfSub] at hi
      split at hi
      next hs => cases hi; exact ⟨hs, by omega⟩
      next hs =>
        cases hsub : indexOfSub needle t with
        | none => rw [hsub] at hi; simp at hi
        | some i0 =>
          rw [hsub] at hi
          have hii : i = i0 + 1 := by simpa using hi.symm
          subst hii
          refine ⟨by simpa using (ih.1 i0 hsub).1, ?_⟩
          intro j hj
          cases j with
          | zero => simpa using hs
          | succ j0 => simpa using (ih.1 i0 hsub).2 j0 (by omega)
    · intro hnone j
      simp only [indexOfSub] at hnone
      split at hnone
      next => simp at hnone
      next hs =>
        cases hsub : indexOfSub needle t with
        | some i0 => rw [hsub] at hnone; simp at hnone
        | none =>
          cases j with
          | zero => simpa using hs
          | succ j0 => simpa using (ih.2 hsub) j0

/-- C5: for a selection-scoped session, accept-all splices the proposed
text over the first exact occurrence of the original sub-span inside
the full document; when the sub-span does not occur, the result is the
proposed text used verbatim. -/
theorem spliceAccept_spec (full orig prop : List Char) :
    (∀ i, indexOfSub orig full = some i →
      spliceAccept true full orig prop =
          full.take i ++ prop ++ full.drop (i + orig.length) ∧
        startsWith orig (full.drop i) = true ∧
        ∀ j < i, startsWith orig (full.drop j) = false) ∧
    (indexOfSub orig full = none →
      spliceAccept true full orig prop = prop ∧
        ∀ j, startsWith orig (full.drop j) = false) := by
  constructor
  · intro i hi
    refine ⟨?_, ((indexOfSub_spec orig full).1 i hi).1, ((indexOfSub_spec orig full).1 i hi).2⟩
    simp [spliceAccept, hi]
  · intro hnone
    exact ⟨by simp [spliceAccept, hnone], (indexOfSub_spec orig full).2 hnone⟩

/-- Closed instance of the splice theorem: in the document `ab cd`
with original span `cd` and proposed span `xy`, the first occurrence
is at index 3 and the result is `ab xy`. -/
theorem spliceAccept_witness :
    spliceAccept true "ab cd".toList "cd".toList "xy".toList =
        "ab cd".toList.take 3 ++ "xy".toList ++ "ab cd".toList.drop (3 + "cd".toList.length) ∧
      startsWith "cd".toList ("ab cd".toList.drop 3) = true ∧
      ∀ j < 3, startsWith "cd".toList ("ab cd".toList.drop j) = false :=
  (spliceAccept_spec "ab cd".toList "cd".toList "xy".toList).1 3 (by decide)

theorem splitFirst_none_of_head_notMem (pat : List Char) : ∀ (l : List Char),
    pat ≠ [] → pat.headI ∉ l → splitFirst pat l = none := by
  intro l
  induction l with
  | nil =>
    intro hne h
    simp only [splitFirst]
    rw [if_neg]
    intro hsw
    cases pat with
    | nil => exact hne rfl
    | cons a r => simp [startsWith] at hsw
  | cons c cs ih =>
    intro hne h
    have hsw : startsWith pat (c :: cs) = false := by
      cases pat with
      | nil => exact absurd rfl hne
      | cons a r =>
        have hac : a ≠ c := by
          intro he
          exact h (by rw [show (a :: r).headI = a from rfl, he]; exact List.mem_cons_self c cs)
        have hone : startsWith (a :: r) (c :: cs) = (decide (a = c) && startsWith r cs) := rfl
        rw [hone]
        simp [hac]
    simp only [splitFirst]
    rw [if_neg (by simp [hsw]), ih hne (fun hm => h (List.mem_cons_of_mem c hm))]

theorem tryMatch_open_noClose (W p3 : List Char) (d t : List Char)
    (hd : d ≠ []) (hdig : ∀ ch ∈ d, ch.isDigit = true)
    (hp3ne : p3 ≠ []) (hp3h : p3.headI = '\x00') (ht : '\x00' ∉ t) :
    tryMatch ('\x00' :: W) nulSuf p3 (('\x00' :: W) ++ (d ++ ('\x00' :: t))) = none := by
  have hsw := startsWith_append_self ('\x00' :: W) (d ++ ('\x00' :: t))
  have hdrop : (('\x00' :: W) ++ (d ++ ('\x00' :: t))).drop ('\x00' :: W).length =
      d ++ ('\x00' :: t) := List.drop_left _ _
  have h0dig : ('\x00' : Char).isDigit = false := by decide
  have htake : (d ++ ('\x00' :: t)).takeWhile Char.isDigit = d := by
    rw [takeWhile_all_append Char.isDigit d _ hdig]
    simp [List.takeWhile_cons, h0dig]
  have hdropw : (d ++ ('\x00' :: t)).dropWhile Char.isDigit = '\x00' :: t := by
    rw [dropWhile_all_append Char.isDigit d _ hdig]
    simp [List.dropWhile_cons, h0dig]
  have hsw2 : startsWith nulSuf ('\x00' :: t) = true := by
    have hone : startsWith nulSuf ('\x00' :: t) =
        (decide ('\x00' = '\x00') && startsWith [] t) := rfl
    rw [hone]
    simp [startsWith]
  have hdrop2 : ('\x00' :: t).drop nulSuf.length = t := rfl
  have hsplit : splitFirst p3 t = none :=
    splitFirst_none_of_head_notMem p3 t hp3ne (by rw [hp3h]; exact ht)
  have hde : d.isEmpty = false := by
    cases d with
    | nil => exact absurd rfl hd
    | cons _ _ => rfl
  simp only [tryMatch, hsw, if_pos, hdrop, htake, hdropw, hsw2, hdrop2, hsplit, hde]
  simp

theorem tryMatch_nul_no_nulsuf (W p3 : List Char) (t : List Char) (ht : '\x00' ∉ t) :
    tryMatch ('\x00' :: W) nulSuf p3 ('\x00' :: t) = none := by
  cases hsw : startsWith ('\x00' :: W) ('\x00' :: t) with
  | false => exact tryMatch_none_of_sw_false _ _ _ _ hsw
  | true =>
    have hl1 : ('\x00' :: t).drop ('\x00' :: W).length = t.drop W.length := by
      simp [List.drop]
    by_cases hde : (t.drop W.length).takeWhile Char.isDigit = []
    · simp [tryMatch, hsw, hl1, hde]
    · have hsw2 : startsWith nulSuf ((t.drop W.length).dropWhile Char.isDigit) = false := by
        cases hc : (t.drop W.length).dropWhile Char.isDigit with
        | nil => rfl
        | cons c cs =>
          have hcmem : c ∈ t := by
            have hm1 : c ∈ (t.drop W.length).dropWhile Char.isDigit := by
              rw [hc]
              exact List.mem_cons_self _ _
            exact List.drop_subset _ _ ((List.dropWhile_sublist _).subset hm1)
          have hcne : ('\x00' : Char) ≠ c := fun he => ht (he ▸ hcmem)
          have hone : startsWith nulSuf (c :: cs) =
              (decide ('\x00' = c) && startsWith [] cs) := rfl
          rw [hone]
          simp [hcne]
      simp [tryMatch, hsw, hl1, hde, hsw2]

/-- C8: the decoder is total and recovers locally.  First conjunct: an
unmatched delete opener — `\x00DEL<id>\x00` followed by text and no
closing marker — is left in the output byte for byte as literal text
even while a matched insert pair right before it is converted to its
placeholder.  Second conjunct: input containing no full sentinel match
of either kind is returned exactly as given. -/
theorem markersToPlaceholders_unmatched_literal (d t d2 t2 : List Char)
    (hd : d ≠ []) (hdig : ∀ ch ∈ d, ch.isDigit = true)
    (hd2 : d2 ≠ []) (hdig2 : ∀ ch ∈ d2, ch.isDigit = true)
    (ht : '\x00' ∉ t) (ht2 : '\x00' ∉ t2)
    (hs2 : sentinelLike ['D', 'E', 'L'] t2 = false) :
    (markersToPlaceholders (insMarkerBlock d2 t2 ++ (delOpenPre ++ (d ++ ('\x00' :: t)))) =
      buildInsPlaceholder d2 t2 ++ (delOpenPre ++ (d ++ ('\x00' :: t)))) ∧
    ∀ s, hasMatchIn delOpenPre nulSuf delClose s = false →
      hasMatchIn insOpenPre nulSuf insClose s = false →
      markersToPlaceholders s = s := by
  constructor
  · have hnulDELd : ('\x00' : Char) ∉ ['D', 'E', 'L'] ++ d := by
      intro hm
      rcases List.mem_append.mp hm with h0 | h0
      · exact absurd h0 (by decide)
      · exact nul_notMem_digits d hdig h0
    have hfragNM : noMatchWithin delOpenPre nulSuf delClose
        (delOpenPre ++ (d ++ ('\x00' :: t))) [] := by
      have hshape : delOpenPre ++ (d ++ ('\x00' :: t)) =
          ['\x00'] ++ ((['D', 'E', 'L'] ++ d) ++ (['\x00'] ++ t)) := by
        simp [delOpenPre]
      rw [hshape]
      refine noMatchWithin_append _ _ _ _ _ _ ?_ ?_
      · refine noMatchWithin_single _ _ _ _ _ ?_
        have hv : '\x00' :: ((['D', 'E', 'L'] ++ d) ++ (['\x00'] ++ t) ++ ([] : List Char)) =
            ('\x00' :: ['D', 'E', 'L']) ++ (d ++ ('\x00' :: t)) := by
          simp
        rw [hv]
        exact tryMatch_open_noClose ['D', 'E', 'L'] delClose d t hd hdig
          (by decide) (by decide) ht
      refine noMatchWithin_append _ _ _ _ _ _ ?_ ?_
      · exact noMatchWithin_of_head_notMem _ _ _ _ _ hnulDELd _
      refine noMatchWithin_append _ _ _ _ _ _ ?_ ?_
      · refine noMatchWithin_single _ _ _ _ _ ?_
        have h0 : t ++ ([] : List Char) = t := List.append_nil t
        rw [h0]
        exact tryMatch_nul_no_nulsuf ['D', 'E', 'L'] delClose t ht
      · exact noMatchWithin_of_head_notMem _ _ _ _ _ ht _
    have hdelid : replaceTagged delOpenPre nulSuf delClose buildDelPlaceholder
        (insMarkerBlock d2 t2 ++ (delOpenPre ++ (d ++ ('\x00' :: t)))) =
        insMarkerBlock d2 t2 ++ (delOpenPre ++ (d ++ ('\x00' :: t))) := by
      have hcont : tryMatch delOpenPre nulSuf delClose
          ('\x00' :: ((delOpenPre ++ (d ++ ('\x00' :: t))) ++ ([] : List Char))) = none := by
        have hv : (delOpenPre ++ (d ++ ('\x00' :: t))) ++ ([] : List Char) =
            '\x00' :: (['D', 'E', 'L'] ++ (d ++ ('\x00' :: t))) := by
          simp [delOpenPre]
        rw [hv]
        exact tryMatch_del_nulnul _
      have hwhole : noMatchWithin delOpenPre nulSuf delClose
          (insMarkerBlock d2 t2 ++ (delOpenPre ++ (d ++ ('\x00' :: t)))) [] :=
        noMatchWithin_append _ _ _ _ _ _
          (insBlock_inert d2 t2 _ hdig2 ht2 hs2 hcont) hfragNM
      have hp := replaceTagged_passthrough delOpenPre nulSuf delClose buildDelPlaceholder
        _ [] hwhole
      simpa [replaceTagged_nil] using hp
    have hfragNMins : noMatchWithin insOpenPre nulSuf insClose
        (delOpenPre ++ (d ++ ('\x00' :: t))) [] := by
      have hshape : delOpenPre ++ (d ++ ('\x00' :: t)) =
          ['\x00', 'D', 'E', 'L'] ++ (d ++ (['\x00'] ++ t)) := by
        simp [delOpenPre]
      rw [hshape]
      refine noMatchWithin_append _ _ _ _ _ _ ?_ ?_
      · exact noMatchWithin_of_inertPiece _ _ _ _ (by decide) _
      refine noMatchWithin_append _ _ _ _ _ _ ?_ ?_
      · exact noMatchWithin_of_head_notMem _ _ _ _ _ (nul_notMem_digits d hdig) _
      refine noMatchWithin_append _ _ _ _ _ _ ?_ ?_
      · refine noMatchWithin_single _ _ _ _ _ ?_
        have h0 : t ++ ([] : List Char) = t := List.append_nil t
        rw [h0]
        exact tryMatch_nul_no_nulsuf ['I', 'N', 'S'] insClose t ht
      · exact noMatchWithin_of_head_notMem _ _ _ _ _ ht _
    have hinspass : replaceTagged insOpenPre nulSuf insClose buildInsPlaceholder
        (insMarkerBlock d2 t2 ++ (delOpenPre ++ (d ++ ('\x00' :: t)))) =
        buildInsPlaceholder d2 t2 ++ (delOpenPre ++ (d ++ ('\x00' :: t))) := by
      have hok : segsOK insOpenPre nulSuf insClose []
          [MSeg.blk d2 t2, MSeg.lit (delOpenPre ++ (d ++ ('\x00' :: t)))] := by
        refine ⟨hd2, hdig2, ?_, ?_, trivial⟩
        · have hh : insClose.headI = '\x00' := by decide
          rw [hh]
          exact ht2
        · simpa [flattenIn] using hfragNMins
      have hseg := replaceTagged_segs insOpenPre nulSuf insClose buildInsPlaceholder
        (by decide) (by decide) (by decide) (by decide)
        [MSeg.blk d2 t2, MSeg.lit (delOpenPre ++ (d ++ ('\x00' :: t)))] [] hok
      simpa [flattenIn, flattenOut, insMarkerBlock, List.append_assoc,
        replaceTagged_nil] using hseg
    rw [markersToPlaceholders, hdelid, hinspass]
  · intro s h1 h2
    rw [markersToPlaceholders, replaceTagged_no_match _ _ _ _ s h1,
      replaceTagged_no_match _ _ _ _ s h2]

/-- Closed instance of the unmatched-marker theorem: the matched insert
pair around `y` becomes its placeholder while the unmatched delete
opener `\x00DEL9\x00x` after it stays literal, and the no-match identity
holds. -/
theorem markersToPlaceholders_unmatched_literal_witness :
    (markersToPlaceholders (insMarkerBlock ['1'] ['y'] ++
        (delOpenPre ++ (['9'] ++ ('\x00' :: ['x'])))) =
      buildInsPlaceholder ['1'] ['y'] ++ (delOpenPre ++ (['9'] ++ ('\x00' :: ['x'])))) ∧
    ∀ s, hasMatchIn delOpenPre nulSuf delClose s = false →
      hasMatchIn insOpenPre nulSuf insClose s = false →
      markersToPlaceholders s = s :=
  markersToPlaceholders_unmatched_literal ['9'] ['x'] ['1'] ['y']
    (by decide) (by decide) (by decide) (by decide) (by decide) (by decide) (by decide)

theorem groupGo_ids : ∀ (k : Nat) (ds : List DiffPart),
    (∀ p ∈ ds, p.type = -1 ∨ p.type = 0 ∨ p.type = 1) →
    unitIds (groupGo k ds) = List.range' k (changeCount (groupGo k ds)) := by
  intro k ds
  induction k, ds using groupGo.induct with
  | case1 k => intro _; simp [groupGo, unitIds, changeCount]
  | case2 k d rest heq ih =>
    intro h
    have hstep : groupGo k (d :: rest) = ChangeUnit.mk none "equal" [d] :: groupGo k rest := by
      rw [groupGo.eq_def]; simp [heq]
    rw [hstep]
    have hrest := fun p hp => h p (List.mem_cons_of_mem d hp)
    have h1 : unitIds (ChangeUnit.mk none "equal" [d] :: groupGo k rest) =
        unitIds (groupGo k rest) := by simp [unitIds]
    have h2 : changeCount (ChangeUnit.mk none "equal" [d] :: groupGo k rest) =
        changeCount (groupGo k rest) := by simp [changeCount]
    rw [h1, h2]
    exact ih hrest
  | case3 k d hne0 heq d2 rest2 h1 ih =>
    intro h
    have hr : ∀ p ∈ rest2, p.type = -1 ∨ p.type = 0 ∨ p.type = 1 := fun p hp =>
      h p (List.mem_cons_of_mem d (List.mem_cons_of_mem d2 hp))
    have hstep : groupGo k (d :: d2 :: rest2) =
        ChangeUnit.mk (some k) "change" [d, d2] :: groupGo (k + 1) rest2 := by
      rw [groupGo.eq_def]; simp [heq, hne0, h1]
    rw [hstep]
    have hu : unitIds (ChangeUnit.mk (some k) "change" [d, d2] :: groupGo (k + 1) rest2) =
        k :: unitIds (groupGo (k + 1) rest2) := by simp [unitIds]
    have hc : changeCount (ChangeUnit.mk (some k) "change" [d, d2] :: groupGo (k + 1) rest2) =
        changeCount (groupGo (k + 1) rest2) + 1 := by simp [changeCount]
    rw [hu, hc, ih hr]
    rfl
  | case4 k d hne0 heq d2 rest2 hne1 ih =>
    intro h
    have hr : ∀ p ∈ d2 :: rest2, p.type = -1 ∨ p.type = 0 ∨ p.type = 1 := fun p hp =>
      h p (List.mem_cons_of_mem d hp)
    have hstep : groupGo k (d :: d2 :: rest2) =
        ChangeUnit.mk (some k) "change" [d] :: groupGo (k + 1) (d2 :: rest2) := by
      rw [groupGo.eq_def]; simp [heq, hne0, hne1]
    rw [hstep]
    have hu : unitIds (ChangeUnit.mk (some k) "change" [d] :: groupGo (k + 1) (d2 :: rest2)) =
        k :: unitIds (groupGo (k + 1) (d2 :: rest2)) := by simp [unitIds]
    have hc : changeCount (ChangeUnit.mk (some k) "change" [d] :: groupGo (k + 1) (d2 :: rest2)) =
        changeCount (groupGo (k + 1) (d2 :: rest2)) + 1 := by simp [changeCount]
    rw [hu, hc, ih hr]
    rfl
  | case5 k d hne0 heq =>
    intro _
    have hstep : groupGo k [d] = [ChangeUnit.mk (some k) "change" [d]] := by
      rw [groupGo.eq_def]; simp [heq, hne0]
    rw [hstep]
    simp [unitIds, changeCount, List.range']
  | case6 k d rest hne0 hne1 heq ih =>
    intro h
    have hrest := fun p hp => h p (List.mem_cons_of_mem d hp)
    have hstep : groupGo k (d :: rest) =
        ChangeUnit.mk (some k) "change" [d] :: groupGo (k + 1) rest := by
      rw [groupGo.eq_def]
      cases rest with
      | nil => simp [heq, hne0, hne1]
      | cons d2 rest2 => simp [heq, hne0, hne1]
    rw [hstep]
    have hu : unitIds (ChangeUnit.mk (some k) "change" [d] :: groupGo (k + 1) rest) =
        k :: unitIds (groupGo (k + 1) rest) := by simp [unitIds]
    have hc : changeCount (ChangeUnit.mk (some k) "change" [d] :: groupGo (k + 1) rest) =
        changeCount (groupGo (k + 1) rest) + 1 := by simp [changeCount]
    rw [hu, hc, ih hrest]
    rfl
  | case7 k d rest hne0 hne1 hne2 =>
    intro h
    rcases h d (List.mem_cons_self d rest) with h0 | h0 | h0
    · exact absurd h0 hne1
    · exact absurd h0 hne0
    · exact absurd h0 hne2

/-- C3: for every list of diff parts, the non-null ids assigned by
`groupDiffsIntoChanges`, read in document order, are exactly the
sequence `0, 1, …, n−1` where `n` is the number of change units. -/
theorem groupDiffs_ids_dense (ds : List DiffPart)
    (h : ∀ p ∈ ds, p.type = -1 ∨ p.type = 0 ∨ p.type = 1) :
    unitIds (groupDiffsIntoChanges ds) =
      List.range (changeCount (groupDiffsIntoChanges ds)) := by
  rw [groupDiffsIntoChanges, groupGo_ids 0 ds h, List.range_eq_range']

/-- Closed instance of the id-density theorem at a five-part diff
(replacement, deletion, equality, insertion): ids come out 0, 1, 2. -/
theorem groupDiffs_ids_dense_witness :
    unitIds (groupDiffsIntoChanges
        [DiffPart.mk (-1) ['a'], DiffPart.mk 1 ['b'], DiffPart.mk (-1) ['c'],
         DiffPart.mk 0 ['d'], DiffPart.mk 1 ['e']]) =
      List.range (changeCount (groupDiffsIntoChanges
        [DiffPart.mk (-1) ['a'], DiffPart.mk 1 ['b'], DiffPart.mk (-1) ['c'],
         DiffPart.mk 0 ['d'], DiffPart.mk 1 ['e']])) :=
  groupDiffs_ids_dense _ (by decide)

theorem idxOf_get? : ∀ (t : Token) (wl : List Token), t ∈ wl →
    wl.get? (idxOf t wl) = some t := by
  intro t wl
  induction wl with
  | nil => intro h; simp at h
  | cons u us ih =>
    intro h
    by_cases hu : u = t
    · simp [idxOf, hu]
    · have ht : t ∈ us := by
        rcases List.mem_cons.mp h with h0 | h0
        · exact absurd h0.symm hu
        · exact h0
      have h2 := ih ht
      rw [List.get?_eq_getElem?] at h2
      simp [idxOf, hu, h2]

theorem mem_buildMap_left (t : Token) (wl : List Token) (ts : List Token)
    (h : t ∈ wl) : t ∈ buildMap wl ts := by
  induction ts generalizing wl with
  | nil => exact h
  | cons s ts ih =>
    simp only [buildMap, List.foldl_cons]
    refine ih (addToken wl s) ?_
    simp only [addToken]
    split
    · exact h
    · exact List.mem_append_left _ h

theorem mem_buildMap_right (t : Token) (wl : List Token) (ts : List Token)
    (h : t ∈ ts) : t ∈ buildMap wl ts := by
  induction ts generalizing wl with
  | nil => simp at h
  | cons s ts ih =>
    simp only [buildMap, List.foldl_cons]
    rcases List.mem_cons.mp h with h0 | h0
    · subst h0
      refine mem_buildMap_left t (addToken wl t) ts ?_
      simp only [addToken]
      split
      next hmem => exact hmem
      next => exact List.mem_append_right _ (List.mem_singleton.mpr rfl)
    · exact ih _ h0

theorem idxOf_le_length (t : Token) : ∀ wl : List Token, idxOf t wl ≤ wl.length := by
  intro wl
  induction wl with
  | nil => simp [idxOf]
  | cons u us ih =>
    by_cases hu : u = t
    · simp [idxOf, hu]
    · simp only [idxOf, if_neg hu, List.length_cons]
      omega

theorem idxOf_lt_length (t : Token) (wl : List Token) (h : t ∈ wl) :
    idxOf t wl < wl.length := by
  induction wl with
  | nil => simp at h
  | cons u us ih =>
    by_cases hu : u = t
    · simp [idxOf, hu]
    · have ht : t ∈ us := by
        rcases List.mem_cons.mp h with h0 | h0
        · exact absurd h0.symm hu
        · exact h0
      simp only [idxOf, if_neg hu, List.length_cons]
      exact Nat.succ_lt_succ (ih ht)

theorem getWordChar_eq (wl : List Token) (t : Token)
    (h : 0x100 + idxOf t wl < 65536) :
    getWordChar wl t = 0x100 + idxOf t wl := by
  rw [getWordChar]
  exact Nat.mod_eq_of_lt h

/-- C2 (amended): while the shared map holds at most `2^16` distinct
tokens — so that `String.fromCharCode`'s 16-bit truncation cannot make
two allocations collide — distinct token strings receive distinct code
units, every token of either side is in the map, and — the map being
shared between sides — equal token text maps to the same code
regardless of side.  Equal-text-same-code and membership hold with no
bound; the distinctness bound is tight, as the counterexample shows. -/
theorem getWordChar_spec (a b : List Char)
    (hlen : (wordListFor a b).length ≤ 65536) :
    (∀ t1 ∈ wordListFor a b, ∀ t2 ∈ wordListFor a b, t1 ≠ t2 →
      getWordChar (wordListFor a b) t1 ≠ getWordChar (wordListFor a b) t2) ∧
    (∀ t, t ∈ tokenize a ∨ t ∈ tokenize b → t ∈ wordListFor a b) := by
  constructor
  · intro t1 h1 t2 h2 hne hcontra
    have e1 := idxOf_get? t1 _ h1
    have e2 := idxOf_get? t2 _ h2
    have hi1 := idxOf_lt_length t1 _ h1
    have hi2 := idxOf_lt_length t2 _ h2
    have hidx : idxOf t1 (wordListFor a b) = idxOf t2 (wordListFor a b) := by
      have hmod : (0x100 + idxOf t1 (wordListFor a b)) % 65536 =
          (0x100 + idxOf t2 (wordListFor a b)) % 65536 := by
        simpa [getWordChar] using hcontra
      omega
    rw [hidx, e2] at e1
    exact hne (Option.some.inj e1).symm
  · intro t ht
    rcases ht with ht | ht
    · exact mem_buildMap_left t _ _ (mem_buildMap_right t [] (tokenize a) ht)
    · exact mem_buildMap_right t _ _ ht

/-- Closed instance of the word-map theorem: with original `x y` and
proposed `y z`, the map is small, and the distinct tokens `x` and `z`
are both in the map and receive different codes. -/
theorem getWordChar_witness :
    getWordChar (wordListFor "x y".toList "y z".toList) "x".toList ≠
      getWordChar (wordListFor "x y".toList "y z".toList) "z".toList :=
  (getWordChar_spec "x y".toList "y z".toList (by decide)).1 "x".toList (by decide)
    "z".toList (by decide) (by decide)

theorem consOp_projDel (op : Int) (c : Nat) (segs : List CSeg) :
    projDel (consOp op c segs) = (if op = 1 then [] else [c]) ++ projDel segs := by
  cases segs with
  | nil => simp [consOp, projDel]
  | cons s rest =>
    obtain ⟨op2, s2⟩ := s
    by_cases h : op2 = op
    · subst h
      by_cases h1 : op2 = 1 <;> simp [consOp, projDel, h1]
    · by_cases h1 : op = 1
      · subst h1
        simp [consOp, projDel, h]
      · simp [consOp, projDel, h, h1]

theorem consOp_projIns (op : Int) (c : Nat) (segs : List CSeg) :
    projIns (consOp op c segs) = (if op = -1 then [] else [c]) ++ projIns segs := by
  cases segs with
  | nil => simp [consOp, projIns]
  | cons s rest =>
    obtain ⟨op2, s2⟩ := s
    by_cases h : op2 = op
    · subst h
      by_cases h1 : op2 = -1 <;> simp [consOp, projIns, h1]
    · by_cases h1 : op = -1
      · subst h1
        simp [consOp, projIns, h]
      · simp [consOp, projIns, h, h1]

theorem projDel_nil : projDel [] = [] := rfl

theorem projIns_nil : projIns [] = [] := rfl

theorem projDel_cons (s : CSeg) (rest : List CSeg) :
    projDel (s :: rest) = (if s.1 = 1 then [] else s.2) ++ projDel rest := rfl

theorem projIns_cons (s : CSeg) (rest : List CSeg) :
    projIns (s :: rest) = (if s.1 = -1 then [] else s.2) ++ projIns rest := rfl

theorem diffMainF_proj : ∀ (fuel : Nat) (xs ys : List Nat),
    projDel (diffMainF fuel xs ys) = xs ∧ projIns (diffMainF fuel xs ys) = ys := by
  intro fuel
  induction fuel with
  | zero =>
    intro xs ys
    cases xs <;> cases ys <;> simp [diffMainF, projDel, projIns]
  | succ fuel ih =>
    intro xs ys
    cases xs with
    | nil => cases ys <;> simp [diffMainF, projDel, projIns]
    | cons x xs =>
      cases ys with
      | nil => simp [diffMainF, projDel, projIns]
      | cons y ys =>
        simp only [diffMainF]
        split
        next heq =>
          subst heq
          rw [consOp_projDel, consOp_projIns, (ih xs ys).1, (ih xs ys).2]
          simp
        next hne =>
          split
          · rw [consOp_projDel, consOp_projIns, (ih xs (y :: ys)).1, (ih xs (y :: ys)).2]
            simp
          · rw [consOp_projDel, consOp_projIns, (ih (x :: xs) ys).1, (ih (x :: xs) ys).2]
            simp

theorem dissolve_cons_eq (i d : Nat) (t : List Nat) (rest : List CSeg) :
    dissolve i d ((0, t) :: rest) =
      if t ≠ [] ∧ t.length ≤ max i d ∧
          t.length ≤ max (editLens rest).1 (editLens rest).2 then
        (-1, t) :: (1, t) :: dissolve t.length t.length rest
      else (0, t) :: dissolve 0 0 rest := by
  simp [dissolve]

theorem dissolve_cons_ins (i d : Nat) (t : List Nat) (rest : List CSeg) :
    dissolve i d ((1, t) :: rest) = (1, t) :: dissolve (i + t.length) d rest := by
  simp [dissolve]

theorem dissolve_cons_other (op : Int) (h0 : ¬op = 0) (h1 : ¬op = 1)
    (i d : Nat) (t : List Nat) (rest : List CSeg) :
    dissolve i d ((op, t) :: rest) = (op, t) :: dissolve i (d + t.length) rest := by
  simp [dissolve, h0, h1]

theorem dissolve_proj : ∀ (segs : List CSeg) (i d : Nat),
    projDel (dissolve i d segs) = projDel segs ∧
      projIns (dissolve i d segs) = projIns segs := by
  intro segs
  induction segs with
  | nil => intro i d; simp [dissolve]
  | cons s rest ih =>
    intro i d
    obtain ⟨op, t⟩ := s
    by_cases h0 : op = 0
    · subst h0
      rw [dissolve_cons_eq]
      split
      · constructor
        · simp [projDel_cons, (ih t.length t.length).1]
        · simp [projIns_cons, (ih t.length t.length).2]
      · constructor
        · simp [projDel_cons, (ih 0 0).1]
        · simp [projIns_cons, (ih 0 0).2]
    · by_cases h1 : op = 1
      · subst h1
        rw [dissolve_cons_ins]
        constructor
        · simp [projDel_cons, (ih (i + t.length) d).1]
        · simp [projIns_cons, (ih (i + t.length) d).2]
      · rw [dissolve_cons_other op h0 h1]
        constructor
        · simp [projDel_cons, (ih i (d + t.length)).1]
        · simp [projIns_cons, (ih i (d + t.length)).2]

theorem cleanupMerge_proj : ∀ (segs : List CSeg),
    projDel (cleanupMerge segs) = projDel segs ∧
      projIns (cleanupMerge segs) = projIns segs := by
  intro segs
  induction segs with
  | nil => simp [cleanupMerge]
  | cons s rest ih =>
    obtain ⟨op, t⟩ := s
    by_cases ht : t = []
    · subst ht
      have hstep : cleanupMerge ((op, ([] : List Nat)) :: rest) = cleanupMerge rest := by
        simp [cleanupMerge]
      rw [hstep]
      constructor
      · rw [ih.1, projDel_cons]; simp
      · rw [ih.2, projIns_cons]; simp
    · cases hm : cleanupMerge rest with
      | nil =>
        have hstep : cleanupMerge ((op, t) :: rest) = [(op, t)] := by
          simp [cleanupMerge, ht, hm]
        have hd : projDel rest = [] := by rw [← ih.1, hm]; rfl
        have hi : projIns rest = [] := by rw [← ih.2, hm]; rfl
        rw [hstep]
        constructor
        · simp [projDel_cons, projDel_nil, hd]
        · simp [projIns_cons, projIns_nil, hi]
      | cons m ms =>
        obtain ⟨op2, s2⟩ := m
        have hd : projDel ((op2, s2) :: ms) = projDel rest := by rw [← ih.1, hm]
        have hi : projIns ((op2, s2) :: ms) = projIns rest := by rw [← ih.2, hm]
        by_cases hop : op2 = op
        · have hstep : cleanupMerge ((op, t) :: rest) = (op, t ++ s2) :: ms := by
            simp [cleanupMerge, ht, hm, hop]
          rw [hstep]
          subst hop
          constructor
          · rw [projDel_cons, projDel_cons, ← hd, projDel_cons]
            by_cases h1 : op2 = 1 <;> simp [h1]
          · rw [projIns_cons, projIns_cons, ← hi, projIns_cons]
            by_cases h1 : op2 = -1 <;> simp [h1]
        · have hstep : cleanupMerge ((op, t) :: rest) = (op, t) :: (op2, s2) :: ms := by
            simp [cleanupMerge, ht, hm, hop]
          rw [hstep]
          constructor
          · rw [projDel_cons, projDel_cons, projDel_cons, ← hd, projDel_cons]
          · rw [projIns_cons, projIns_cons, projIns_cons, ← hi, projIns_cons]

theorem tokenize_flatten : ∀ l : List Char, (tokenize l).flatten = l := by
  intro l
  induction l with
  | nil => rfl
  | cons c cs ih =>
    cases htok : tokenize cs with
    | nil =>
      rw [htok] at ih
      simp only [tokenize, htok]
      simpa using ih.symm
    | cons t ts =>
      rw [htok] at ih
      cases t with
      | nil =>
        simp only [tokenize, htok]
        simp only [List.flatten_cons] at ih ⊢
        simpa using ih
      | cons d t2 =>
        simp only [tokenize, htok]
        split
        · simp only [List.flatten_cons] at ih ⊢
          simp [ih]
        · simp only [List.flatten_cons] at ih ⊢
          simp [ih]

theorem tokenize_nonempty : ∀ (l : List Char), ∀ t ∈ tokenize l, t ≠ [] := by
  intro l
  induction l with
  | nil => intro t ht; simp [tokenize] at ht
  | cons c cs ih =>
    intro t ht
    cases htok : tokenize cs with
    | nil =>
      rw [tokenize, htok] at ht
      simp at ht
      simp [ht]
    | cons t0 ts =>
      cases t0 with
      | nil =>
        exact absurd (ih [] (by rw [htok]; exact List.mem_cons_self [] ts)) (by simp)
      | cons d t2 =>
        by_cases hcls : isJsWhitespace c = isJsWhitespace d
        · have hstep : tokenize (c :: cs) = (c :: d :: t2) :: ts := by
            simp [tokenize, htok, hcls]
          rw [hstep] at ht
          rcases List.mem_cons.mp ht with h0 | h0
          · simp [h0]
          · exact ih t (by rw [htok]; exact List.mem_cons_of_mem _ h0)
        · have hstep : tokenize (c :: cs) = [c] :: (d :: t2) :: ts := by
            simp [tokenize, htok, hcls]
          rw [hstep] at ht
          rcases List.mem_cons.mp ht with h0 | h0
          · simp [h0]
          · exact ih t (by rw [htok]; exact h0)

theorem mem_buildMap_sources : ∀ (ts : List Token) (wl : List Token) (t : Token),
    t ∈ buildMap wl ts → t ∈ wl ∨ t ∈ ts := by
  intro ts
  induction ts with
  | nil => intro wl t h; exact Or.inl h
  | cons s ts ih =>
    intro wl t h
    simp only [buildMap, List.foldl_cons] at h
    rcases ih (addToken wl s) t h with h0 | h0
    · simp only [addToken] at h0
      split at h0
      · exact Or.inl h0
      · rcases List.mem_append.mp h0 with h1 | h1
        · exact Or.inl h1
        · exact Or.inr (List.mem_cons.mpr (Or.inl (List.mem_singleton.mp h1)))
    · exact Or.inr (List.mem_cons_of_mem _ h0)

theorem wordList_nonempty (a b : List Char) :
    ∀ t ∈ wordListFor a b, t ≠ [] := by
  intro t ht
  rcases mem_buildMap_sources _ _ _ ht with h0 | h0
  · rcases mem_buildMap_sources _ _ _ h0 with h1 | h1
    · simp at h1
    · exact tokenize_nonempty a t h1
  · exact tokenize_nonempty b t h0

theorem decode_getWordChar (wl : List Token) (t : Token) (h : t ∈ wl)
    (hlen : wl.length ≤ 56064) :
    decodeChar wl (getWordChar wl t) = some t := by
  have hidx := idxOf_lt_length t wl h
  rw [getWordChar_eq wl t (by omega)]
  have h2 := idxOf_get? t wl h
  rw [List.get?_eq_getElem?] at h2
  simpa [decodeChar] using h2

theorem filterMap_decode_codes (wl : List Token) (hlen : wl.length ≤ 56064) :
    ∀ ts : List Token, (∀ t ∈ ts, t ∈ wl) →
      (ts.map (getWordChar wl)).filterMap (decodeChar wl) = ts := by
  intro ts
  induction ts with
  | nil => intro _; rfl
  | cons t ts ih =>
    intro h
    simp only [List.map_cons, List.filterMap_cons,
      decode_getWordChar wl t (h t (List.mem_cons_self t ts)) hlen]
    rw [ih fun u hu => h u (List.mem_cons_of_mem t hu)]

theorem range_foldl_none {α : Type} (P : Nat → Prop) [DecidablePred P]
    (g : Nat → Option α) :
    ∀ n : Nat, (∀ i, i < n → ¬P i) →
      (List.range n).foldl (fun acc i => if P i then g i else acc) none = none := by
  intro n
  induction n with
  | zero => intro _; rfl
  | succ m ih =>
    intro h
    rw [List.range_succ, List.foldl_append]
    simp only [List.foldl_cons, List.foldl_nil]
    rw [if_neg (h m (Nat.lt_succ_self m)), ih (fun i hi => h i (Nat.lt_succ_of_lt hi))]

theorem range_foldl_last {α : Type} (P : Nat → Prop) [DecidablePred P]
    (g : Nat → Option α) :
    ∀ n k, k < n → P k → (∀ i, i < n → P i → i = k) →
      (List.range n).foldl (fun acc i => if P i then g i else acc) none = g k := by
  intro n
  induction n with
  | zero => intro k hk _ _; omega
  | succ m ih =>
    intro k hk hPk huniq
    rw [List.range_succ, List.foldl_append]
    simp only [List.foldl_cons, List.foldl_nil]
    by_cases hm : P m
    · have he : m = k := huniq m (Nat.lt_succ_self m) hm
      subst he
      rw [if_pos hm]
    · rw [if_neg hm]
      have hkm : k < m := by
        rcases Nat.lt_succ_iff_lt_or_eq.mp hk with h | h
        · exact h
        · subst h; exact absurd hPk hm
      exact ih k hkm hPk (fun i hi hPi => huniq i (Nat.lt_succ_of_lt hi) hPi)

theorem range_foldl_some {α : Type} (P : Nat → Prop) [DecidablePred P]
    (g : Nat → Option α) :
    ∀ (n : Nat) (r : α),
      (List.range n).foldl (fun acc i => if P i then g i else acc) none = some r →
      ∃ i, i < n ∧ g i = some r := by
  intro n
  induction n with
  | zero => intro r h; simp [List.range_zero] at h
  | succ m ih =>
    intro r h
    rw [List.range_succ, List.foldl_append] at h
    simp only [List.foldl_cons, List.foldl_nil] at h
    by_cases hm : P m
    · rw [if_pos hm] at h
      exact ⟨m, Nat.lt_succ_self m, h⟩
    · rw [if_neg hm] at h
      obtain ⟨i, hi, hg⟩ := ih r h
      exact ⟨i, Nat.lt_succ_of_lt hi, hg⟩

theorem revLookup_mem (wl : List Token) (code : Nat) (w : Token)
    (h : revLookup wl code = some w) : w ∈ wl := by
  rw [revLookup] at h
  obtain ⟨i, _, hg⟩ := range_foldl_some (fun i => (0x100 + i) % 65536 = code)
    (fun i => wl.get? i) wl.length w h
  exact List.get?_mem hg

theorem revLookup_getWordChar (wl : List Token) (t : Token) (h : t ∈ wl)
    (hlen : wl.length ≤ 56064) :
    revLookup wl (getWordChar wl t) = some t := by
  have hidx := idxOf_lt_length t wl h
  rw [getWordChar_eq wl t (by omega), revLookup]
  have hres := range_foldl_last (fun i => (0x100 + i) % 65536 = 0x100 + idxOf t wl)
    (fun i => wl.get? i) wl.length (idxOf t wl) hidx
    (Nat.mod_eq_of_lt (by omega))
    (fun i hi hPi => by
      have hmod : (0x100 + i) % 65536 = 0x100 + i := Nat.mod_eq_of_lt (by omega)
      omega)
  rw [hres]
  have h2 := idxOf_get? t wl h
  rw [List.get?_eq_getElem?] at h2
  simpa using h2

theorem revLookup_eq_decodeChar (wl : List Token) (code : Nat)
    (hlen : wl.length ≤ 56064) (hc : 0x100 ≤ code) :
    revLookup wl code = decodeChar wl code := by
  by_cases hlt : code - 0x100 < wl.length
  · rw [revLookup, decodeChar]
    exact range_foldl_last (fun i => (0x100 + i) % 65536 = code)
      (fun i => wl.get? i) wl.length (code - 0x100) hlt
      (by
        show (0x100 + (code - 0x100)) % 65536 = code
        omega)
      (fun i hi hPi => by
        have hmod : (0x100 + i) % 65536 = 0x100 + i := Nat.mod_eq_of_lt (by omega)
        omega)
  · rw [revLookup, decodeChar]
    rw [range_foldl_none (fun i => (0x100 + i) % 65536 = code)
      (fun i => wl.get? i) wl.length
      (fun i hi hPi => by
        have hmod : (0x100 + i) % 65536 = 0x100 + i := Nat.mod_eq_of_lt (by omega)
        omega)]
    exact (List.get?_eq_none.mpr (by omega)).symm

theorem pointsOf_of_no_high : ∀ l : List Nat,
    (∀ c ∈ l, isHighSurrogate c = false) → pointsOf l = l := by
  intro l
  induction l using pointsOf.induct with
  | case1 => intro _; rfl
  | case2 c => intro _; rfl
  | case3 c c2 rest hcond ih =>
    intro h
    exfalso
    have h1 := h c (List.mem_cons_self _ _)
    rw [Bool.and_eq_true] at hcond
    rw [h1] at hcond
    exact absurd hcond.1 (by simp)
  | case4 c c2 rest hcond ih =>
    intro h
    have hstep : pointsOf (c :: c2 :: rest) = c :: pointsOf (c2 :: rest) := by
      rw [pointsOf]
      rw [if_neg (by simpa using hcond)]
    rw [hstep, ih (fun x hx => h x (List.mem_cons_of_mem c hx))]

theorem pointsOf_no_low : ∀ l : List Nat,
    (∀ c ∈ l, isLowSurrogate c = false) → pointsOf l = l := by
  intro l
  induction l using pointsOf.induct with
  | case1 => intro _; rfl
  | case2 c => intro _; rfl
  | case3 c c2 rest hcond ih =>
    intro h
    exfalso
    have h2 := h c2 (List.mem_cons_of_mem c (List.mem_cons_self _ _))
    rw [Bool.and_eq_true] at hcond
    rw [h2] at hcond
    exact absurd hcond.2 (by simp)
  | case4 c c2 rest hcond ih =>
    intro h
    have hstep : pointsOf (c :: c2 :: rest) = c :: pointsOf (c2 :: rest) := by
      rw [pointsOf]
      rw [if_neg (by simpa using hcond)]
    rw [hstep, ih (fun x hx => h x (List.mem_cons_of_mem c hx))]

theorem expandSegs_cons (wl : List Token) (seg : CSeg) (rest : List CSeg) :
    expandSegs wl (seg :: rest) =
      ((pointsOf seg.2).filterMap fun code =>
        (revLookup wl code).map fun w => DiffPart.mk seg.1 w) ++ expandSegs wl rest := by
  simp [expandSegs]

theorem expandSegsIx_cons (wl : List Token) (seg : CSeg) (rest : List CSeg) :
    expandSegsIx wl (seg :: rest) =
      (seg.2.filterMap fun code =>
        (decodeChar wl code).map fun w => DiffPart.mk seg.1 w) ++ expandSegsIx wl rest := by
  simp [expandSegsIx]

theorem expandSegs_eq_ix (wl : List Token) (hlen : wl.length ≤ 56064) :
    ∀ segs : List CSeg,
      (∀ seg ∈ segs, ∀ c ∈ seg.2, 0x100 ≤ c ∧ c < 0xDC00) →
      expandSegs wl segs = expandSegsIx wl segs := by
  intro segs
  induction segs with
  | nil => intro _; rfl
  | cons seg rest ih =>
    intro hcodes
    have hseg := hcodes seg (List.mem_cons_self seg rest)
    have hrest := fun sg hg => hcodes sg (List.mem_cons_of_mem seg hg)
    rw [expandSegs_cons, expandSegsIx_cons, ih hrest]
    have hpts : pointsOf seg.2 = seg.2 :=
      pointsOf_no_low _ (fun c hc => by
        have := hseg c hc
        simp only [isLowSurrogate]
        simp only [Bool.and_eq_false_iff]
        left
        simp only [decide_eq_false_iff_not]
        omega)
    rw [hpts]
    congr 1
    refine List.filterMap_congr ?_
    intro c hc
    rw [revLookup_eq_decodeChar wl c hlen (hseg c hc).1]

theorem consOp_codes (P : Nat → Prop) (op : Int) (c : Nat) (segs : List CSeg)
    (hc : P c) (h : ∀ seg ∈ segs, ∀ x ∈ seg.2, P x) :
    ∀ seg ∈ consOp op c segs, ∀ x ∈ seg.2, P x := by
  cases segs with
  | nil =>
    intro seg hseg x hx
    simp only [consOp] at hseg
    rcases List.mem_singleton.mp hseg with rfl
    rcases List.mem_singleton.mp hx with rfl
    exact hc
  | cons s rest =>
    obtain ⟨op2, s2⟩ := s
    intro seg hseg x hx
    simp only [consOp] at hseg
    by_cases hop : op2 = op
    · rw [if_pos hop] at hseg
      rcases List.mem_cons.mp hseg with rfl | hmem
      · rcases List.mem_cons.mp hx with rfl | hx2
        · exact hc
        · exact h (op2, s2) (List.mem_cons_self _ _) x hx2
      · exact h seg (List.mem_cons_of_mem _ hmem) x hx
    · rw [if_neg hop] at hseg
      rcases List.mem_cons.mp hseg with rfl | hmem
      · rcases List.mem_singleton.mp hx with rfl
        exact hc
      · exact h seg hmem x hx

theorem diffMainF_codes (P : Nat → Prop) : ∀ (fuel : Nat) (xs ys : List Nat),
    (∀ c ∈ xs, P c) → (∀ c ∈ ys, P c) →
    ∀ seg ∈ diffMainF fuel xs ys, ∀ x ∈ seg.2, P x := by
  intro fuel
  induction fuel with
  | zero =>
    intro xs ys hx hy seg hseg x hxx
    cases xs with
    | nil =>
      cases ys with
      | nil => simp [diffMainF] at hseg
      | cons y ys0 =>
        simp only [diffMainF] at hseg
        rcases List.mem_singleton.mp hseg with rfl
        exact hy x hxx
    | cons x0 xs0 =>
      cases ys with
      | nil =>
        simp only [diffMainF] at hseg
        rcases List.mem_singleton.mp hseg with rfl
        exact hx x hxx
      | cons y ys0 =>
        simp only [diffMainF] at hseg
        rcases List.mem_cons.mp hseg with rfl | hseg2
        · exact hx x hxx
        · rcases List.mem_singleton.mp hseg2 with rfl
          exact hy x hxx
  | succ f ih =>
    intro xs ys hx hy
    cases xs with
    | nil =>
      cases ys with
      | nil => intro seg hseg; simp [diffMainF] at hseg
      | cons y ys0 =>
        intro seg hseg x hxx
        simp only [diffMainF] at hseg
        rcases List.mem_singleton.mp hseg with rfl
        exact hy x hxx
    | cons x0 xs0 =>
      cases ys with
      | nil =>
        intro seg hseg x hxx
        simp only [diffMainF] at hseg
        rcases List.mem_singleton.mp hseg with rfl
        exact hx x hxx
      | cons y0 ys0 =>
        simp only [diffMainF]
        have hx0 := hx x0 (List.mem_cons_self _ _)
        have hy0 := hy y0 (List.mem_cons_self _ _)
        have hxt := fun c hc => hx c (List.mem_cons_of_mem x0 hc)
        have hyt := fun c hc => hy c (List.mem_cons_of_mem y0 hc)
        split
        next heq =>
          exact consOp_codes P 0 x0 _ hx0 (ih xs0 ys0 hxt hyt)
        next hne =>
          split
          next =>
            exact consOp_codes P (-1) x0 _ hx0 (ih xs0 (y0 :: ys0) hxt hy)
          next =>
            exact consOp_codes P 1 y0 _ hy0 (ih (x0 :: xs0) ys0 hx hyt)

theorem dissolve_codes (P : Nat → Prop) : ∀ (segs : List CSeg) (i d : Nat),
    (∀ seg ∈ segs, ∀ x ∈ seg.2, P x) →
    ∀ seg ∈ dissolve i d segs, ∀ x ∈ seg.2, P x := by
  intro segs
  induction segs with
  | nil => intro i d _ seg hseg; simp [dissolve] at hseg
  | cons s rest ih =>
    intro i d h seg hseg
    obtain ⟨op, st⟩ := s
    have hs := h (op, st) (List.mem_cons_self _ _)
    have hrest := fun sg hg => h sg (List.mem_cons_of_mem _ hg)
    simp only [dissolve] at hseg
    by_cases h0 : op = 0
    · rw [if_pos h0] at hseg
      split at hseg
      · rcases List.mem_cons.mp hseg with rfl | hseg2
        · exact hs
        · rcases List.mem_cons.mp hseg2 with rfl | hseg3
          · exact hs
          · exact ih _ _ hrest seg hseg3
      · rcases List.mem_cons.mp hseg with rfl | hseg2
        · exact hs
        · exact ih _ _ hrest seg hseg2
    · rw [if_neg h0] at hseg
      by_cases h1 : op = 1
      · rw [if_pos h1] at hseg
        rcases List.mem_cons.mp hseg with rfl | hseg2
        · exact hs
        · exact ih _ _ hrest seg hseg2
      · rw [if_neg h1] at hseg
        rcases List.mem_cons.mp hseg with rfl | hseg2
        · exact hs
        · exact ih _ _ hrest seg hseg2

theorem cleanupMerge_codes (P : Nat → Prop) : ∀ segs : List CSeg,
    (∀ seg ∈ segs, ∀ x ∈ seg.2, P x) →
    ∀ seg ∈ cleanupMerge segs, ∀ x ∈ seg.2, P x := by
  intro segs
  induction segs with
  | nil => intro _ seg hseg; simp [cleanupMerge] at hseg
  | cons s rest ih =>
    intro h seg hseg
    obtain ⟨op, st⟩ := s
    have hs := h (op, st) (List.mem_cons_self _ _)
    have hrest := fun sg hg => h sg (List.mem_cons_of_mem _ hg)
    have ihr := ih hrest
    by_cases hst : st = []
    · have hstep : cleanupMerge ((op, st) :: rest) = cleanupMerge rest := by
        simp [cleanupMerge, hst]
      rw [hstep] at hseg
      exact ihr seg hseg
    · cases hm : cleanupMerge rest with
      | nil =>
        have hstep : cleanupMerge ((op, st) :: rest) = [(op, st)] := by
          simp [cleanupMerge, hst, hm]
        rw [hstep] at hseg
        rcases List.mem_singleton.mp hseg with rfl
        exact hs
      | cons q qs =>
        obtain ⟨op2, s2⟩ := q
        by_cases hop : op2 = op
        · have hstep : cleanupMerge ((op, st) :: rest) = (op, st ++ s2) :: qs := by
            simp [cleanupMerge, hst, hm, hop]
          rw [hstep] at hseg
          rcases List.mem_cons.mp hseg with rfl | hmem
          · intro x hx
            rcases List.mem_append.mp hx with h1 | h1
            · exact hs x h1
            · exact ihr (op2, s2) (by rw [hm]; exact List.mem_cons_self _ _) x h1
          · exact fun x hx =>
              ihr seg (by rw [hm]; exact List.mem_cons_of_mem _ hmem) x hx
        · have hstep : cleanupMerge ((op, st) :: rest) =
              (op, st) :: (op2, s2) :: qs := by
            simp [cleanupMerge, hst, hm, hop]
          rw [hstep] at hseg
          rcases List.mem_cons.mp hseg with rfl | hmem
          · exact hs
          · exact fun x hx => ihr seg (by rw [hm]; exact hmem) x hx

theorem cleanupSemantic_codes (P : Nat → Prop) (xs ys : List Nat)
    (hx : ∀ c ∈ xs, P c) (hy : ∀ c ∈ ys, P c) :
    ∀ seg ∈ cleanupSemantic (diffMain xs ys), ∀ x ∈ seg.2, P x := by
  rw [cleanupSemantic]
  exact cleanupMerge_codes P _
    (dissolve_codes P _ 0 0 (diffMainF_codes P _ xs ys hx hy))

theorem map_getWordChar_bounds (wl : List Token) (hlen : wl.length ≤ 56064)
    (ts : List Token) (hmem : ∀ t ∈ ts, t ∈ wl) :
    ∀ c ∈ ts.map (getWordChar wl), 0x100 ≤ c ∧ c < 0xDC00 := by
  intro c hc
  obtain ⟨t, ht, rfl⟩ := List.mem_map.mp hc
  have hidx := idxOf_lt_length t wl (hmem t ht)
  rw [getWordChar_eq wl t (by omega)]
  omega

theorem delEqText_cons (p : DiffPart) (ps : List DiffPart) :
    delEqText (p :: ps) = (if p.type = 1 then [] else p.text) ++ delEqText ps := rfl

theorem insEqText_cons (p : DiffPart) (ps : List DiffPart) :
    insEqText (p :: ps) = (if p.type = -1 then [] else p.text) ++ insEqText ps := rfl

theorem delEqText_append (l1 l2 : List DiffPart) :
    delEqText (l1 ++ l2) = delEqText l1 ++ delEqText l2 := by
  simp [delEqText]

theorem insEqText_append (l1 l2 : List DiffPart) :
    insEqText (l1 ++ l2) = insEqText l1 ++ insEqText l2 := by
  simp [insEqText]

theorem delEqText_expand_one (wl : List Token) (op : Int) :
    ∀ s : List Nat,
      delEqText (s.filterMap fun code => (decodeChar wl code).map (DiffPart.mk op)) =
        if op = 1 then [] else (s.filterMap (decodeChar wl)).flatten := by
  intro s
  induction s with
  | nil => by_cases h1 : op = 1 <;> simp [delEqText, h1]
  | cons code s ih =>
    simp only [List.filterMap_cons]
    cases hdec : decodeChar wl code with
    | none => simpa [hdec] using ih
    | some w =>
      simp only [hdec, Option.map_some']
      rw [delEqText_cons, ih]
      by_cases h1 : op = 1 <;> simp [h1]

theorem insEqText_expand_one (wl : List Token) (op : Int) :
    ∀ s : List Nat,
      insEqText (s.filterMap fun code => (decodeChar wl code).map (DiffPart.mk op)) =
        if op = -1 then [] else (s.filterMap (decodeChar wl)).flatten := by
  intro s
  induction s with
  | nil => by_cases h1 : op = -1 <;> simp [insEqText, h1]
  | cons code s ih =>
    simp only [List.filterMap_cons]
    cases hdec : decodeChar wl code with
    | none => simpa [hdec] using ih
    | some w =>
      simp only [hdec, Option.map_some']
      rw [insEqText_cons, ih]
      by_cases h1 : op = -1 <;> simp [h1]

theorem expandSegs_delEq (wl : List Token) : ∀ segs : List CSeg,
    delEqText (expandSegsIx wl segs) =
      ((projDel segs).filterMap (decodeChar wl)).flatten := by
  intro segs
  induction segs with
  | nil => rfl
  | cons seg rest ih =>
    obtain ⟨op, s⟩ := seg
    simp only [expandSegsIx, List.flatMap_cons] at ih ⊢
    rw [delEqText_append]
    have h1 := delEqText_expand_one wl op s
    rw [h1, projDel_cons]
    by_cases hop : op = 1
    · simp only [hop, if_pos rfl]
      simpa using ih
    · simp only [if_neg hop]
      rw [List.filterMap_append, List.flatten_append, ih]

theorem expandSegs_insEq (wl : List Token) : ∀ segs : List CSeg,
    insEqText (expandSegsIx wl segs) =
      ((projIns segs).filterMap (decodeChar wl)).flatten := by
  intro segs
  induction segs with
  | nil => rfl
  | cons seg rest ih =>
    obtain ⟨op, s⟩ := seg
    simp only [expandSegsIx, List.flatMap_cons] at ih ⊢
    rw [insEqText_append]
    have h1 := insEqText_expand_one wl op s
    rw [h1, projIns_cons]
    by_cases hop : op = -1
    · simp only [hop, if_pos rfl]
      simpa using ih
    · simp only [if_neg hop]
      rw [List.filterMap_append, List.flatten_append, ih]

theorem mergeAdjacent_delEq : ∀ ps : List DiffPart,
    delEqText (mergeAdjacent ps) = delEqText ps := by
  intro ps
  induction ps with
  | nil => rfl
  | cons p rest ih =>
    cases hm : mergeAdjacent rest with
    | nil =>
      have hrest : delEqText rest = [] := by rw [← ih, hm]; rfl
      simp only [mergeAdjacent, hm]
      rw [delEqText_cons, delEqText_cons, hrest]
      rfl
    | cons q qs =>
      have hrest : delEqText (q :: qs) = delEqText rest := by rw [← ih, hm]
      simp only [mergeAdjacent, hm]
      split
      next heq =>
        rw [delEqText_cons, delEqText_cons, ← hrest, delEqText_cons, heq]
        by_cases h1 : q.type = 1 <;> simp [h1]
      next hne =>
        rw [delEqText_cons, delEqText_cons, delEqText_cons, ← hrest, delEqText_cons]

theorem mergeAdjacent_insEq : ∀ ps : List DiffPart,
    insEqText (mergeAdjacent ps) = insEqText ps := by
  intro ps
  induction ps with
  | nil => rfl
  | cons p rest ih =>
    cases hm : mergeAdjacent rest with
    | nil =>
      have hrest : insEqText rest = [] := by rw [← ih, hm]; rfl
      simp only [mergeAdjacent, hm]
      rw [insEqText_cons, insEqText_cons, hrest]
      rfl
    | cons q qs =>
      have hrest : insEqText (q :: qs) = insEqText rest := by rw [← ih, hm]
      simp only [mergeAdjacent, hm]
      split
      next heq =>
        rw [insEqText_cons, insEqText_cons, ← hrest, insEqText_cons, heq]
        by_cases h1 : q.type = -1 <;> simp [h1]
      next hne =>
        rw [insEqText_cons, insEqText_cons, insEqText_cons, ← hrest, insEqText_cons]

/-- C1 (amended): reconstruction — whenever the combined word map stays
within the bounded regime (at most 56064 distinct tokens, so every
assigned code unit is below the low-surrogate range `0xDC00` and the
code-point iteration of the encoded string coalesces nothing),
concatenating the Delete and Equal part texts of `computeWordDiff a b`,
in order, yields `a`, and concatenating the Insert and Equal part
texts yields `b`.  With more tokens the claim fails: the map hands out
an adjacent high/low surrogate pair of code units, the `for...of`
iteration coalesces them into one unmapped code point, and tokens are
dropped from the reconstruction
(see `computeWordDiff_reconstruction_counterexample`). -/
theorem computeWordDiff_reconstruction (a b : List Char)
    (hlen : (wordListFor a b).length ≤ 56064) :
    delEqText (computeWordDiff a b) = a ∧ insEqText (computeWordDiff a b) = b := by
  have hwl : ∀ t ∈ tokenize a, t ∈ wordListFor a b := fun t ht =>
    mem_buildMap_left t _ _ (mem_buildMap_right t [] (tokenize a) ht)
  have hwl2 : ∀ t ∈ tokenize b, t ∈ wordListFor a b := fun t ht =>
    mem_buildMap_right t _ _ ht
  simp only [computeWordDiff]
  have hfold : buildMap (buildMap [] (tokenize a)) (tokenize b) = wordListFor a b := rfl
  rw [hfold]
  have hcods := cleanupSemantic_codes (fun c => 0x100 ≤ c ∧ c < 0xDC00)
    (List.map (getWordChar (wordListFor a b)) (tokenize a))
    (List.map (getWordChar (wordListFor a b)) (tokenize b))
    (map_getWordChar_bounds _ hlen _ hwl)
    (map_getWordChar_bounds _ hlen _ hwl2)
  rw [expandSegs_eq_ix (wordListFor a b) hlen _ hcods]
  constructor
  · rw [mergeAdjacent_delEq, expandSegs_delEq]
    show (List.filterMap _ (projDel (cleanupSemantic _))).flatten = a
    rw [cleanupSemantic, (cleanupMerge_proj _).1, (dissolve_proj _ _ _).1,
      diffMain, (diffMainF_proj _ _ _).1]
    rw [filterMap_decode_codes (wordListFor a b) hlen (tokenize a) hwl]
    exact tokenize_flatten a
  · rw [mergeAdjacent_insEq, expandSegs_insEq]
    show (List.filterMap _ (projIns (cleanupSemantic _))).flatten = b
    rw [cleanupSemantic, (cleanupMerge_proj _).2, (dissolve_proj _ _ _).2,
      diffMain, (diffMainF_proj _ _ _).2]
    rw [filterMap_decode_codes (wordListFor a b) hlen (tokenize b) hwl2]
    exact tokenize_flatten b

/-- Closed instance of the reconstruction theorem: for `x y` against
`y z` the word map is small and both reconstructions hold. -/
theorem computeWordDiff_reconstruction_witness :
    (wordListFor "x y".toList "y z".toList).length ≤ 56064 ∧
    (delEqText (computeWordDiff "x y".toList "y z".toList) = "x y".toList ∧
      insEqText (computeWordDiff "x y".toList "y z".toList) = "y z".toList) :=
  ⟨by decide, computeWordDiff_reconstruction "x y".toList "y z".toList (by decide)⟩

theorem diffMainF_self : ∀ (s : List Nat) (fuel : Nat), s.length ≤ fuel → s ≠ [] →
    diffMainF fuel s s = [(0, s)] := by
  intro s
  induction s with
  | nil => intro fuel _ hne; exact absurd rfl hne
  | cons x xs ih =>
    intro fuel hlen _
    cases fuel with
    | zero => simp at hlen
    | succ f =>
      simp only [diffMainF, if_pos rfl]
      cases xs with
      | nil =>
        have h0 : diffMainF f [] [] = [] := by cases f <;> rfl
        rw [h0]
        rfl
      | cons y ys =>
        rw [ih f (by simpa using Nat.le_of_succ_le_succ hlen) (by simp)]
        simp [consOp]

theorem diffMainF_left_nil : ∀ (fuel : Nat) (s : List Nat), s ≠ [] →
    diffMainF fuel [] s = [(1, s)] := by
  intro fuel s hne
  cases s with
  | nil => exact absurd rfl hne
  | cons y ys => cases fuel <;> rfl

theorem diffMainF_right_nil : ∀ (fuel : Nat) (s : List Nat), s ≠ [] →
    diffMainF fuel s [] = [(-1, s)] := by
  intro fuel s hne
  cases s with
  | nil => exact absurd rfl hne
  | cons y ys => cases fuel <;> rfl

theorem cleanupSemantic_single (op : Int) (s : List Nat) (hs : s ≠ []) :
    cleanupSemantic [(op, s)] = [(op, s)] := by
  have hmerge : cleanupMerge [(op, s)] = [(op, s)] := by
    simp [cleanupMerge, hs]
  by_cases h0 : op = 0
  · subst h0
    rw [cleanupSemantic, dissolve_cons_eq]
    have hcond : ¬(s ≠ [] ∧ s.length ≤ max 0 0 ∧
        s.length ≤ max (editLens ([] : List CSeg)).1 (editLens ([] : List CSeg)).2) := by
      intro hc
      have := hc.2.1
      simp at this
      exact hs this
    rw [if_neg hcond]
    simpa [dissolve] using hmerge
  · by_cases h1 : op = 1
    · subst h1
      rw [cleanupSemantic, dissolve_cons_ins]
      simpa [dissolve] using hmerge
    · rw [cleanupSemantic, dissolve_cons_other op h0 h1]
      simpa [dissolve] using hmerge

theorem filterMap_decode_map (wl : List Token) (op : Int) (hlen : wl.length ≤ 56064) :
    ∀ ts : List Token, (∀ t ∈ ts, t ∈ wl) →
      ((ts.map (getWordChar wl)).filterMap fun code =>
        (decodeChar wl code).map (DiffPart.mk op)) = ts.map (DiffPart.mk op) := by
  intro ts
  induction ts with
  | nil => intro _; rfl
  | cons t ts ih =>
    intro h
    simp only [List.map_cons, List.filterMap_cons,
      decode_getWordChar wl t (h t (List.mem_cons_self t ts)) hlen, Option.map_some']
    rw [ih fun u hu => h u (List.mem_cons_of_mem t hu)]

theorem mergeAdjacent_map_const (op : Int) :
    ∀ ts : List Token, ts ≠ [] →
      mergeAdjacent (ts.map (DiffPart.mk op)) = [DiffPart.mk op ts.flatten] := by
  intro ts
  induction ts with
  | nil => intro h; exact absurd rfl h
  | cons t ts ih =>
    intro _
    cases ts with
    | nil => simp [mergeAdjacent]
    | cons t2 ts2 =>
      have hih := ih (by simp)
      conv_lhs => rw [List.map_cons, mergeAdjacent, hih]
      simp [List.flatten_cons]

theorem tokenize_ne_nil (c : Char) (cs : List Char) : tokenize (c :: cs) ≠ [] := by
  cases htok : tokenize cs with
  | nil => simp [tokenize, htok]
  | cons t ts =>
    cases t with
    | nil => simp [tokenize, htok]
    | cons d t2 =>
      by_cases hcls : isJsWhitespace c = isJsWhitespace d <;> simp [tokenize, htok, hcls]

/-- C7 (amended): within the bounded regime (word maps of at most
56064 tokens, so no code unit reaches the low-surrogate range and the
code-point iteration coalesces nothing), identical inputs produce a
single Equal part spanning the whole text (the empty diff exactly for
empty input), and a one-sided input produces a single Delete or Insert
part covering the other side.  With more tokens the identity-diff
clause fails because an adjacent pair of surrogate code units is
coalesced during expansion
(see `computeWordDiff_edge_counterexample`). -/
theorem computeWordDiff_edge_cases (a b : List Char)
    (ha : (wordListFor a a).length ≤ 56064)
    (hb : (buildMap [] (tokenize b)).length ≤ 56064) :
    (a ≠ [] → computeWordDiff a a = [DiffPart.mk 0 a]) ∧
    (computeWordDiff a a = [] ↔ a = []) ∧
    (b ≠ [] → computeWordDiff b [] = [DiffPart.mk (-1) b] ∧
      computeWordDiff [] b = [DiffPart.mk 1 b]) := by
  have hself : ∀ x : List Char, (wordListFor x x).length ≤ 56064 → x ≠ [] →
      computeWordDiff x x = [DiffPart.mk 0 x] := by
    intro x hx hxne
    obtain ⟨c, cs, rfl⟩ : ∃ c cs, x = c :: cs := by
      cases x with
      | nil => exact absurd rfl hxne
      | cons c cs => exact ⟨c, cs, rfl⟩
    have htok : tokenize (c :: cs) ≠ [] := tokenize_ne_nil c cs
    simp only [computeWordDiff]
    have hfold : buildMap (buildMap [] (tokenize (c :: cs))) (tokenize (c :: cs)) =
        wordListFor (c :: cs) (c :: cs) := rfl
    rw [hfold]
    set wl := wordListFor (c :: cs) (c :: cs) with hwl
    set codes := (tokenize (c :: cs)).map (getWordChar wl) with hcodes
    have hcne : codes ≠ [] := by
      rw [hcodes]
      simpa using htok
    have hdm : diffMain codes codes = [(0, codes)] :=
      diffMainF_self codes _ (by omega) hcne
    rw [hdm, cleanupSemantic_single 0 codes hcne]
    have hmem : ∀ t ∈ tokenize (c :: cs), t ∈ wl := fun t ht =>
      mem_buildMap_right t _ _ ht
    have hcb : ∀ seg ∈ [((0 : Int), codes)], ∀ cd ∈ seg.2, 0x100 ≤ cd ∧ cd < 0xDC00 := by
      intro seg hseg cd hcd
      rcases List.mem_singleton.mp hseg with rfl
      have hcd2 : cd ∈ (tokenize (c :: cs)).map (getWordChar wl) := by
        rw [← hcodes]
        exact hcd
      exact map_getWordChar_bounds wl hx _ hmem cd hcd2
    have hexp : expandSegs wl [(0, codes)] = (tokenize (c :: cs)).map (DiffPart.mk 0) := by
      rw [expandSegs_eq_ix wl hx _ hcb]
      simp only [expandSegsIx, List.flatMap_cons, hcodes]
      rw [filterMap_decode_map wl 0 hx _ hmem]
      simp
    rw [hexp, mergeAdjacent_map_const 0 _ htok, tokenize_flatten]
  refine ⟨hself a ha, ⟨?_, ?_⟩, ?_⟩
  · intro hempty
    by_contra hne
    rw [hself a ha hne] at hempty
    simp at hempty
  · intro ha
    subst ha
    rfl
  · intro hb
    obtain ⟨c, cs, rfl⟩ : ∃ c cs, b = c :: cs := by
      cases b with
      | nil => exact absurd rfl hb
      | cons c cs => exact ⟨c, cs, rfl⟩
    have htok : tokenize (c :: cs) ≠ [] := tokenize_ne_nil c cs
    constructor
    · simp only [computeWordDiff]
      have h0 : tokenize ([] : List Char) = [] := rfl
      rw [h0]
      have hfold : buildMap (buildMap [] (tokenize (c :: cs))) [] =
          buildMap [] (tokenize (c :: cs)) := rfl
      rw [hfold]
      set wl := buildMap [] (tokenize (c :: cs)) with hwl
      set codes := (tokenize (c :: cs)).map (getWordChar wl) with hcodes
      have hcne : codes ≠ [] := by rw [hcodes]; simpa using htok
      have hdm : diffMain codes ([].map (getWordChar wl)) = [(-1, codes)] := by
        simp only [List.map_nil]
        exact diffMainF_right_nil _ codes hcne
      rw [hdm, cleanupSemantic_single (-1) codes hcne]
      have hmem : ∀ t ∈ tokenize (c :: cs), t ∈ wl := fun t ht =>
        mem_buildMap_right t _ _ ht
      have hcb : ∀ seg ∈ [((-1 : Int), codes)], ∀ cd ∈ seg.2, 0x100 ≤ cd ∧ cd < 0xDC00 := by
        intro seg hseg cd hcd
        rcases List.mem_singleton.mp hseg with rfl
        have hcd2 : cd ∈ (tokenize (c :: cs)).map (getWordChar wl) := by
          rw [← hcodes]
          exact hcd
        exact map_getWordChar_bounds wl hb _ hmem cd hcd2
      have hexp : expandSegs wl [(-1, codes)] =
          (tokenize (c :: cs)).map (DiffPart.mk (-1)) := by
        rw [expandSegs_eq_ix wl hb _ hcb]
        simp only [expandSegsIx, List.flatMap_cons, hcodes]
        rw [filterMap_decode_map wl (-1) hb _ hmem]
        simp
      rw [hexp, mergeAdjacent_map_const (-1) _ htok, tokenize_flatten]
    · simp only [computeWordDiff]
      have h0 : tokenize ([] : List Char) = [] := rfl
      rw [h0]
      have hfold : buildMap (buildMap [] []) (tokenize (c :: cs)) =
          buildMap [] (tokenize (c :: cs)) := rfl
      rw [hfold]
      set wl := buildMap [] (tokenize (c :: cs)) with hwl
      set codes := (tokenize (c :: cs)).map (getWordChar wl) with hcodes
      have hcne : codes ≠ [] := by rw [hcodes]; simpa using htok
      have hdm : diffMain ([].map (getWordChar wl)) codes = [(1, codes)] := by
        simp only [List.map_nil]
        exact diffMainF_left_nil _ codes hcne
      rw [hdm, cleanupSemantic_single 1 codes hcne]
      have hmem : ∀ t ∈ tokenize (c :: cs), t ∈ wl := fun t ht =>
        mem_buildMap_right t _ _ ht
      have hcb : ∀ seg ∈ [((1 : Int), codes)], ∀ cd ∈ seg.2, 0x100 ≤ cd ∧ cd < 0xDC00 := by
        intro seg hseg cd hcd
        rcases List.mem_singleton.mp hseg with rfl
        have hcd2 : cd ∈ (tokenize (c :: cs)).map (getWordChar wl) := by
          rw [← hcodes]
          exact hcd
        exact map_getWordChar_bounds wl hb _ hmem cd hcd2
      have hexp : expandSegs wl [(1, codes)] =
          (tokenize (c :: cs)).map (DiffPart.mk 1) := by
        rw [expandSegs_eq_ix wl hb _ hcb]
        simp only [expandSegsIx, List.flatMap_cons, hcodes]
        rw [filterMap_decode_map wl 1 hb _ hmem]
        simp
      rw [hexp, mergeAdjacent_map_const 1 _ htok, tokenize_flatten]

/-- Closed instance of the edge-case theorem: identical inputs `ab`
give one Equal part, and `cd` against the empty string gives the single
Delete and Insert parts; both word maps are small. -/
theorem computeWordDiff_edge_cases_witness :
    (wordListFor "ab".toList "ab".toList).length ≤ 56064 ∧
    (buildMap [] (tokenize "cd".toList)).length ≤ 56064 ∧
    computeWordDiff "ab".toList "ab".toList = [DiffPart.mk 0 "ab".toList] ∧
    (computeWordDiff "cd".toList [] = [DiffPart.mk (-1) "cd".toList] ∧
      computeWordDiff [] "cd".toList = [DiffPart.mk 1 "cd".toList]) :=
  ⟨by decide, by decide,
   (computeWordDiff_edge_cases "ab".toList "cd".toList (by decide) (by decide)).1
     (by decide),
   (computeWordDiff_edge_cases "ab".toList "cd".toList (by decide) (by decide)).2.2
     (by decide)⟩

theorem expandSegs_text_mem (wl : List Token) :
    ∀ (segs : List CSeg) (p : DiffPart), p ∈ expandSegs wl segs → p.text ∈ wl := by
  intro segs p hp
  simp only [expandSegs, List.mem_flatMap] at hp
  obtain ⟨seg, _, hmem⟩ := hp
  rw [List.mem_filterMap] at hmem
  obtain ⟨code, _, hcode⟩ := hmem
  cases hdec : revLookup wl code with
  | none => rw [hdec] at hcode; simp at hcode
  | some w =>
    rw [hdec] at hcode
    simp only [Option.map_some', Option.some.injEq] at hcode
    rw [← hcode]
    exact revLookup_mem wl code w hdec

theorem mergeAdjacent_text_nonempty :
    ∀ ps : List DiffPart, (∀ p ∈ ps, p.text ≠ []) →
      ∀ q ∈ mergeAdjacent ps, q.text ≠ [] := by
  intro ps
  induction ps with
  | nil => intro _ q hq; simp [mergeAdjacent] at hq
  | cons p rest ih =>
    intro h q hq
    have hp : p.text ≠ [] := h p (List.mem_cons_self p rest)
    have hrest : ∀ r ∈ rest, r.text ≠ [] := fun r hr => h r (List.mem_cons_of_mem p hr)
    cases hm : mergeAdjacent rest with
    | nil =>
      rw [mergeAdjacent, hm] at hq
      rcases List.mem_cons.mp hq with h0 | h0
      · rw [h0]; exact hp
      · simp at h0
    | cons q0 qs =>
      by_cases htype : p.type = q0.type
      · have hstep : mergeAdjacent (p :: rest) =
            DiffPart.mk p.type (p.text ++ q0.text) :: qs := by
          rw [mergeAdjacent, hm]
          simp [htype]
        rw [hstep] at hq
        rcases List.mem_cons.mp hq with h0 | h0
        · rw [h0]
          intro hc
          exact hp (List.append_eq_nil.mp hc).1
        · exact ih hrest q (by rw [hm]; exact List.mem_cons_of_mem q0 h0)
      · have hstep : mergeAdjacent (p :: rest) = p :: q0 :: qs := by
          rw [mergeAdjacent, hm]
          simp [htype]
        rw [hstep] at hq
        rcases List.mem_cons.mp hq with h0 | h0
        · rw [h0]; exact hp
        · exact ih hrest q (by rw [hm]; exact h0)

/-- C9: every diff part produced by `computeWordDiff` has non-empty
text — each part text is a token or a concatenation of tokens, and
tokens are non-empty. -/
theorem computeWordDiff_parts_nonempty (a b : List Char) :
    ∀ p ∈ computeWordDiff a b, p.text ≠ [] := by
  intro p hp
  simp only [computeWordDiff] at hp
  have hfold : buildMap (buildMap [] (tokenize a)) (tokenize b) = wordListFor a b := rfl
  rw [hfold] at hp
  refine mergeAdjacent_text_nonempty _ ?_ p hp
  intro q hq
  exact wordList_nonempty a b q.text (expandSegs_text_mem _ _ q hq)

/-- Closed instance of the non-empty-parts theorem: the Equal part of
the identity diff of `hi` has non-empty text. -/
theorem computeWordDiff_parts_nonempty_witness :
    (DiffPart.mk 0 "hi".toList).text ≠ [] :=
  computeWordDiff_parts_nonempty "hi".toList "hi".toList (DiffPart.mk 0 "hi".toList)
    (by decide)

theorem tokenize_head_char : ∀ (d : Char) (ds : List Char),
    ∃ t ts, tokenize (d :: ds) = (d :: t) :: ts := by
  intro d ds
  cases htok : tokenize ds with
  | nil => exact ⟨[], [], by simp [tokenize, htok]⟩
  | cons u us =>
    cases u with
    | nil =>
      exfalso
      exact tokenize_nonempty ds [] (by rw [htok]; exact List.mem_cons_self _ _) rfl
    | cons e u2 =>
      by_cases hcls : isJsWhitespace d = isJsWhitespace e
      · exact ⟨e :: u2, us, by simp [tokenize, htok, hcls]⟩
      · exact ⟨[], (e :: u2) :: us, by simp [tokenize, htok, hcls]⟩

theorem tokenize_cons_eq (c : Char) (cs : List Char) :
    tokenize (c :: cs) =
      match tokenize cs with
      | [] => [[c]]
      | [] :: ts => [c] :: [] :: ts
      | (d :: t) :: ts =>
        if isJsWhitespace c = isJsWhitespace d then (c :: d :: t) :: ts
        else [c] :: (d :: t) :: ts := by
  rw [tokenize]

theorem tokenize_run (c : Char) : ∀ (m : Nat) (rest : List Char),
    (rest = [] ∨ ∃ d ds, rest = d :: ds ∧ isJsWhitespace d ≠ isJsWhitespace c) →
    tokenize (List.replicate (m + 1) c ++ rest) =
      List.replicate (m + 1) c :: tokenize rest := by
  intro m
  induction m with
  | zero =>
    intro rest h
    rcases h with rfl | ⟨d, ds, rfl, hne⟩
    · simp [tokenize]
    · obtain ⟨t, ts, htok⟩ := tokenize_head_char d ds
      have hcls : ¬(isJsWhitespace c = isJsWhitespace d) := fun h2 => hne h2.symm
      have hone : List.replicate (0 + 1) c ++ d :: ds = c :: d :: ds := by simp
      rw [hone, tokenize_cons_eq, htok]
      simp [hcls]
  | succ k ih =>
    intro rest h
    have hih := ih rest h
    have hrep : List.replicate (k + 1 + 1) c ++ rest =
        c :: (List.replicate (k + 1) c ++ rest) := by
      rw [List.replicate_succ, List.cons_append]
    rw [hrep, tokenize_cons_eq, hih, List.replicate_succ]
    simp [List.replicate_succ]

theorem abStr_succ (k i : Nat) :
    abStr (k + 1) i = wtok i ++ (stok i ++ abStr k (i + 1)) := by
  simp [abStr, abTokens]

theorem abStr_head (k i : Nat) : ∃ ds, abStr (k + 1) i = 'a' :: ds := by
  refine ⟨List.replicate i 'a' ++ (stok i ++ abStr k (i + 1)), ?_⟩
  rw [abStr_succ]
  simp [wtok, List.replicate_succ]

theorem tokenize_abStr : ∀ (n i : Nat), tokenize (abStr n i) = abTokens n i := by
  intro n
  induction n with
  | zero => intro i; rfl
  | succ k ih =>
    intro i
    rw [abStr_succ]
    have hcond1 : (stok i ++ abStr k (i + 1)) = [] ∨
        ∃ d ds, stok i ++ abStr k (i + 1) = d :: ds ∧
          isJsWhitespace d ≠ isJsWhitespace 'a' := by
      refine Or.inr ⟨' ', List.replicate i ' ' ++ abStr k (i + 1), ?_, by decide⟩
      simp [stok, List.replicate_succ]
    have hw := tokenize_run 'a' i (stok i ++ abStr k (i + 1)) hcond1
    have hcond2 : abStr k (i + 1) = [] ∨
        ∃ d ds, abStr k (i + 1) = d :: ds ∧
          isJsWhitespace d ≠ isJsWhitespace ' ' := by
      cases k with
      | zero => exact Or.inl rfl
      | succ m =>
        obtain ⟨ds, hds⟩ := abStr_head m (i + 1)
        exact Or.inr ⟨'a', ds, hds, by decide⟩
    have hs := tokenize_run ' ' i (abStr k (i + 1)) hcond2
    simp only [wtok, stok] at hw hs ⊢
    rw [hw, hs, ih (i + 1)]
    simp [abTokens, wtok, stok]

theorem wtok_length (i : Nat) : (wtok i).length = i + 1 := by
  simp [wtok]

theorem stok_length (i : Nat) : (stok i).length = i + 1 := by
  simp [stok]

theorem wtok_ne_stok (i j : Nat) : wtok i ≠ stok j := by
  intro h
  have h0 := congrArg List.head? h
  simp only [wtok, stok, List.replicate_succ, List.head?_cons, Option.some.injEq] at h0
  exact absurd h0 (by decide)

theorem wtok_inj {i j : Nat} (h : wtok i = wtok j) : i = j := by
  have h2 := congrArg List.length h
  simp only [wtok, List.length_replicate] at h2
  omega

theorem stok_inj {i j : Nat} (h : stok i = stok j) : i = j := by
  have h2 := congrArg List.length h
  simp only [stok, List.length_replicate] at h2
  omega

theorem abTokens_length : ∀ (n i : Nat), (abTokens n i).length = 2 * n := by
  intro n
  induction n with
  | zero => intro i; rfl
  | succ k ih =>
    intro i
    simp only [abTokens, List.length_cons, ih (i + 1)]
    omega

theorem abTokens_token_length : ∀ (n i : Nat), ∀ t ∈ abTokens n i, i < t.length := by
  intro n
  induction n with
  | zero => intro i t ht; simp [abTokens] at ht
  | succ k ih =>
    intro i t ht
    simp only [abTokens, List.mem_cons] at ht
    rcases ht with rfl | rfl | ht
    · simp only [wtok, List.length_replicate]
      omega
    · simp only [stok, List.length_replicate]
      omega
    · have := ih (i + 1) t ht
      omega

theorem abTokens_nodup : ∀ (n i : Nat), (abTokens n i).Nodup := by
  intro n
  induction n with
  | zero => intro i; simp [abTokens]
  | succ k ih =>
    intro i
    have hw : wtok i ∉ abTokens k (i + 1) := fun h => by
      have h2 := abTokens_token_length k (i + 1) (wtok i) h
      rw [wtok_length] at h2
      omega
    have hs : stok i ∉ abTokens k (i + 1) := fun h => by
      have h2 := abTokens_token_length k (i + 1) (stok i) h
      rw [stok_length] at h2
      omega
    simp only [abTokens, List.nodup_cons, List.mem_cons, not_or]
    exact ⟨⟨wtok_ne_stok i i, hw⟩, hs, ih (i + 1)⟩

theorem wtok_mem_abTokens : ∀ (n i k : Nat), k < n → wtok (i + k) ∈ abTokens n i := by
  intro n
  induction n with
  | zero => intro i k hk; omega
  | succ m ih =>
    intro i k hk
    cases k with
    | zero => simp [abTokens]
    | succ k2 =>
      have hmem := ih (i + 1) k2 (by omega)
      simp only [abTokens, List.mem_cons]
      right; right
      have he : i + (k2 + 1) = i + 1 + k2 := by omega
      rw [he]
      exact hmem

theorem idxOf_abTokens_w : ∀ (n i k : Nat), k < n →
    idxOf (wtok (i + k)) (abTokens n i) = 2 * k := by
  intro n
  induction n with
  | zero => intro i k hk; omega
  | succ m ih =>
    intro i k hk
    cases k with
    | zero => simp [abTokens, idxOf]
    | succ k2 =>
      have hne1 : wtok i ≠ wtok (i + (k2 + 1)) := fun h => by
        have := wtok_inj h
        omega
      have hne2 : stok i ≠ wtok (i + (k2 + 1)) := fun h => (wtok_ne_stok _ _ h.symm).elim
      simp only [abTokens, idxOf, if_neg hne1, if_neg hne2]
      have he : i + (k2 + 1) = i + 1 + k2 := by omega
      rw [he, ih (i + 1) k2 (by omega)]
      omega

theorem idxOf_abTokens_s : ∀ (n i k : Nat), k < n →
    idxOf (stok (i + k)) (abTokens n i) = 2 * k + 1 := by
  intro n
  induction n with
  | zero => intro i k hk; omega
  | succ m ih =>
    intro i k hk
    cases k with
    | zero =>
      simp [abTokens, idxOf, wtok_ne_stok i i]
    | succ k2 =>
      have hne1 : wtok i ≠ stok (i + (k2 + 1)) := wtok_ne_stok _ _
      have hne2 : stok i ≠ stok (i + (k2 + 1)) := fun h => by
        have := stok_inj h
        omega
      simp only [abTokens, idxOf, if_neg hne1, if_neg hne2]
      have he : i + (k2 + 1) = i + 1 + k2 := by omega
      rw [he, ih (i + 1) k2 (by omega)]
      omega

theorem abTokens_get_even : ∀ (n i j : Nat), j < n →
    (abTokens n i).get? (2 * j) = some (wtok (i + j)) := by
  intro n
  induction n with
  | zero => intro i j hj; omega
  | succ m ih =>
    intro i j hj
    cases j with
    | zero => simp [abTokens]
    | succ j2 =>
      have he : 2 * (j2 + 1) = 2 * j2 + 1 + 1 := by omega
      rw [he]
      simp only [abTokens, List.get?_cons_succ]
      rw [ih (i + 1) j2 (by omega)]
      have he2 : i + 1 + j2 = i + (j2 + 1) := by omega
      rw [he2]

theorem abTokens_get_odd : ∀ (n i j : Nat), j < n →
    (abTokens n i).get? (2 * j + 1) = some (stok (i + j)) := by
  intro n
  induction n with
  | zero => intro i j hj; omega
  | succ m ih =>
    intro i j hj
    cases j with
    | zero => simp [abTokens]
    | succ j2 =>
      have he : 2 * (j2 + 1) + 1 = 2 * j2 + 1 + 1 + 1 := by omega
      rw [he]
      simp only [abTokens, List.get?_cons_succ]
      rw [ih (i + 1) j2 (by omega)]
      have he2 : i + 1 + j2 = i + (j2 + 1) := by omega
      rw [he2]

theorem buildMap_fresh : ∀ (ts wl : List Token), (∀ t ∈ ts, t ∉ wl) → ts.Nodup →
    buildMap wl ts = wl ++ ts := by
  intro ts
  induction ts with
  | nil => intro wl _ _; simp [buildMap]
  | cons t ts ih =>
    intro wl hf hn
    have ht : t ∉ wl := hf t (List.mem_cons_self t ts)
    have hstep : buildMap wl (t :: ts) = buildMap (wl ++ [t]) ts := by
      simp [buildMap, addToken, ht]
    rw [List.nodup_cons] at hn
    rw [hstep, ih (wl ++ [t]) (fun u hu => by
      simp only [List.mem_append, List.mem_singleton, not_or]
      exact ⟨hf u (List.mem_cons_of_mem t hu), fun he => hn.1 (he ▸ hu)⟩) hn.2]
    simp

theorem buildMap_mem_eq : ∀ (ts wl : List Token), (∀ t ∈ ts, t ∈ wl) →
    buildMap wl ts = wl := by
  intro ts
  induction ts with
  | nil => intro wl _; rfl
  | cons t ts ih =>
    intro wl h
    have ht : t ∈ wl := h t (List.mem_cons_self t ts)
    have hstep : buildMap wl (t :: ts) = buildMap wl ts := by
      simp [buildMap, addToken, ht]
    rw [hstep]
    exact ih wl (fun u hu => h u (List.mem_cons_of_mem t hu))

theorem wordListFor_abStr_self (n : Nat) :
    wordListFor (abStr n 0) (abStr n 0) = abTokens n 0 := by
  show buildMap (buildMap [] (tokenize (abStr n 0))) (tokenize (abStr n 0)) = abTokens n 0
  rw [tokenize_abStr]
  have h1 : buildMap [] (abTokens n 0) = abTokens n 0 := by
    rw [buildMap_fresh (abTokens n 0) [] (fun t _ => List.not_mem_nil t)
      (abTokens_nodup n 0)]
    simp
  rw [h1, buildMap_mem_eq (abTokens n 0) (abTokens n 0) (fun t ht => ht)]

theorem wordListFor_abStr_nil (n : Nat) :
    wordListFor (abStr n 0) [] = abTokens n 0 := by
  show buildMap (buildMap [] (tokenize (abStr n 0))) (tokenize []) = abTokens n 0
  rw [tokenize_abStr]
  show buildMap [] (abTokens n 0) = abTokens n 0
  rw [buildMap_fresh (abTokens n 0) [] (fun t _ => List.not_mem_nil t)
    (abTokens_nodup n 0)]
  simp

theorem codeList_append : ∀ (m k j : Nat),
    codeList (m + k) j = codeList m j ++ codeList k (j + m) := by
  intro m
  induction m with
  | zero => intro k j; simp [codeList]
  | succ m2 ih =>
    intro k j
    have he : m2 + 1 + k = (m2 + k) + 1 := by omega
    rw [he]
    simp only [codeList, List.cons_append]
    rw [ih k (j + 1)]
    have he2 : j + 1 + m2 = j + (m2 + 1) := by omega
    rw [he2]

theorem codeList_mem_bound : ∀ (m j : Nat), ∀ c ∈ codeList m j,
    0x100 + 2 * j ≤ c ∧ c < 0x100 + 2 * (j + m) := by
  intro m
  induction m with
  | zero => intro j c hc; simp [codeList] at hc
  | succ k ih =>
    intro j c hc
    simp only [codeList, List.mem_cons] at hc
    rcases hc with rfl | rfl | hc
    · omega
    · omega
    · have := ih (j + 1) c hc
      omega

theorem map_getWordChar_abTokens (N : Nat) (hN : 0x100 + 2 * N ≤ 65536) :
    ∀ (m j : Nat), j + m ≤ N →
      (abTokens m j).map (getWordChar (abTokens N 0)) = codeList m j := by
  intro m
  induction m with
  | zero => intro j _; rfl
  | succ k ih =>
    intro j hj
    have hjN : j < N := by omega
    have hw := idxOf_abTokens_w N 0 j hjN
    have hs := idxOf_abTokens_s N 0 j hjN
    rw [Nat.zero_add] at hw hs
    have hbw : 0x100 + idxOf (wtok j) (abTokens N 0) < 65536 := by
      rw [hw]
      omega
    have hbs : 0x100 + idxOf (stok j) (abTokens N 0) < 65536 := by
      rw [hs]
      omega
    have hgw : getWordChar (abTokens N 0) (wtok j) = 0x100 + 2 * j := by
      rw [getWordChar_eq _ _ hbw, hw]
    have hgs : getWordChar (abTokens N 0) (stok j) = 0x100 + 2 * j + 1 := by
      rw [getWordChar_eq _ _ hbs, hs]
      omega
    simp only [abTokens, codeList, List.map_cons, hgw, hgs]
    rw [ih (j + 1) (by omega)]

theorem pointsOf_append_no_low : ∀ (xs ys : List Nat),
    (∀ c ∈ xs, isLowSurrogate c = false) →
    (∀ y, ys.head? = some y → isLowSurrogate y = false) →
    pointsOf (xs ++ ys) = xs ++ pointsOf ys := by
  intro xs
  induction xs with
  | nil => intro ys _ _; rfl
  | cons x xs ih =>
    intro ys hx hy
    have hxs := fun c hc => hx c (List.mem_cons_of_mem x hc)
    simp only [List.cons_append]
    cases hxy : xs ++ ys with
    | nil =>
      obtain ⟨hxs0, hys0⟩ := List.append_eq_nil.mp hxy
      subst hxs0
      subst hys0
      rfl
    | cons z zs =>
      have hz : isLowSurrogate z = false := by
        cases xs with
        | nil =>
          simp only [List.nil_append] at hxy
          exact hy z (by rw [hxy]; rfl)
        | cons x2 xs2 =>
          simp only [List.cons_append] at hxy
          have he := (List.cons.inj hxy).1
          rw [← he]
          exact hx x2 (List.mem_cons_of_mem x (List.mem_cons_self x2 xs2))
      rw [pointsOf, if_neg (by rw [hz]; simp), ← hxy, ih ys hxs hy]

theorem revLookup_ge_none (wl : List Token) (code : Nat) (h : 65536 ≤ code) :
    revLookup wl code = none := by
  rw [revLookup]
  exact range_foldl_none (fun i => (0x100 + i) % 65536 = code) (fun i => wl.get? i)
    wl.length (fun i hi hP => by
      have hmod := Nat.mod_lt (0x100 + i) (show 0 < 65536 by norm_num)
      omega)

theorem revLookup_nowrap (wl : List Token) (code : Nat)
    (hlen : wl.length ≤ 65280) (hc : 0x100 ≤ code) :
    revLookup wl code = wl.get? (code - 0x100) := by
  by_cases hlt : code - 0x100 < wl.length
  · rw [revLookup]
    exact range_foldl_last (fun i => (0x100 + i) % 65536 = code)
      (fun i => wl.get? i) wl.length (code - 0x100) hlt
      (by
        show (0x100 + (code - 0x100)) % 65536 = code
        omega)
      (fun i hi hPi => by
        have hmod : (0x100 + i) % 65536 = 0x100 + i := Nat.mod_eq_of_lt (by omega)
        omega)
  · rw [revLookup]
    rw [range_foldl_none (fun i => (0x100 + i) % 65536 = code)
      (fun i => wl.get? i) wl.length
      (fun i hi hPi => by
        have hmod : (0x100 + i) % 65536 = 0x100 + i := Nat.mod_eq_of_lt (by omega)
        omega)]
    exact (List.get?_eq_none.mpr (by omega)).symm

theorem filterMap_revLookup_codeList (N : Nat) (hN2 : 2 * N ≤ 65280) :
    ∀ (m j : Nat), j + m ≤ N →
      (codeList m j).filterMap
          (fun code => (revLookup (abTokens N 0) code).map fun w => DiffPart.mk 0 w) =
        (abTokens m j).map (DiffPart.mk 0) := by
  intro m
  induction m with
  | zero => intro j _; rfl
  | succ k ih =>
    intro j hj
    have hlen : (abTokens N 0).length ≤ 65280 := by
      rw [abTokens_length]
      omega
    have hrw : revLookup (abTokens N 0) (0x100 + 2 * j) = some (wtok j) := by
      rw [revLookup_nowrap _ _ hlen (by omega)]
      have he : 0x100 + 2 * j - 0x100 = 2 * j := by omega
      rw [he]
      have hg := abTokens_get_even N 0 j (by omega)
      rw [Nat.zero_add] at hg
      exact hg
    have hrs : revLookup (abTokens N 0) (0x100 + 2 * j + 1) = some (stok j) := by
      rw [revLookup_nowrap _ _ hlen (by omega)]
      have he : 0x100 + 2 * j + 1 - 0x100 = 2 * j + 1 := by omega
      rw [he]
      have hg := abTokens_get_odd N 0 j (by omega)
      rw [Nat.zero_add] at hg
      exact hg
    simp only [codeList, abTokens, List.filterMap_cons, hrw, hrs, Option.map_some',
      List.map_cons]
    rw [ih (j + 1) (by omega)]

theorem abStr_length : ∀ (n i : Nat), (abStr n i).length = n * (2 * i + n + 1) := by
  intro n
  induction n with
  | zero => intro i; simp [abStr, abTokens]
  | succ k ih =>
    intro i
    rw [abStr_succ]
    simp only [List.length_append, wtok_length, stok_length, ih (i + 1)]
    ring

theorem codeList_ne_nil (k j : Nat) : codeList (k + 1) j ≠ [] := by
  simp [codeList]

theorem cwdSelf_big :
    computeWordDiff (abStr 0x6D81 0) (abStr 0x6D81 0) =
      [DiffPart.mk 0 (abStr 0x6D7F 0 ++ (wtok 0x6D7F ++ stok 0x6D80))] := by
  simp only [computeWordDiff]
  have hfold : buildMap (buildMap [] (tokenize (abStr 0x6D81 0)))
      (tokenize (abStr 0x6D81 0)) = abTokens 0x6D81 0 := wordListFor_abStr_self 0x6D81
  rw [hfold, tokenize_abStr]
  rw [map_getWordChar_abTokens 0x6D81 (by norm_num) 0x6D81 0 (by norm_num)]
  have hne : codeList 0x6D81 0 ≠ [] := by
    rw [show (0x6D81 : Nat) = 0x6D80 + 1 by norm_num]
    exact codeList_ne_nil 0x6D80 0
  have hdm : diffMain (codeList 0x6D81 0) (codeList 0x6D81 0) =
      [(0, codeList 0x6D81 0)] := diffMainF_self _ _ (by omega) hne
  rw [hdm, cleanupSemantic_single 0 _ hne]
  have hsplit : codeList 0x6D81 0 =
      (codeList 0x6D7F 0 ++ [0xDBFE]) ++ [0xDBFF, 0xDC00, 0xDC01] := by
    rw [show (0x6D81 : Nat) = 0x6D7F + 2 by norm_num, codeList_append 0x6D7F 2 0]
    rw [show codeList 2 (0 + 0x6D7F) = [0xDBFE, 0xDBFF, 0xDC00, 0xDC01] by decide]
    simp
  have hlow : ∀ c ∈ codeList 0x6D7F 0 ++ [0xDBFE], isLowSurrogate c = false := by
    intro c hc
    rcases List.mem_append.mp hc with h | h
    · have hb := codeList_mem_bound 0x6D7F 0 c h
      simp only [isLowSurrogate, Bool.and_eq_false_iff, decide_eq_false_iff_not]
      left
      omega
    · rcases List.mem_singleton.mp h with rfl
      decide
  have hpts : pointsOf (codeList 0x6D81 0) =
      (codeList 0x6D7F 0 ++ [0xDBFE]) ++ [combineSurrogates 0xDBFF 0xDC00, 0xDC01] := by
    rw [hsplit, pointsOf_append_no_low _ _ hlow
      (fun y hy => by
        simp only [List.head?_cons, Option.some.injEq] at hy
        rw [← hy]
        decide)]
    congr 1
  have hexp : expandSegs (abTokens 0x6D81 0) [(0, codeList 0x6D81 0)] =
      (abTokens 0x6D7F 0 ++ [wtok 0x6D7F] ++ [stok 0x6D80]).map (DiffPart.mk 0) := by
    simp only [expandSegs, List.flatMap_cons, List.flatMap_nil, List.append_nil]
    rw [hpts, List.filterMap_append, List.filterMap_append]
    have hA : (codeList 0x6D7F 0).filterMap
        (fun code => (revLookup (abTokens 0x6D81 0) code).map fun w => DiffPart.mk 0 w) =
        (abTokens 0x6D7F 0).map (DiffPart.mk 0) :=
      filterMap_revLookup_codeList 0x6D81 (by norm_num) 0x6D7F 0 (by norm_num)
    have hlen : (abTokens 0x6D81 0).length ≤ 65280 := by
      rw [abTokens_length]
      norm_num
    have hrB : revLookup (abTokens 0x6D81 0) 0xDBFE = some (wtok 0x6D7F) := by
      rw [revLookup_nowrap _ _ hlen (by norm_num)]
      rw [show (0xDBFE : Nat) - 0x100 = 2 * 0x6D7F by norm_num]
      have hg := abTokens_get_even 0x6D81 0 0x6D7F (by norm_num)
      rw [Nat.zero_add] at hg
      exact hg
    have hr1 : revLookup (abTokens 0x6D81 0) (combineSurrogates 0xDBFF 0xDC00) = none :=
      revLookup_ge_none _ _ (by norm_num [combineSurrogates])
    have hr2 : revLookup (abTokens 0x6D81 0) 0xDC01 = some (stok 0x6D80) := by
      rw [revLookup_nowrap _ _ hlen (by norm_num)]
      rw [show (0xDC01 : Nat) - 0x100 = 2 * 0x6D80 + 1 by norm_num]
      have hg := abTokens_get_odd 0x6D81 0 0x6D80 (by norm_num)
      rw [Nat.zero_add] at hg
      exact hg
    rw [hA]
    simp [hrB, hr1, hr2]
  rw [hexp, mergeAdjacent_map_const 0 _ (by simp)]
  simp [abStr]

/-- Counterexample to the unamended reconstruction claim: for the
56066-token input built from alternating letter and space runs of
growing lengths, the tokens discovered at indices `0xDAFF` and `0xDB00`
receive the adjacent surrogate code units `0xDBFF`/`0xDC00`, the
code-point iteration of the encoded string coalesces them into one
code point with no reverse-map entry, both tokens disappear from the
expansion, and the Delete+Equal concatenation no longer reconstructs
the original. -/
theorem computeWordDiff_reconstruction_counterexample :
    delEqText (computeWordDiff (abStr 0x6D81 0) (abStr 0x6D81 0)) ≠ abStr 0x6D81 0 := by
  rw [cwdSelf_big]
  intro h
  have h2 : abStr 0x6D7F 0 ++ (wtok 0x6D7F ++ stok 0x6D80) = abStr 0x6D81 0 := by
    have h3 := h
    simp only [delEqText, List.flatMap_cons, List.flatMap_nil, List.append_nil] at h3
    simpa using h3
  have hlen := congrArg List.length h2
  simp only [List.length_append] at hlen
  simp only [abStr_length, wtok_length, stok_length] at hlen
  norm_num at hlen

/-- Counterexample to the unamended edge-case claim: the same
56066-token input is non-empty, yet its self-diff is not the single
Equal part carrying the whole text — two tokens are lost to surrogate
coalescing during expansion. -/
theorem computeWordDiff_edge_counterexample :
    abStr 0x6D81 0 ≠ [] ∧
    computeWordDiff (abStr 0x6D81 0) (abStr 0x6D81 0) ≠
      [DiffPart.mk 0 (abStr 0x6D81 0)] := by
  constructor
  · intro h
    have hlen := congrArg List.length h
    rw [abStr_length] at hlen
    norm_num at hlen
  · rw [cwdSelf_big]
    intro h
    have h2 : abStr 0x6D7F 0 ++ (wtok 0x6D7F ++ stok 0x6D80) = abStr 0x6D81 0 := by
      simpa using h
    have hlen := congrArg List.length h2
    simp only [List.length_append] at hlen
    simp only [abStr_length, wtok_length, stok_length] at hlen
    norm_num at hlen

/-- Counterexample to the unamended unique-code claim: with 65538
distinct tokens, the token discovered at index `0x10000` gets
`String.fromCharCode(0x100 + 0x10000)`, whose 16-bit truncation
collides with the code unit of the very first token — two distinct
tokens of the input share one code. -/
theorem getWordChar_collision_counterexample :
    wtok 0 ∈ tokenize (abStr 0x8001 0) ∧
    wtok 0x8000 ∈ tokenize (abStr 0x8001 0) ∧
    wtok 0 ≠ wtok 0x8000 ∧
    getWordChar (wordListFor (abStr 0x8001 0) []) (wtok 0) =
      getWordChar (wordListFor (abStr 0x8001 0) []) (wtok 0x8000) := by
  refine ⟨?_, ?_, ?_, ?_⟩
  · rw [tokenize_abStr]
    have hm := wtok_mem_abTokens 0x8001 0 0 (by norm_num)
    simpa using hm
  · rw [tokenize_abStr]
    have hm := wtok_mem_abTokens 0x8001 0 0x8000 (by norm_num)
    simpa using hm
  · intro h
    have h2 := congrArg List.length h
    rw [wtok_length, wtok_length] at h2
    norm_num at h2
  · rw [wordListFor_abStr_nil]
    have h0 := idxOf_abTokens_w 0x8001 0 0 (by norm_num)
    have h1 := idxOf_abTokens_w 0x8001 0 0x8000 (by norm_num)
    rw [Nat.zero_add] at h0 h1
    rw [getWordChar, getWordChar, h0, h1]
